import Mathlib

/-!
# Serverledge function-composition core

A shallow embedding of `internal/fc/progress.go`, `internal/fc/asl.go`,
`internal/asl/path.go` and `internal/executor/server.go`.  Go slices of
`*DagNodeInfo` are lists of records here; every entry of a ledger is taken to
be an object of its own (no pointer occurs twice in one slice), which is what
`InitProgressRecursive` and JSON decoding produce.  Go `int` values are
integers, with `math.MaxInt` written `MaxInt`; the sum `maxGroup + 1` of
`moveEndNodeAtTheEnd`, whose operand is any group of the list, is reduced to
the 64-bit range by `wrapInt`, while the group counter of `extractNodeInfo`
counts the depth of the walk from 0.  A Go `error` is an optional
message, `none` standing for `nil`.  A Go `string` is a string of characters;
the characters the code looks for are ASCII, so that looking for the
character and looking for its byte agree.
-/

namespace asl

/-- Go `strings.HasPrefix`. -/
def HasPrefix (s pre : String) : Bool :=
  pre.data.isPrefixOf s.data

/-- Go `strings.Contains`: some suffix of `s` starts with `substr`. -/
def Contains (s substr : String) : Bool :=
  s.data.tails.any (fun t => substr.data.isPrefixOf t)

/-- The type `Path`. -/
abbrev Path := String

/-- Function `NewPath`: the path (`none` is the nil pointer) and the error. -/
def NewPath (s : String) : Option Path × Option String :=
  if !HasPrefix s "$" then (none, some "A JSONPath should start with a $ character")
  else if Contains s "@" || Contains s "@" then
    (none, some ("A reference path should not contain any of the following characters: "
      ++ "'@' ',' ':' '?' "))
  else (some s, none)

/-- Modelled from the spec: a literal value, the operand of a comparison (the
field `Operand` is an `interface{}` filled by the JSON decoder, declared
outside the files at hand).  A number stands for itself; no arithmetic is done
on it. -/
inductive Literal where
  | null
  | bool (b : Bool)
  | number (n : Int)
  | string (s : String)
  deriving DecidableEq, Repr

/-- Modelled from the spec: the struct behind `t.Test.ComparisonOperator`, the
name of the operator and its operand. -/
structure ComparisonOperator where
  Kind : String
  Operand : Literal
  deriving DecidableEq, Repr

/-- Modelled from the spec: the struct behind `t.Test`, the variable tested and
the comparison. -/
structure TestExpression where
  Variable : String
  ComparisonOperator : ComparisonOperator
  deriving DecidableEq, Repr

/-- Modelled from the spec: a value of the interface `ChoiceRule`, which is a
`*BooleanExpression` (its sub-rules are not read by the code at hand), a
`*DataTestExpression`, or a value of any other type. -/
inductive ChoiceRule where
  | BooleanExpression
  | DataTestExpression (Test : TestExpression)
  | other
  deriving DecidableEq, Repr

/-! ### Concrete inputs -/

/-- A path with a comma. -/
def pathWithComma : String := "$.a,b"

/-- A well-formed path. -/
def pathPlain : String := "$.store.book"

end asl

namespace fc

abbrev ReqId := String

abbrev DagNodeId := String

/-- Go `error`: `none` is `nil`. -/
abbrev error := Option String

/-- The constant `math.MaxInt` of a 64-bit platform. -/
def MaxInt : Int := 9223372036854775807

/-- The constant `math.MinInt` of a 64-bit platform. -/
def MinInt : Int := -9223372036854775808

/-- The value a Go `int` holds after an arithmetic operation whose exact
result is `x`: `x` reduced modulo `2^64` into the range from `math.MinInt` to
`math.MaxInt` (two's complement wrap-around). -/
def wrapInt (x : Int) : Int :=
  (x + 9223372036854775808) % 18446744073709551616 - 9223372036854775808

/-- Status constants of `progress.go` (`iota` order). -/
inductive DagNodeStatus where
  | Pending
  | Executed
  | Skipped
  | Failed
  | Waiting
  deriving DecidableEq, Repr

/-- Node type constants of `progress.go` (`iota` order). -/
inductive DagNodeType where
  | Start
  | End
  | Simple
  | Choice
  | FanOut
  | FanIn
  deriving DecidableEq, Repr

/-- The struct `DagNodeInfo`; the field `Type` is written `Typ`. -/
structure DagNodeInfo where
  Id : DagNodeId
  Typ : DagNodeType
  Status : DagNodeStatus
  Group : Int
  Branch : Int
  deriving DecidableEq, Repr

/-- The struct `Progress`. -/
structure Progress where
  ReqId : ReqId
  DagNodes : List DagNodeInfo
  NextGroup : Int
  deriving DecidableEq, Repr

open DagNodeStatus

/-- First loop of `NextNodes`: `some g` is the value of `minPendingGroup` when
the loop is left (by `break` or at the end of the slice), `none` is the early
`return` with an error on a `Failed` node. -/
def minPendingGroupLoop : List DagNodeInfo → Option Int
  | [] => some (-1)
  | node :: rest =>
    if node.Status = Pending then some node.Group
    else if node.Status = Failed then none
    else minPendingGroupLoop rest

/-- Second loop of `NextNodes`: the ids appended to `nodeIds`. -/
def collectNodeIds (minPendingGroup : Int) (nodes : List DagNodeInfo) : List DagNodeId :=
  nodes.foldl
    (fun nodeIds node =>
      if node.Group = minPendingGroup ∧ node.Status = Pending then nodeIds ++ [node.Id]
      else nodeIds)
    []

/-- Method `Progress.NextNodes`: the returned pair and the ledger afterwards. -/
def NextNodes (p : Progress) : (List DagNodeId × error) × Progress :=
  match minPendingGroupLoop p.DagNodes with
  | none => (([], some "the execution is failed "), p)
  | some minPendingGroup =>
    ((collectNodeIds minPendingGroup p.DagNodes, none), { p with NextGroup := minPendingGroup })

/-- The loop shared by `CompleteNode`, `SkipNode` and `FailNode`: the status of
the first node whose id is `id` is overwritten; `none` when the loop ends
without finding one. -/
def setStatusLoop (id : DagNodeId) (s : DagNodeStatus) : List DagNodeInfo → Option (List DagNodeInfo)
  | [] => none
  | node :: rest =>
    if node.Id = id then some ({ node with Status := s } :: rest)
    else (setStatusLoop id s rest).map (fun r => node :: r)

/-- Method `Progress.CompleteNode`: the ledger afterwards and the error. -/
def CompleteNode (p : Progress) (id : DagNodeId) : Progress × error :=
  match setStatusLoop id Executed p.DagNodes with
  | some nodes => ({ p with DagNodes := nodes }, none)
  | none =>
    (p, some ("no node to complete with id " ++ id ++ " exists in the dag for request " ++ p.ReqId))

/-- Method `Progress.SkipNode`. -/
def SkipNode (p : Progress) (id : DagNodeId) : Progress × error :=
  match setStatusLoop id Skipped p.DagNodes with
  | some nodes => ({ p with DagNodes := nodes }, none)
  | none =>
    (p, some ("no node to skip with id " ++ id ++ " exists in the dag for request " ++ p.ReqId))

/-- Method `Progress.FailNode`. -/
def FailNode (p : Progress) (id : DagNodeId) : Progress × error :=
  match setStatusLoop id Failed p.DagNodes with
  | some nodes => ({ p with DagNodes := nodes }, none)
  | none =>
    (p, some ("no node to fail with id " ++ id ++ " exists in the dag for request " ++ p.ReqId))

/-- Method `Progress.IsCompleted`. -/
def IsCompleted (p : Progress) : Bool :=
  p.DagNodes.all (fun node => decide (node.Status ≠ Pending))

/-- Loop of `moveEndNodeAtTheEnd`: `i` is the loop index, `e` holds
`(indexToRemove, endNodeInfo)` once an `End` entry has been met (`none` is
`indexToRemove == -1`); the result is the final `e` and `maxGroup`. -/
def moveEndLoop : List DagNodeInfo → Nat → Option (Nat × DagNodeInfo) → Int →
    Option (Nat × DagNodeInfo) × Int
  | [], _, e, maxGroup => (e, maxGroup)
  | nodeInfo :: rest, i, e, maxGroup =>
    if nodeInfo.Typ = DagNodeType.End then moveEndLoop rest (i + 1) (some (i, nodeInfo)) maxGroup
    else if nodeInfo.Group > maxGroup then moveEndLoop rest (i + 1) e nodeInfo.Group
    else moveEndLoop rest (i + 1) e maxGroup

/-- Function `moveEndNodeAtTheEnd`; the sum `maxGroup + 1` wraps around as a
Go `int` does. -/
def moveEndNodeAtTheEnd (nodeInfos : List DagNodeInfo) : List DagNodeInfo :=
  match moveEndLoop nodeInfos 0 none 0 with
  | (some (indexToRemove, endNodeInfo), maxGroup) =>
    nodeInfos.eraseIdx indexToRemove ++ [{ endNodeInfo with Group := wrapInt (maxGroup + 1) }]
  | (none, _) => nodeInfos

/-- Outcome of a piece of Go code that may panic; `outOfFuel` is the model's
own outcome when the bound on the number of loop rounds or nested calls is
used up. -/
inductive Res (α : Type) where
  | ok (a : α)
  | panic
  | outOfFuel
  deriving DecidableEq, Repr

/-- Sequencing of possibly panicking steps. -/
def Res.bind {α β : Type} (r : Res α) (f : α → Res β) : Res β :=
  match r with
  | Res.ok a => f a
  | Res.panic => Res.panic
  | Res.outOfFuel => Res.outOfFuel

/-- Body of the first loop of `popMinGroupAndBranchNode` on the state
`(minGroup, minGroupNodeInfo)`: its two `if` statements in sequence. -/
def minGroupStep (st : Int × List DagNodeInfo) (info : DagNodeInfo) : Int × List DagNodeInfo :=
  let st1 : Int × List DagNodeInfo := if info.Group < st.1 then (info.Group, [info]) else st
  if info.Group = st1.1 then (st1.1, st1.2 ++ [info]) else st1

/-- First loop of `popMinGroupAndBranchNode`: the final `minGroup` and
`minGroupNodeInfo`. -/
def minGroupLoop (infos : List DagNodeInfo) : Int × List DagNodeInfo :=
  infos.foldl minGroupStep (MaxInt, [])

/-- Body of the second loop of `popMinGroupAndBranchNode` on the state
`(minBranch, minGroupAndBranchNode)`; `none` is the nil pointer. -/
def minBranchStep (st : Int × Option DagNodeInfo) (info : DagNodeInfo) :
    Int × Option DagNodeInfo :=
  if info.Branch < st.1 then (info.Branch, some info) else st

/-- Second loop of `popMinGroupAndBranchNode`: the final `minBranch` and
`minGroupAndBranchNode`. -/
def minBranchLoop (minGroupNodeInfo : List DagNodeInfo) : Int × Option DagNodeInfo :=
  minGroupNodeInfo.foldl minBranchStep (MaxInt, none)

/-- Third loop of `popMinGroupAndBranchNode`: the index of the first entry with
the given id, if there is one. -/
def findIndexById (id : DagNodeId) : List DagNodeInfo → Option Nat
  | [] => none
  | info :: rest => if info.Id = id then some 0 else (findIndexById id rest).map (fun i => i + 1)

/-- Function `popMinGroupAndBranchNode`: the node returned and the slice left
in `*infos`.  It panics when `minGroupAndBranchNode` is still nil at the third
loop, and on an empty slice (slice bounds out of range). -/
def popMinGroupAndBranchNode (infos : List DagNodeInfo) : Res (DagNodeInfo × List DagNodeInfo) :=
  match infos with
  | [] => Res.panic
  | _ :: _ =>
    match (minBranchLoop (minGroupLoop infos).2).2 with
    | none => Res.panic
    | some minGroupAndBranchNode =>
      let indexToRemove := (findIndexById minGroupAndBranchNode.Id infos).getD 0
      Res.ok (minGroupAndBranchNode, infos.eraseIdx indexToRemove)

/-- Loop of `reorder`, bounded by `fuel` rounds. -/
def reorderLoop : Nat → List DagNodeInfo → List DagNodeInfo → Res (List DagNodeInfo)
  | _, [], reordered => Res.ok reordered
  | 0, _ :: _, _ => Res.outOfFuel
  | fuel + 1, info :: rest, reordered =>
    (popMinGroupAndBranchNode (info :: rest)).bind
      (fun r => reorderLoop fuel r.2 (reordered ++ [r.1]))

/-- Function `reorder`, with a bound on the rounds of its loop. -/
def reorder (fuel : Nat) (infos : List DagNodeInfo) : Res (List DagNodeInfo) :=
  reorderLoop fuel infos []

/-- Modelled from the spec: the node of a DAG (the interface `DagNode` and its
six implementations are declared outside the files at hand).  A node carries
its identifier, its variant, its branch index, and the ids of its successors
(`GetNext()`; for a `Choice` node its `Alternatives`). -/
structure DagNode where
  Id : DagNodeId
  Typ : DagNodeType
  BranchId : Int
  Next : List DagNodeId
  deriving DecidableEq, Repr

/-- Modelled from the spec: the DAG, a distinguished start node and the nodes
by id (the struct `Dag` is declared outside the files at hand). -/
structure Dag where
  Start : DagNode
  Nodes : List DagNode
  deriving DecidableEq, Repr

/-- Modelled from the spec: `dag.Find`, which resolves a successor id. -/
def Dag.Find (dag : Dag) (id : DagNodeId) : Option DagNode :=
  dag.Nodes.find? (fun n => decide (n.Id = id))

/-- Function `newNodeInfo`; `parseType` reads the variant of the node. -/
def newNodeInfo (dNode : DagNode) (group : Int) : DagNodeInfo :=
  { Id := dNode.Id, Typ := dNode.Typ, Status := Pending, Group := group, Branch := dNode.BranchId }

/-- The `DagNodeInfo` objects allocated so far; a pointer is a position. -/
abbrev Heap := List DagNodeInfo

/-- Function `isNodeInfoPresent` on a slice of pointers. -/
def isNodeInfoPresent (node : DagNodeId) (infos : List Nat) (heap : Heap) : Bool :=
  infos.any (fun ptr => match heap[ptr]? with
    | some nodeInfo => decide (nodeInfo.Id = node)
    | none => false)

/-- The loop of `extractNodeInfo` that overwrites, through its pointer, the
group of the first entry of `infos` with the id of the `FanIn` node. -/
def setGroupLoop (id : DagNodeId) (group : Int) : List Nat → Heap → Heap
  | [], heap => heap
  | ptr :: rest, heap =>
    match heap[ptr]? with
    | some nodeInfo =>
      if nodeInfo.Id = id then heap.set ptr { nodeInfo with Group := group }
      else setGroupLoop id group rest heap
    | none => setGroupLoop id group rest heap

/-- Body of the loop `for _, add := range toAdd` of `extractNodeInfo`. -/
def mergeStep (heap : Heap) (infos : List Nat) (add : Nat) : List Nat :=
  match heap[add]? with
  | some addInfo => if isNodeInfoPresent addInfo.Id infos heap then infos else infos ++ [add]
  | none => infos

/-- The loop `for _, add := range toAdd` of `extractNodeInfo`. -/
def mergeToAdd (toAdd : List Nat) (infos : List Nat) (heap : Heap) : List Nat :=
  toAdd.foldl (mergeStep heap) infos

/-- Function `extractNodeInfo`, with a bound `fuel` on the depth of the nested
calls.  The slice `infos` holds pointers into `heap`, so that the assignment
`nodeInfo.Group = group` made in a nested call is seen by every slice that
holds the pointer.  `newNodeInfo` allocates only when the object is kept.  A
slice itself is a value: what `append` writes in a nested call lies past the
length of the caller's slice, and the caller's own `append` writes the same
pointers there in the same order.  A missing successor is a nil node (nil
dereference in `newNodeInfo`), an empty successor list an index out of
range. -/
def extractNodeInfo (fuel : Nat) (dag : Dag) (node : Option DagNode) (group : Int)
    (infos : List Nat) (heap : Heap) : Res (List Nat × Heap) :=
  match fuel with
  | 0 => Res.outOfFuel
  | fuel + 1 =>
    match node with
    | none => Res.panic
    | some node =>
      let st : List Nat × Heap :=
        if !isNodeInfoPresent node.Id infos heap then
          (infos ++ [heap.length], heap ++ [newNodeInfo node group])
        else if node.Typ = DagNodeType.FanIn then
          (infos, setGroupLoop node.Id group infos heap)
        else (infos, heap)
      let group := group + 1
      match node.Typ with
      | DagNodeType.End => Res.ok st
      | DagNodeType.Start | DagNodeType.Simple | DagNodeType.FanIn =>
        match node.Next with
        | [] => Res.panic
        | next :: _ =>
          (extractNodeInfo fuel dag (dag.Find next) group st.1 st.2).bind
            (fun r => Res.ok (mergeToAdd r.1 st.1 r.2, r.2))
      | DagNodeType.Choice | DagNodeType.FanOut =>
        node.Next.foldl
          (fun acc branchId =>
            acc.bind (fun cur =>
              (extractNodeInfo fuel dag (dag.Find branchId) group cur.1 cur.2).bind
                (fun r => Res.ok (mergeToAdd r.1 cur.1 r.2, r.2))))
          (Res.ok st)

/-- Function `InitProgressRecursive`; `fuel` bounds both the depth of
`extractNodeInfo` and the rounds of `reorder`. -/
def InitProgressRecursive (fuel : Nat) (reqId : ReqId) (dag : Dag) : Res Progress :=
  (extractNodeInfo fuel dag (some dag.Start) 0 [] []).bind (fun r =>
    let nodeInfos := r.1.filterMap (fun ptr => r.2[ptr]?)
    let nodeInfos := moveEndNodeAtTheEnd nodeInfos
    (reorder fuel nodeInfos).bind (fun nodeInfos =>
      Res.ok { ReqId := reqId, DagNodes := nodeInfos, NextGroup := 0 }))

/-- Method `Progress.SkipAll`: the ledger afterwards and the error. -/
def SkipAll (p : Progress) : List DagNode → Progress × error
  | [] => (p, none)
  | node :: rest =>
    match SkipNode p node.Id with
    | (q, none) => SkipAll q rest
    | (q, some err) => (q, some err)

/-- Method `DagNodeInfo.Equals`. -/
def DagNodeInfo.Equals (ni ni2 : DagNodeInfo) : Bool :=
  decide (ni.Id = ni2.Id) && decide (ni.Typ = ni2.Typ) && decide (ni.Status = ni2.Status)
    && decide (ni.Group = ni2.Group) && decide (ni.Branch = ni2.Branch)

/-- Loop of `Progress.Equals` from index `i` on, the two lists being the nodes
of `p` and of `p2` from that index on: `some false` is the early `return
false`, `none` the end of the loop; `p2.DagNodes[i]` is an index out of range
when the nodes of `p2` are used up. -/
def equalsLoop : List DagNodeInfo → List DagNodeInfo → Res (Option Bool)
  | [], _ => Res.ok none
  | _ :: _, [] => Res.panic
  | ni :: rest, ni2 :: rest2 =>
    if !ni.Equals ni2 then Res.ok (some false) else equalsLoop rest rest2

/-- Method `Progress.Equals`. -/
def Progress.Equals (p p2 : Progress) : Res Bool :=
  (equalsLoop p.DagNodes p2.DagNodes).bind (fun r =>
    match r with
    | some b => Res.ok b
    | none => Res.ok (decide (p.ReqId = p2.ReqId) && decide (p.NextGroup = p2.NextGroup)))

/-! ## `asl.go`: conditions of a choice -/

/-- Modelled from the spec: an operand of a comparison, a named parameter or a
literal value (the struct `ParamOrValue` is declared outside the files at
hand). -/
inductive ParamOrValue where
  | Param (name : String)
  | Value (val : asl.Literal)
  deriving DecidableEq, Repr

/-- Modelled from the spec: a condition, a boolean expression over parameters
and literal values with equality, strict less-than, strict greater-than,
conjunction, disjunction, negation and the constants (the type `Condition` is
declared outside the files at hand).  `Zero` is the zero value, which
`var condition Condition` holds until it is assigned. -/
inductive Condition where
  | Zero
  | Const (b : Bool)
  | Eq (a b : ParamOrValue)
  | Lt (a b : ParamOrValue)
  | Gt (a b : ParamOrValue)
  | And (c d : Condition)
  | Or (c d : Condition)
  | Not (c : Condition)
  deriving DecidableEq, Repr

/-- Modelled from the spec: `NewParam`, the operand that names a parameter. -/
def NewParam (name : String) : ParamOrValue := ParamOrValue.Param name

/-- Modelled from the spec: `NewValue`, the operand that holds a literal. -/
def NewValue (val : asl.Literal) : ParamOrValue := ParamOrValue.Value val

/-- Modelled from the spec: `NewEqParamCondition`, equality of two operands. -/
def NewEqParamCondition (a b : ParamOrValue) : Condition := Condition.Eq a b

/-- Modelled from the spec: `NewSmallerParamCondition`, strict less-than. -/
def NewSmallerParamCondition (a b : ParamOrValue) : Condition := Condition.Lt a b

/-- Modelled from the spec: `NewGreaterParamCondition`, strict greater-than. -/
def NewGreaterParamCondition (a b : ParamOrValue) : Condition := Condition.Gt a b

/-- Modelled from the spec: `NewEqCondition` as `BuildConditionFromRule` calls
it, equality of an operand and a Go literal (`true`, `false`, `nil`). -/
def NewEqCondition (a : ParamOrValue) (lit : asl.Literal) : Condition :=
  Condition.Eq a (ParamOrValue.Value lit)

/-- Modelled from the spec: `NewOr`, disjunction. -/
def NewOr (c d : Condition) : Condition := Condition.Or c d

/-- Modelled from the spec: `NewNot`, negation. -/
def NewNot (c : Condition) : Condition := Condition.Not c

/-- Modelled from the spec: `NewConstCondition`, a constant. -/
def NewConstCondition (b : Bool) : Condition := Condition.Const b

/-- The inner `switch` of `BuildConditionFromRule` on the name of the
comparison operator: the value of `condition` after it, or the panic
`"Not implemented"`.  A Go `case` does not fall through: a `case` with an empty
body, or with `break` alone, leaves `condition` at its zero value, and so does
a name that no `case` lists. -/
def compileDataTest (t : asl.TestExpression) : Res Condition :=
  let param := NewParam t.Variable
  let val := NewValue t.ComparisonOperator.Operand
  match t.ComparisonOperator.Kind with
  | "StringEquals" => Res.ok (NewEqParamCondition param val)
  | "StringEqualsPath" => Res.ok Condition.Zero
  | "StringLessThan" => Res.ok Condition.Zero
  | "StringLessThanPath" => Res.ok Condition.Zero
  | "StringGreaterThan" => Res.ok Condition.Zero
  | "StringGreaterThanPath" => Res.ok Condition.Zero
  | "StringLessThanEquals" => Res.ok Condition.Zero
  | "StringLessThanEqualsPath" => Res.ok Condition.Zero
  | "StringGreaterThanEquals" => Res.ok Condition.Zero
  | "StringGreaterThanEqualsPath" => Res.ok Condition.Zero
  | "StringMatches" => Res.panic
  | "NumericEquals" => Res.ok (NewEqParamCondition param val)
  | "NumericEqualsPath" => Res.panic
  | "NumericLessThan" => Res.ok (NewSmallerParamCondition param val)
  | "NumericLessThanPath" => Res.panic
  | "NumericGreaterThan" => Res.ok (NewGreaterParamCondition param val)
  | "NumericGreaterThanPath" => Res.panic
  | "NumericLessThanEquals" =>
    Res.ok (NewOr (NewSmallerParamCondition param val) (NewEqParamCondition param val))
  | "NumericLessThanEqualsPath" => Res.panic
  | "NumericGreaterThanEquals" =>
    Res.ok (NewOr (NewGreaterParamCondition param val) (NewEqParamCondition param val))
  | "NumericGreaterThanEqualsPath" => Res.panic
  | "BooleanEquals" => Res.ok (NewEqCondition param (asl.Literal.bool true))
  | "BooleanEqualsPath" => Res.panic
  | "TimestampEquals" => Res.ok Condition.Zero
  | "TimestampEqualsPath" => Res.ok Condition.Zero
  | "TimestampLessThan" => Res.ok Condition.Zero
  | "TimestampLessThanPath" => Res.ok Condition.Zero
  | "TimestampGreaterThan" => Res.ok Condition.Zero
  | "TimestampGreaterThanPath" => Res.ok Condition.Zero
  | "TimestampLessThanEquals" => Res.ok Condition.Zero
  | "TimestampLessThanEqualsPath" => Res.ok Condition.Zero
  | "TimestampGreaterThanEquals" => Res.ok Condition.Zero
  | "TimestampGreaterThanEqualsPath" => Res.panic
  | "IsNull" => Res.ok (NewEqCondition param asl.Literal.null)
  | "IsPresent" => Res.ok (NewNot (NewEqCondition param asl.Literal.null))
  | "IsNumeric" => Res.ok Condition.Zero
  | "IsString" => Res.ok Condition.Zero
  | "IsBoolean" =>
    Res.ok (NewOr (NewEqCondition param (asl.Literal.bool true))
      (NewEqCondition param (asl.Literal.bool false)))
  | "IsTimestamp" => Res.panic
  | _ => Res.ok Condition.Zero

/-- The loop of `BuildConditionFromRule` over the rules left, `conds` being the
conditions appended so far, and its two last statements.  The error message
is given without the rendering of the rule. -/
def buildConditionLoop : List asl.ChoiceRule → List Condition → Res (List Condition × error)
  | [], conds => Res.ok (conds ++ [NewConstCondition true], none)
  | asl.ChoiceRule.BooleanExpression :: rest, conds => buildConditionLoop rest conds
  | asl.ChoiceRule.DataTestExpression t :: rest, conds =>
    (compileDataTest t).bind (fun condition => buildConditionLoop rest (conds ++ [condition]))
  | asl.ChoiceRule.other :: _, _ => Res.ok ([], some "this is not a ChoiceRule: ")

/-- Function `BuildConditionFromRule`: the conditions and the error returned,
or the panic `"Not implemented"`. -/
def BuildConditionFromRule (rules : List asl.ChoiceRule) : Res (List Condition × error) :=
  buildConditionLoop rules []

end fc

namespace executor

/-- The constant `resultFile`. -/
def resultFile : String := "/tmp/_executor_result.json"

/-- The constant `paramsFile`. -/
def paramsFile : String := "/tmp/_executor.params"

/-- Modelled from the spec: the struct `InvocationRequest` (declared outside
the files at hand).  `Command` is empty for a nil or empty slice; `Params` is
`none` for nil and else holds the parameters as `json.Marshal` encodes
them. -/
structure InvocationRequest where
  Command : List String
  Params : Option String
  Handler : String
  HandlerDir : String
  deriving DecidableEq, Repr

/-- Modelled from the spec: the struct `InvocationResult` (declared outside
the files at hand). -/
structure InvocationResult where
  Success : Bool
  Result : String
  deriving DecidableEq, Repr

/-- The answers of the libraries and of the operating system to the calls that
`InvokeHandler` makes; an error is an optional message. -/
structure Sys where
  /-- Result of `reqDecoder.Decode(req)`: the request decoded, or the error. -/
  Decode : Except String InvocationRequest
  /-- Result of `os.Setenv(key, value)`. -/
  Setenv : String → String → Option String
  /-- Result of `os.WriteFile(name, data, 0644)`. -/
  WriteFile : String → String → Option String
  /-- Result of `os.LookupEnv(key)`. -/
  LookupEnv : String → Option String
  /-- Result of `exec.Command(cmd[0], cmd[1:]...).CombinedOutput()`. -/
  CombinedOutput : List String → String × Option String
  /-- Result of `os.ReadFile(name)`. -/
  ReadFile : String → Except String String
  /-- Error of `w.Write(respBody)`. -/
  Write : Option String

/-- Go `errors.Join` of two errors: nil when both are nil. -/
def errorsJoin (a b : Option String) : Option String :=
  match a, b with
  | none, none => none
  | some x, none => some x
  | none, some y => some y
  | some x, some y => some (x ++ "\n" ++ y)

/-- How a call of `InvokeHandler` ends: with `http.Error(w, msg, code)`, with
the result written as the response body (and the error of `w.Write`), or with
a run-time panic, on which the server drops the connection and no response is
sent. -/
inductive Outcome where
  | httpError (msg : String) (code : Nat)
  | response (resp : InvocationResult) (writeErr : Option String)
  | panic
  deriving DecidableEq, Repr

/-- A call of `InvokeHandler` as seen from outside: how it ends, and the
command line of the handler process it started, if it started one. -/
structure Run where
  outcome : Outcome
  spawned : Option (List String)
  deriving DecidableEq, Repr

/-- Function `readExecutionResult`. -/
def readExecutionResult (sys : Sys) (resultFile : String) : String :=
  match sys.ReadFile resultFile with
  | Except.error _ => ""
  | Except.ok content => content

/-- The part of `InvokeHandler` that starts the handler process with the
command line `cmd` and writes the response.  `cmd[0]` is an index out of
range on an empty command line. -/
def execHandler (sys : Sys) (cmd : List String) : Run :=
  match cmd with
  | [] => { outcome := Outcome.panic, spawned := none }
  | _ :: _ =>
    match (sys.CombinedOutput cmd).2 with
    | some _ =>
      { outcome := Outcome.response { Success := false, Result := "" } sys.Write,
        spawned := some cmd }
    | none =>
      { outcome := Outcome.response
          { Success := true, Result := readExecutionResult sys resultFile } sys.Write,
        spawned := some cmd }

/-- The part of `InvokeHandler` from `cmd := req.Command` on; `err` is the
error joined from the calls of `os.Setenv`.  `err.Error()` is a nil
dereference when `err` is nil. -/
def chooseCommand (sys : Sys) (req : InvocationRequest) (err : Option String) : Run :=
  match req.Command with
  | [] =>
    match sys.LookupEnv "CUSTOM_CMD" with
    | none =>
      match err with
      | none => { outcome := Outcome.panic, spawned := none }
      | some msg => { outcome := Outcome.httpError msg 400, spawned := none }
    | some customCmd => execHandler sys (customCmd.splitOn " ")
  | cmd => execHandler sys cmd

/-- Function `InvokeHandler`. -/
def InvokeHandler (sys : Sys) : Run :=
  match sys.Decode with
  | Except.error e => { outcome := Outcome.httpError e 500, spawned := none }
  | Except.ok req =>
    let err := sys.Setenv "RESULT_FILE" resultFile
    let err := errorsJoin err (sys.Setenv "HANDLER" req.Handler)
    let err := errorsJoin err (sys.Setenv "HANDLER_DIR" req.HandlerDir)
    match req.Params with
    | none =>
      let err := errorsJoin err (sys.Setenv "PARAMS_FILE" "")
      chooseCommand sys req err
    | some paramsB =>
      match sys.WriteFile paramsFile paramsB with
      | some fileError => { outcome := Outcome.httpError fileError 500, spawned := none }
      | none =>
        let err := errorsJoin err (sys.Setenv "PARAMS_FILE" paramsFile)
        chooseCommand sys req err

/-! ### Concrete inputs -/

/-- A system in which every call succeeds, `CUSTOM_CMD` is not set, and the
body of the request decodes to a request without command and parameters. -/
def sysNoCommand : Sys :=
  { Decode := Except.ok { Command := [], Params := none, Handler := "h", HandlerDir := "/app" },
    Setenv := fun _ _ => none,
    WriteFile := fun _ _ => none,
    LookupEnv := fun _ => none,
    CombinedOutput := fun _ => ("", none),
    ReadFile := fun _ => Except.ok "",
    Write := none }

end executor

namespace fc

open DagNodeStatus

/-! ## Auxiliary definitions for the statements -/

/-- The legal changes of a node status as the specification lists them:
`Pending` to `Executed`, `Skipped`, `Failed` or `Waiting`, and `Waiting` to
`Executed`. -/
def legalTransition : DagNodeStatus → DagNodeStatus → Bool
  | Pending, Executed => true
  | Pending, Skipped => true
  | Pending, Failed => true
  | Pending, Waiting => true
  | Waiting, Executed => true
  | _, _ => false

/-- The ledger left by the loop shared by `CompleteNode`, `SkipNode` and
`FailNode` when it writes the status `s`, and whether it ends in the error. -/
def setStatus (p : Progress) (id : DagNodeId) (s : DagNodeStatus) : Progress × Bool :=
  match setStatusLoop id s p.DagNodes with
  | some nodes => ({ p with DagNodes := nodes }, false)
  | none => (p, true)

/-- Strict lexicographic order of `(group, branch)`. -/
def lexLt (a b : DagNodeInfo) : Prop :=
  a.Group < b.Group ∨ (a.Group = b.Group ∧ a.Branch < b.Branch)

/-- Lexicographic order of `(group, branch)`. -/
def lexLe (a b : DagNodeInfo) : Prop :=
  a.Group < b.Group ∨ (a.Group = b.Group ∧ a.Branch ≤ b.Branch)

/-- Invariant of the first loop of `popMinGroupAndBranchNode` after the
entries `pre`: `minGroup` is a lower bound of their groups, and
`minGroupNodeInfo` holds the entries of that group in order, the first of them
possibly twice. -/
def MinGroupInv (pre : List DagNodeInfo) (st : Int × List DagNodeInfo) : Prop :=
  st.1 ≤ MaxInt ∧ (∀ x ∈ pre, st.1 ≤ x.Group) ∧
  (st.2 = pre.filter (fun x => decide (x.Group = st.1)) ∨
    ∃ h t, pre.filter (fun x => decide (x.Group = st.1)) = h :: t ∧ st.2 = h :: h :: t)

/-- Invariant of the second loop of `popMinGroupAndBranchNode` after the
entries `l`: the node held is the first of `l` with the least branch. -/
def MinBranchInv (l : List DagNodeInfo) (st : Int × Option DagNodeInfo) : Prop :=
  (l = [] ∧ st = (MaxInt, none)) ∨
  ∃ pre m post, l = pre ++ m :: post ∧ st = (m.Branch, some m) ∧
    (∀ x ∈ pre, m.Branch < x.Branch) ∧ (∀ x ∈ post, m.Branch ≤ x.Branch)

/-- The id the node before the chain `mid` points to: the id of its first
node, or of the end node when the chain is empty. -/
def headId (mid : List (DagNodeId × Int)) (e : DagNodeId) : DagNodeId :=
  match mid with
  | [] => e
  | (a, _) :: _ => a

/-- The `Simple` nodes of a linear DAG, given by id and branch, each pointing
to the next one and the last one to the end node `e`. -/
def linearNodes : List (DagNodeId × Int) → DagNodeId → List DagNode
  | [], _ => []
  | (a, b) :: rest, e => ⟨a, DagNodeType.Simple, b, [headId rest e]⟩ :: linearNodes rest e

/-- The linear DAG `Start -> n1 -> ... -> nk -> End`. -/
def linearDag (s : DagNodeId) (sb : Int) (mid : List (DagNodeId × Int)) (e : DagNodeId)
    (eb : Int) : Dag :=
  { Start := ⟨s, DagNodeType.Start, sb, [headId mid e]⟩,
    Nodes := ⟨s, DagNodeType.Start, sb, [headId mid e]⟩
      :: (linearNodes mid e ++ [⟨e, DagNodeType.End, eb, []⟩]) }

/-- The Pending ledger entries of the chain `mid`, with groups `g`, `g + 1`,
and so on. -/
def linearInfos : Int → List (DagNodeId × Int) → List DagNodeInfo
  | _, [] => []
  | g, (a, b) :: rest => ⟨a, DagNodeType.Simple, Pending, g, b⟩ :: linearInfos (g + 1) rest

/-- What `dag.Find` has to return along a chain for `extractNodeInfo` to walk
it down to the end node. -/
def ChainResolves (dag : Dag) : List (DagNodeId × Int) → DagNodeId → Int → Prop
  | [], e, eb => dag.Find e = some ⟨e, DagNodeType.End, eb, []⟩
  | (a, b) :: rest, e, eb =>
    dag.Find a = some ⟨a, DagNodeType.Simple, b, [headId rest e]⟩ ∧ ChainResolves dag rest e eb

/-- The names of the comparison operators on which `BuildConditionFromRule`
reaches a `panic("Not implemented")`. -/
def notImplementedKinds : List String :=
  ["StringMatches", "NumericEqualsPath", "NumericLessThanPath", "NumericGreaterThanPath",
    "NumericLessThanEqualsPath", "NumericGreaterThanEqualsPath", "BooleanEqualsPath",
    "TimestampGreaterThanEqualsPath", "IsTimestamp"]

/-- Whether a choice rule is a `*BooleanExpression`. -/
def isBooleanExpression : asl.ChoiceRule → Bool
  | asl.ChoiceRule.BooleanExpression => true
  | _ => false

/-- The edges of a DAG followed from the node with id `a` lead to the node
with id `b`: `a` is `b`, or a successor of the node that `dag.Find` returns for
`a` leads to `b`. -/
inductive Reach (dag : Dag) : DagNodeId → DagNodeId → Prop where
  | refl (a : DagNodeId) : Reach dag a a
  | step (a s b : DagNodeId) (n : DagNode) :
    dag.Find a = some n → s ∈ n.Next → Reach dag s b → Reach dag a b

/-- Whether a node has the successors its Go type gives it: none for an `End`
node, one for a `Start`, `Simple` or `FanIn` node, any number for a `Choice`
or `FanOut` node. -/
def wellShaped (n : DagNode) : Bool :=
  match n.Typ with
  | DagNodeType.End => n.Next.isEmpty
  | DagNodeType.Start => n.Next.length == 1
  | DagNodeType.Simple => n.Next.length == 1
  | DagNodeType.FanIn => n.Next.length == 1
  | DagNodeType.Choice => true
  | DagNodeType.FanOut => true

/-- A finite acyclic DAG with unique node ids in which every successor id
resolves: the start node is one of the nodes, the ids of the nodes are
pairwise distinct, every node has the successors of its type, every successor
id is the id of a node, and `rank` decreases along every edge. -/
structure WellFormed (dag : Dag) (rank : DagNodeId → Nat) : Prop where
  start_mem : dag.Start ∈ dag.Nodes
  ids_nodup : (dag.Nodes.map (fun n => n.Id)).Nodup
  shaped : ∀ n ∈ dag.Nodes, wellShaped n = true
  resolves : ∀ n ∈ dag.Nodes, ∀ s ∈ n.Next, ∃ m ∈ dag.Nodes, m.Id = s
  acyclic : ∀ n ∈ dag.Nodes, ∀ s ∈ n.Next, rank s < rank n.Id

/-- The fields of a ledger entry that `newNodeInfo` copies from a DAG node. -/
def infoKey (e : DagNodeInfo) : DagNodeId × DagNodeType × Int := (e.Id, e.Typ, e.Branch)

/-- The same fields of a DAG node. -/
def nodeKey (n : DagNode) : DagNodeId × DagNodeType × Int := (n.Id, n.Typ, n.BranchId)

/-- Invariant of the objects `extractNodeInfo` has allocated, for a walk that
started at the node `root`: pairwise distinct ids, each object made from a
node of the DAG that the walk can reach, and no group above `R`. -/
def HeapInv (dag : Dag) (root : DagNodeId) (R : Int) (heap : Heap) : Prop :=
  (heap.map (fun e => e.Id)).Nodup ∧
  (∀ e ∈ heap, ∃ n ∈ dag.Nodes, infoKey e = nodeKey n ∧ Reach dag root n.Id) ∧
  (∀ e ∈ heap, e.Group ≤ R)

/-- The objects `extractNodeInfo` has allocated when a call returns, `heap'`,
against those at its start, `heap`: the invariant holds, nothing was removed,
and the ids are those there were and those for which `S` holds. -/
def Grows (dag : Dag) (root : DagNodeId) (R : Int) (heap heap' : Heap)
    (S : DagNodeId → Prop) : Prop :=
  HeapInv dag root R heap' ∧ heap.length ≤ heap'.length ∧
  ∀ id, id ∈ heap'.map (fun e => e.Id) ↔ id ∈ heap.map (fun e => e.Id) ∨ S id

/-- The state `extractNodeInfo` reaches before `group++`: the node is appended
to `infos` when its id is not there, and the group of a `FanIn` node that is
there is overwritten. -/
def firstStep (node : DagNode) (group : Int) (infos : List Nat) (heap : Heap) : List Nat × Heap :=
  if !isNodeInfoPresent node.Id infos heap then
    (infos ++ [heap.length], heap ++ [newNodeInfo node group])
  else if node.Typ = DagNodeType.FanIn then
    (infos, setGroupLoop node.Id group infos heap)
  else (infos, heap)

/-- What a run of `SkipNode` calls on the ids `ids` may do to a ledger entry:
leave it, or make it Skipped when its id is one of `ids`. -/
def SkipStep (ids : List DagNodeId) (a b : DagNodeInfo) : Prop :=
  (b = a ∨ b = { a with Status := Skipped }) ∧ (a.Id ∉ ids → b = a)

/-- What `extractNodeInfo` does with `fuel` nested calls at hand, on any node
of rank below `fuel`: it returns, its slice holds all the objects allocated,
and these are the objects there were and one for each node the walk reaches
from the node. -/
def ExtractOK (dag : Dag) (rank : DagNodeId → Nat) (root : DagNodeId) (R : Int) (fuel : Nat) :
    Prop :=
  ∀ (node : DagNode) (g : Int) (heap : Heap), node ∈ dag.Nodes → Reach dag root node.Id →
    rank node.Id < fuel → g + rank node.Id ≤ R → HeapInv dag root R heap →
    ∃ heap', extractNodeInfo fuel dag (some node) g (List.range heap.length) heap
        = Res.ok (List.range heap'.length, heap') ∧
      Grows dag root R heap heap' (Reach dag node.Id)

/-! ## Concrete inputs -/

/-- A rank of the nodes of `dagParallel` that decreases along its edges. -/
def rankParallel (id : DagNodeId) : Nat :=
  if id = "start" then 5 else if id = "fanout" then 4 else if id = "A" then 3
  else if id = "B" then 2 else if id = "C" then 2 else if id = "fanin" then 1 else 0

/-- The nodes of `dagParallel`, to be skipped; the last id is not in
`ledgerRunning`. -/
def nodesToSkip : List DagNode :=
  [⟨"A", DagNodeType.Simple, 0, ["B"]⟩, ⟨"C", DagNodeType.Simple, 1, ["fanin"]⟩,
    ⟨"B", DagNodeType.Simple, 0, ["fanin"]⟩]

/-- Two data-test rules with a boolean expression between them. -/
def rulesMixed : List asl.ChoiceRule :=
  [asl.ChoiceRule.DataTestExpression ⟨"v", ⟨"NumericEquals", asl.Literal.number 1⟩⟩,
    asl.ChoiceRule.BooleanExpression,
    asl.ChoiceRule.DataTestExpression ⟨"w", ⟨"NumericLessThan", asl.Literal.number 2⟩⟩]

/-- A ledger without Pending node whose `NextGroup` is 3. -/
def ledgerDone : Progress :=
  { ReqId := "r",
    DagNodes := [⟨"s", DagNodeType.Start, Executed, 0, 0⟩, ⟨"A", DagNodeType.Simple, Skipped, 1, 0⟩,
      ⟨"e", DagNodeType.End, Executed, 2, 0⟩],
    NextGroup := 3 }

/-- A ledger in group order whose start node is executed. -/
def ledgerRunning : Progress :=
  { ReqId := "r",
    DagNodes := [⟨"s", DagNodeType.Start, Executed, 0, 0⟩, ⟨"A", DagNodeType.Simple, Pending, 1, 0⟩,
      ⟨"B", DagNodeType.Simple, Pending, 1, 1⟩, ⟨"e", DagNodeType.End, Pending, 2, 0⟩],
    NextGroup := 0 }

/-- A ledger of two pending nodes of one group. -/
def ledgerTwoPending : Progress :=
  { ReqId := "r",
    DagNodes := [⟨"A", DagNodeType.Simple, Pending, 0, 0⟩, ⟨"B", DagNodeType.Simple, Pending, 0, 1⟩],
    NextGroup := 0 }

/-- A ledger whose only node is skipped. -/
def ledgerSkipped : Progress :=
  { ReqId := "r", DagNodes := [⟨"A", DagNodeType.Simple, Skipped, 0, 0⟩], NextGroup := 0 }

/-- A ledger whose second node has failed. -/
def ledgerFailed : Progress :=
  { ReqId := "r",
    DagNodes := [⟨"s", DagNodeType.Start, Executed, 0, 0⟩, ⟨"A", DagNodeType.Simple, Failed, 1, 0⟩,
      ⟨"e", DagNodeType.End, Pending, 2, 0⟩],
    NextGroup := 1 }

/-- A node info of a function node, group 2. -/
def infoA : DagNodeInfo := ⟨"A", DagNodeType.Simple, Pending, 2, 0⟩

/-- A node info of a function node, group 5. -/
def infoB : DagNodeInfo := ⟨"B", DagNodeType.Simple, Pending, 5, 0⟩

/-- A node info of the end node, as `extractNodeInfo` may leave it. -/
def infoEnd : DagNodeInfo := ⟨"e", DagNodeType.End, Pending, 1, 0⟩

/-- The linear DAG `Start -> A -> B -> End`. -/
def dagLinear : Dag := linearDag "start" 0 [("A", 0), ("B", 0)] "end" 0

/-- A DAG with a parallel region whose first branch `A -> B` is longer than
its second branch `C`. -/
def dagParallel : Dag :=
  { Start := ⟨"start", DagNodeType.Start, 0, ["fanout"]⟩,
    Nodes := [⟨"start", DagNodeType.Start, 0, ["fanout"]⟩,
      ⟨"fanout", DagNodeType.FanOut, 0, ["A", "C"]⟩,
      ⟨"A", DagNodeType.Simple, 0, ["B"]⟩,
      ⟨"B", DagNodeType.Simple, 0, ["fanin"]⟩,
      ⟨"C", DagNodeType.Simple, 1, ["fanin"]⟩,
      ⟨"fanin", DagNodeType.FanIn, 0, ["end"]⟩,
      ⟨"end", DagNodeType.End, 0, []⟩] }

/-- A list whose only entry besides the `End` entry has the group
`math.MaxInt`. -/
def infosMaxGroup : List DagNodeInfo :=
  [⟨"A", DagNodeType.Simple, Pending, MaxInt, 0⟩, ⟨"e", DagNodeType.End, Pending, 1, 0⟩]

/-- The linear DAG `Start -> A -> End` whose node `A` has the branch index
`math.MaxInt`. -/
def dagLinearMaxBranch : Dag := linearDag "start" 0 [("A", MaxInt)] "end" 0

/-- The DAG `dagParallel` with the branch index `math.MaxInt` for the second
branch of the parallel region. -/
def dagParallelMaxBranch : Dag :=
  { Start := ⟨"start", DagNodeType.Start, 0, ["fanout"]⟩,
    Nodes := [⟨"start", DagNodeType.Start, 0, ["fanout"]⟩,
      ⟨"fanout", DagNodeType.FanOut, 0, ["A", "C"]⟩,
      ⟨"A", DagNodeType.Simple, 0, ["B"]⟩,
      ⟨"B", DagNodeType.Simple, 0, ["fanin"]⟩,
      ⟨"C", DagNodeType.Simple, MaxInt, ["fanin"]⟩,
      ⟨"fanin", DagNodeType.FanIn, 0, ["end"]⟩,
      ⟨"end", DagNodeType.End, 0, []⟩] }

/-! ## The batch returned by `NextNodes` -/

theorem collectNodeIds_foldl (g : Int) (nodes : List DagNodeInfo) (acc : List DagNodeId) :
    nodes.foldl
      (fun nodeIds node =>
        if node.Group = g ∧ node.Status = Pending then nodeIds ++ [node.Id] else nodeIds)
      acc
    = acc ++ (nodes.filter (fun m => decide (m.Group = g ∧ m.Status = Pending))).map
        (fun m => m.Id) := by
  induction nodes generalizing acc with
  | nil => simp
  | cons n rest ih =>
    simp only [List.foldl_cons, ih]
    by_cases h : n.Group = g ∧ n.Status = Pending
    · simp [h, List.filter_cons]
    · simp [h, List.filter_cons]

theorem collectNodeIds_eq (g : Int) (nodes : List DagNodeInfo) :
    collectNodeIds g nodes
    = (nodes.filter (fun m => decide (m.Group = g ∧ m.Status = Pending))).map (fun m => m.Id) := by
  unfold collectNodeIds
  rw [collectNodeIds_foldl]
  simp

theorem exists_first_pending (l : List DagNodeInfo) (h : ∃ m ∈ l, m.Status = Pending) :
    ∃ pre n post, l = pre ++ n :: post ∧ n.Status = Pending ∧ ∀ x ∈ pre, x.Status ≠ Pending := by
  induction l with
  | nil => simp at h
  | cons a rest ih =>
    by_cases ha : a.Status = Pending
    · exact ⟨[], a, rest, rfl, ha, by simp⟩
    · have h2 : ∃ m ∈ rest, m.Status = Pending := by
        obtain ⟨m, hm, hp⟩ := h
        rcases List.mem_cons.1 hm with rfl | hm
        · exact absurd hp ha
        · exact ⟨m, hm, hp⟩
      obtain ⟨pre, n, post, hl, hn, hpre⟩ := ih h2
      refine ⟨a :: pre, n, post, by simp [hl], hn, ?_⟩
      intro x hx
      rcases List.mem_cons.1 hx with rfl | hx
      · exact ha
      · exact hpre x hx

theorem minPendingGroupLoop_split (pre post : List DagNodeInfo) (n : DagNodeInfo)
    (hn : n.Status = Pending)
    (hpre : ∀ x ∈ pre, x.Status ≠ Pending ∧ x.Status ≠ Failed) :
    minPendingGroupLoop (pre ++ n :: post) = some n.Group := by
  induction pre with
  | nil => simp [minPendingGroupLoop, hn]
  | cons a rest ih =>
    have ha := hpre a (by simp)
    have hr : ∀ x ∈ rest, x.Status ≠ Pending ∧ x.Status ≠ Failed :=
      fun x hx => hpre x (by simp [hx])
    simp [minPendingGroupLoop, ha.1, ha.2, ih hr]

theorem minPendingGroupLoop_failed (pre post : List DagNodeInfo) (n : DagNodeInfo)
    (hn : n.Status = Failed) (hpre : ∀ x ∈ pre, x.Status ≠ Pending) :
    minPendingGroupLoop (pre ++ n :: post) = none := by
  induction pre with
  | nil => simp [minPendingGroupLoop, hn]
  | cons a rest ih =>
    have ha := hpre a (by simp)
    have hr : ∀ x ∈ rest, x.Status ≠ Pending := fun x hx => hpre x (by simp [hx])
    by_cases hf : a.Status = Failed
    · simp [minPendingGroupLoop, hf]
    · simp [minPendingGroupLoop, ha, hf, ih hr]

theorem NextNodes_of_loop (p : Progress) (g : Int) (h : minPendingGroupLoop p.DagNodes = some g) :
    NextNodes p =
      (((p.DagNodes.filter (fun m => decide (m.Group = g ∧ m.Status = Pending))).map
          (fun m => m.Id), none),
        { p with NextGroup := g }) := by
  unfold NextNodes
  rw [h]
  simp only [collectNodeIds_eq]

theorem NextNodes_of_loop_none (p : Progress) (h : minPendingGroupLoop p.DagNodes = none) :
    NextNodes p = (([], some "the execution is failed "), p) := by
  unfold NextNodes
  rw [h]

/-- C1: on a ledger in non-decreasing group order that has a Pending node and
no Failed node before its first Pending node, `NextNodes` returns without
error the ids, in ledger order, of the Pending nodes whose group is the least
group of a Pending node, and leaves that group in `NextGroup`. -/
theorem NextNodes_min_pending_group (p : Progress)
    (hsorted : p.DagNodes.Pairwise (fun a b => a.Group ≤ b.Group))
    (hpending : ∃ m ∈ p.DagNodes, m.Status = Pending)
    (hfailed : ∀ pre m post, p.DagNodes = pre ++ m :: post → m.Status = Failed →
      ∃ x ∈ pre, x.Status = Pending) :
    ∃ g : Int,
      (∃ m ∈ p.DagNodes, m.Status = Pending ∧ m.Group = g) ∧
      (∀ m ∈ p.DagNodes, m.Status = Pending → g ≤ m.Group) ∧
      NextNodes p =
        (((p.DagNodes.filter (fun m => decide (m.Group = g ∧ m.Status = Pending))).map
            (fun m => m.Id), none),
          { p with NextGroup := g }) := by
  obtain ⟨pre, n, post, hl, hn, hpre⟩ := exists_first_pending p.DagNodes hpending
  have hpre2 : ∀ x ∈ pre, x.Status ≠ Pending ∧ x.Status ≠ Failed := by
    intro x hx
    refine ⟨hpre x hx, ?_⟩
    intro hf
    obtain ⟨a, b, hab⟩ := List.append_of_mem hx
    obtain ⟨y, hy, hyp⟩ := hfailed a x (b ++ n :: post) (by simp [hl, hab]) hf
    exact hpre y (by simp [hab, hy]) hyp
  refine ⟨n.Group, ⟨n, by simp [hl], hn, rfl⟩, ?_, ?_⟩
  · intro m hm hmp
    rw [hl] at hm hsorted
    rcases List.mem_append.1 hm with hm | hm
    · exact absurd hmp (hpre m hm)
    · rcases List.mem_cons.1 hm with rfl | hm
      · exact le_refl _
      · have h2 := (List.pairwise_append.1 hsorted).2.1
        exact (List.pairwise_cons.1 h2).1 m hm
  · have hloop : minPendingGroupLoop p.DagNodes = some n.Group := by
      rw [hl]
      exact minPendingGroupLoop_split pre post n hn hpre2
    rw [NextNodes_of_loop p n.Group hloop]

/-- Witness for C1: the ledger `ledgerRunning`. -/
theorem NextNodes_min_pending_group_witness :
    ∃ g : Int,
      (∃ m ∈ ledgerRunning.DagNodes, m.Status = Pending ∧ m.Group = g) ∧
      (∀ m ∈ ledgerRunning.DagNodes, m.Status = Pending → g ≤ m.Group) ∧
      NextNodes ledgerRunning =
        (((ledgerRunning.DagNodes.filter
            (fun m => decide (m.Group = g ∧ m.Status = Pending))).map (fun m => m.Id), none),
          { ledgerRunning with NextGroup := g }) :=
  NextNodes_min_pending_group ledgerRunning (by decide)
    ⟨⟨"A", DagNodeType.Simple, Pending, 1, 0⟩, by simp [ledgerRunning], rfl⟩
    (by
      intro pre m post hl hf
      have hm : m ∈ ledgerRunning.DagNodes := by rw [hl]; simp
      simp only [ledgerRunning, List.mem_cons, List.mem_singleton, List.not_mem_nil, or_false] at hm
      rcases hm with rfl | rfl | rfl | rfl <;> cases hf)

/-- C2: whenever `NextNodes` returns without error, the entries it selects are
the ledger entries that pass the test of its second loop for one group `g`;
every one of them is Pending and any two of them have the same group. -/
theorem NextNodes_batch_pending_same_group (p q : Progress) (ids : List DagNodeId)
    (h : NextNodes p = ((ids, none), q)) :
    ∃ g : Int,
      ids = ((p.DagNodes.filter (fun m => decide (m.Group = g ∧ m.Status = Pending))).map
        (fun m => m.Id)) ∧
      (∀ m ∈ p.DagNodes.filter (fun m => decide (m.Group = g ∧ m.Status = Pending)),
        m.Status = Pending) ∧
      (∀ a ∈ p.DagNodes.filter (fun m => decide (m.Group = g ∧ m.Status = Pending)),
        ∀ b ∈ p.DagNodes.filter (fun m => decide (m.Group = g ∧ m.Status = Pending)),
          a.Group = b.Group) := by
  cases hloop : minPendingGroupLoop p.DagNodes with
  | none =>
    rw [NextNodes_of_loop_none p hloop] at h
    simp at h
  | some g =>
    rw [NextNodes_of_loop p g hloop] at h
    simp only [Prod.mk.injEq] at h
    refine ⟨g, h.1.1.symm, ?_, ?_⟩
    · intro m hm
      have h1 := (List.mem_filter.1 hm).2
      simp only [decide_eq_true_eq] at h1
      exact h1.2
    · intro a ha b hb
      have h1 := (List.mem_filter.1 ha).2
      have h2 := (List.mem_filter.1 hb).2
      simp only [decide_eq_true_eq] at h1 h2
      rw [h1.1, h2.1]

/-- Witness for C2: the ledger `ledgerRunning`, whose batch is `A`, `B`. -/
theorem NextNodes_batch_pending_same_group_witness :
    ∃ g : Int,
      ["A", "B"] = ((ledgerRunning.DagNodes.filter
        (fun m => decide (m.Group = g ∧ m.Status = Pending))).map (fun m => m.Id)) ∧
      (∀ m ∈ ledgerRunning.DagNodes.filter (fun m => decide (m.Group = g ∧ m.Status = Pending)),
        m.Status = Pending) ∧
      (∀ a ∈ ledgerRunning.DagNodes.filter (fun m => decide (m.Group = g ∧ m.Status = Pending)),
        ∀ b ∈ ledgerRunning.DagNodes.filter (fun m => decide (m.Group = g ∧ m.Status = Pending)),
          a.Group = b.Group) :=
  NextNodes_batch_pending_same_group ledgerRunning { ledgerRunning with NextGroup := 1 }
    ["A", "B"] (by decide)

/-! ## `CompleteNode`, `SkipNode`, `FailNode` -/

theorem setStatusLoop_eq_none (id : DagNodeId) (s : DagNodeStatus) (l : List DagNodeInfo) :
    setStatusLoop id s l = none ↔ ∀ n ∈ l, n.Id ≠ id := by
  induction l with
  | nil => simp [setStatusLoop]
  | cons a rest ih =>
    by_cases ha : a.Id = id
    · simp [setStatusLoop, ha]
    · simp [setStatusLoop, ha, ih]

theorem setStatusLoop_split (id : DagNodeId) (s : DagNodeStatus) (pre post : List DagNodeInfo)
    (n : DagNodeInfo) (hn : n.Id = id) (hpre : ∀ m ∈ pre, m.Id ≠ id) :
    setStatusLoop id s (pre ++ n :: post) = some (pre ++ { n with Status := s } :: post) := by
  induction pre with
  | nil => simp [setStatusLoop, hn]
  | cons a rest ih =>
    have ha := hpre a (by simp)
    have hr : ∀ m ∈ rest, m.Id ≠ id := fun m hm => hpre m (by simp [hm])
    simp [setStatusLoop, ha, ih hr]

theorem setStatusLoop_forall₂ (id : DagNodeId) (s : DagNodeStatus) (l r : List DagNodeInfo)
    (h : setStatusLoop id s l = some r) :
    List.Forall₂ (fun a b => b = a ∨ (a.Id = id ∧ b = { a with Status := s })) l r := by
  induction l generalizing r with
  | nil => simp [setStatusLoop] at h
  | cons a rest ih =>
    by_cases ha : a.Id = id
    · simp only [setStatusLoop, ha, if_true, Option.some.injEq] at h
      subst h
      refine List.Forall₂.cons (Or.inr ⟨ha, by simp [ha]⟩) ?_
      exact List.forall₂_same.2 (fun x _ => Or.inl rfl)
    · simp only [setStatusLoop, ha, if_false, Option.map_eq_some'] at h
      obtain ⟨r', hr', rfl⟩ := h
      exact List.Forall₂.cons (Or.inl rfl) (ih r' hr')

theorem CompleteNode_eq (p : Progress) (id : DagNodeId) :
    (CompleteNode p id).1 = (setStatus p id Executed).1 ∧
    ((CompleteNode p id).2 ≠ none ↔ (setStatus p id Executed).2 = true) := by
  unfold CompleteNode setStatus
  cases setStatusLoop id Executed p.DagNodes <;> simp

theorem SkipNode_eq (p : Progress) (id : DagNodeId) :
    (SkipNode p id).1 = (setStatus p id Skipped).1 ∧
    ((SkipNode p id).2 ≠ none ↔ (setStatus p id Skipped).2 = true) := by
  unfold SkipNode setStatus
  cases setStatusLoop id Skipped p.DagNodes <;> simp

theorem FailNode_eq (p : Progress) (id : DagNodeId) :
    (FailNode p id).1 = (setStatus p id Failed).1 ∧
    ((FailNode p id).2 ≠ none ↔ (setStatus p id Failed).2 = true) := by
  unfold FailNode setStatus
  cases setStatusLoop id Failed p.DagNodes <;> simp

theorem setStatus_error_iff (p : Progress) (id : DagNodeId) (s : DagNodeStatus) :
    (setStatus p id s).2 = true ↔ ∀ n ∈ p.DagNodes, n.Id ≠ id := by
  unfold setStatus
  cases h : setStatusLoop id s p.DagNodes with
  | none => simpa using (setStatusLoop_eq_none id s p.DagNodes).1 h
  | some r =>
    have h2 : ¬ ∀ n ∈ p.DagNodes, n.Id ≠ id := by
      intro hall
      rw [(setStatusLoop_eq_none id s p.DagNodes).2 hall] at h
      cases h
    simpa using h2

theorem setStatus_unknown (p : Progress) (id : DagNodeId) (s : DagNodeStatus)
    (h : ∀ n ∈ p.DagNodes, n.Id ≠ id) : (setStatus p id s).1 = p := by
  unfold setStatus
  rw [(setStatusLoop_eq_none id s p.DagNodes).2 h]

theorem setStatus_known (p : Progress) (id : DagNodeId) (s : DagNodeStatus)
    (pre post : List DagNodeInfo) (n : DagNodeInfo) (hl : p.DagNodes = pre ++ n :: post)
    (hn : n.Id = id) (hpre : ∀ m ∈ pre, m.Id ≠ id) :
    (setStatus p id s).1 = { p with DagNodes := pre ++ { n with Status := s } :: post } := by
  unfold setStatus
  rw [hl, setStatusLoop_split id s pre post n hn hpre]

theorem setStatus_forall₂ (p : Progress) (id : DagNodeId) (s : DagNodeStatus) :
    List.Forall₂ (fun a b => b = a ∨ (a.Id = id ∧ b = { a with Status := s }))
      p.DagNodes (setStatus p id s).1.DagNodes := by
  unfold setStatus
  cases h : setStatusLoop id s p.DagNodes with
  | none => exact List.forall₂_same.2 (fun x _ => Or.inl rfl)
  | some r => exact setStatusLoop_forall₂ id s p.DagNodes r h

/-- C4, as amended: when no node before the first node with the given id is
Pending, `FailNode` succeeds, the next `NextNodes` returns an error, and that
call leaves the ledger as it was, so every Pending node is still Pending. -/
theorem FailNode_then_NextNodes_error (p : Progress) (id : DagNodeId)
    (pre post : List DagNodeInfo) (n : DagNodeInfo) (hl : p.DagNodes = pre ++ n :: post)
    (hn : n.Id = id) (hpre : ∀ m ∈ pre, m.Id ≠ id ∧ m.Status ≠ Pending) :
    (FailNode p id).2 = none ∧
    (NextNodes (FailNode p id).1).1.2 ≠ none ∧
    (NextNodes (FailNode p id).1).2 = (FailNode p id).1 := by
  have hloop : setStatusLoop id Failed p.DagNodes
      = some (pre ++ { n with Status := Failed } :: post) := by
    rw [hl]
    exact setStatusLoop_split id Failed pre post n hn (fun m hm => (hpre m hm).1)
  have hq : FailNode p id
      = ({ p with DagNodes := pre ++ { n with Status := Failed } :: post }, none) := by
    unfold FailNode
    rw [hloop]
  have hnone : minPendingGroupLoop
      ({ p with DagNodes := pre ++ { n with Status := Failed } :: post } : Progress).DagNodes
      = none :=
    minPendingGroupLoop_failed pre post { n with Status := Failed } rfl
      (fun m hm => (hpre m hm).2)
  rw [hq]
  refine ⟨rfl, ?_, ?_⟩
  · rw [NextNodes_of_loop_none _ hnone]
    simp
  · rw [NextNodes_of_loop_none _ hnone]

/-- Witness for C4: failing `A` in `ledgerRunning`, whose only earlier node is
executed. -/
theorem FailNode_then_NextNodes_error_witness :
    (FailNode ledgerRunning "A").2 = none ∧
    (NextNodes (FailNode ledgerRunning "A").1).1.2 ≠ none ∧
    (NextNodes (FailNode ledgerRunning "A").1).2 = (FailNode ledgerRunning "A").1 :=
  FailNode_then_NextNodes_error ledgerRunning "A"
    [⟨"s", DagNodeType.Start, Executed, 0, 0⟩]
    [⟨"B", DagNodeType.Simple, Pending, 1, 1⟩, ⟨"e", DagNodeType.End, Pending, 2, 0⟩]
    ⟨"A", DagNodeType.Simple, Pending, 1, 0⟩ rfl rfl (by decide)

/-- Counterexample to C4 as stated: after `FailNode` on the second of two
Pending nodes, `NextNodes` returns the first node and no error. -/
theorem FailNode_then_NextNodes_no_error :
    (∃ m ∈ ledgerTwoPending.DagNodes, m.Id = "B") ∧
    (FailNode ledgerTwoPending "B").2 = none ∧
    (NextNodes (FailNode ledgerTwoPending "B").1).1 = (["A"], none) := by
  decide

theorem legalTransition_iff (s : DagNodeStatus) :
    (legalTransition s Executed = true ↔ s = Pending ∨ s = Waiting) ∧
    (legalTransition s Skipped = true ↔ s = Pending) ∧
    (legalTransition s Failed = true ↔ s = Pending) := by
  cases s <;> simp [legalTransition]

/-- C5, as amended: `CompleteNode`, `SkipNode` and `FailNode` leave every node
as it was or with the status they write (Executed, Skipped, Failed) and
nothing else changed; the first node with the id does get that status,
whatever its status was; that change is a legal transition exactly when the
node was Pending, or Waiting for `CompleteNode`; and `CompleteNode` on a node
that is Skipped or Failed makes it Executed, which is another status and no
legal transition. -/
theorem status_operations_overwrite (p : Progress) (id : DagNodeId) :
    (List.Forall₂ (fun a b => b = a ∨ b = { a with Status := Executed })
        p.DagNodes (CompleteNode p id).1.DagNodes ∧
      List.Forall₂ (fun a b => b = a ∨ b = { a with Status := Skipped })
        p.DagNodes (SkipNode p id).1.DagNodes ∧
      List.Forall₂ (fun a b => b = a ∨ b = { a with Status := Failed })
        p.DagNodes (FailNode p id).1.DagNodes) ∧
    (∀ pre n post, p.DagNodes = pre ++ n :: post → n.Id = id → (∀ m ∈ pre, m.Id ≠ id) →
      (CompleteNode p id).1.DagNodes = pre ++ { n with Status := Executed } :: post ∧
      (SkipNode p id).1.DagNodes = pre ++ { n with Status := Skipped } :: post ∧
      (FailNode p id).1.DagNodes = pre ++ { n with Status := Failed } :: post ∧
      (legalTransition n.Status Executed = true ↔ n.Status = Pending ∨ n.Status = Waiting) ∧
      (legalTransition n.Status Skipped = true ↔ n.Status = Pending) ∧
      (legalTransition n.Status Failed = true ↔ n.Status = Pending) ∧
      (n.Status = Skipped ∨ n.Status = Failed →
        ((CompleteNode p id).1.DagNodes[pre.length]?).map (fun m => m.Status) = some Executed ∧
        Executed ≠ n.Status ∧ legalTransition n.Status Executed = false)) := by
  refine ⟨⟨?_, ?_, ?_⟩, ?_⟩
  · rw [(CompleteNode_eq p id).1]
    exact List.Forall₂.imp (fun a b hab => hab.imp (fun h => h) (fun h => h.2))
      (setStatus_forall₂ p id Executed)
  · rw [(SkipNode_eq p id).1]
    exact List.Forall₂.imp (fun a b hab => hab.imp (fun h => h) (fun h => h.2))
      (setStatus_forall₂ p id Skipped)
  · rw [(FailNode_eq p id).1]
    exact List.Forall₂.imp (fun a b hab => hab.imp (fun h => h) (fun h => h.2))
      (setStatus_forall₂ p id Failed)
  · intro pre n post hl hn hpre
    have hc : (CompleteNode p id).1.DagNodes = pre ++ { n with Status := Executed } :: post := by
      rw [(CompleteNode_eq p id).1, setStatus_known p id Executed pre post n hl hn hpre]
    have hs : (SkipNode p id).1.DagNodes = pre ++ { n with Status := Skipped } :: post := by
      rw [(SkipNode_eq p id).1, setStatus_known p id Skipped pre post n hl hn hpre]
    have hf : (FailNode p id).1.DagNodes = pre ++ { n with Status := Failed } :: post := by
      rw [(FailNode_eq p id).1, setStatus_known p id Failed pre post n hl hn hpre]
    obtain ⟨l1, l2, l3⟩ := legalTransition_iff n.Status
    refine ⟨hc, hs, hf, l1, l2, l3, ?_⟩
    intro hst
    refine ⟨?_, ?_, ?_⟩
    · rw [hc, List.getElem?_append_right (le_refl _)]
      simp
    · rcases hst with h | h <;> rw [h] <;> decide
    · rcases hst with h | h <;> rw [h] <;> rfl

/-- Witness for C5: `CompleteNode` on the failed node of `ledgerFailed`. -/
theorem status_operations_overwrite_witness :
    ((CompleteNode ledgerFailed "A").1.DagNodes[1]?).map (fun m => m.Status) = some Executed ∧
    Executed ≠ Failed ∧ legalTransition Failed Executed = false :=
  ((status_operations_overwrite ledgerFailed "A").2
    [⟨"s", DagNodeType.Start, Executed, 0, 0⟩] ⟨"A", DagNodeType.Simple, Failed, 1, 0⟩
    [⟨"e", DagNodeType.End, Pending, 2, 0⟩] rfl rfl (by decide)).2.2.2.2.2.2 (Or.inr rfl)

/-- Counterexample to C5 as stated: `CompleteNode` on a Skipped node makes it
Executed, which is neither its former status nor a legal transition. -/
theorem CompleteNode_skipped_becomes_executed :
    ledgerSkipped.DagNodes.map (fun n => n.Status) = [Skipped] ∧
    (CompleteNode ledgerSkipped "A").1.DagNodes.map (fun n => n.Status) = [Executed] ∧
    Executed ≠ Skipped ∧
    legalTransition Skipped Executed = false := by
  decide

/-- C6: each of `CompleteNode`, `SkipNode`, `FailNode` returns an error exactly
when no node of the ledger has the id, and then leaves the ledger as it was;
otherwise it writes its status into the first node with the id and changes
nothing else of that node, of the other nodes, of their order, of `ReqId` and
of `NextGroup`. -/
theorem status_operations_first_match (p : Progress) (id : DagNodeId) :
    (((CompleteNode p id).2 ≠ none ↔ ∀ n ∈ p.DagNodes, n.Id ≠ id) ∧
      ((∀ n ∈ p.DagNodes, n.Id ≠ id) → (CompleteNode p id).1 = p) ∧
      (∀ pre n post, p.DagNodes = pre ++ n :: post → n.Id = id → (∀ m ∈ pre, m.Id ≠ id) →
        (CompleteNode p id).1
          = { p with DagNodes := pre ++ { n with Status := Executed } :: post })) ∧
    (((SkipNode p id).2 ≠ none ↔ ∀ n ∈ p.DagNodes, n.Id ≠ id) ∧
      ((∀ n ∈ p.DagNodes, n.Id ≠ id) → (SkipNode p id).1 = p) ∧
      (∀ pre n post, p.DagNodes = pre ++ n :: post → n.Id = id → (∀ m ∈ pre, m.Id ≠ id) →
        (SkipNode p id).1
          = { p with DagNodes := pre ++ { n with Status := Skipped } :: post })) ∧
    (((FailNode p id).2 ≠ none ↔ ∀ n ∈ p.DagNodes, n.Id ≠ id) ∧
      ((∀ n ∈ p.DagNodes, n.Id ≠ id) → (FailNode p id).1 = p) ∧
      (∀ pre n post, p.DagNodes = pre ++ n :: post → n.Id = id → (∀ m ∈ pre, m.Id ≠ id) →
        (FailNode p id).1
          = { p with DagNodes := pre ++ { n with Status := Failed } :: post })) := by
  refine ⟨⟨?_, ?_, ?_⟩, ⟨?_, ?_, ?_⟩, ⟨?_, ?_, ?_⟩⟩
  · rw [(CompleteNode_eq p id).2]
    exact setStatus_error_iff p id Executed
  · intro h
    rw [(CompleteNode_eq p id).1]
    exact setStatus_unknown p id Executed h
  · intro pre n post hl hn hpre
    rw [(CompleteNode_eq p id).1]
    exact setStatus_known p id Executed pre post n hl hn hpre
  · rw [(SkipNode_eq p id).2]
    exact setStatus_error_iff p id Skipped
  · intro h
    rw [(SkipNode_eq p id).1]
    exact setStatus_unknown p id Skipped h
  · intro pre n post hl hn hpre
    rw [(SkipNode_eq p id).1]
    exact setStatus_known p id Skipped pre post n hl hn hpre
  · rw [(FailNode_eq p id).2]
    exact setStatus_error_iff p id Failed
  · intro h
    rw [(FailNode_eq p id).1]
    exact setStatus_unknown p id Failed h
  · intro pre n post hl hn hpre
    rw [(FailNode_eq p id).1]
    exact setStatus_known p id Failed pre post n hl hn hpre

/-! ## `moveEndNodeAtTheEnd` -/

theorem foldl_max_spec (l : List Int) (m : Int) :
    m ≤ l.foldl max m ∧ (∀ x ∈ l, x ≤ l.foldl max m) ∧ (l.foldl max m = m ∨ l.foldl max m ∈ l) := by
  induction l generalizing m with
  | nil => simp
  | cons a rest ih =>
    obtain ⟨h1, h2, h3⟩ := ih (max m a)
    simp only [List.foldl_cons]
    refine ⟨le_trans (le_max_left m a) h1, ?_, ?_⟩
    · intro x hx
      rcases List.mem_cons.1 hx with rfl | hx
      · exact le_trans (le_max_right m x) h1
      · exact h2 x hx
    · rcases h3 with h3 | h3
      · rcases le_total m a with hma | ham
        · right
          rw [h3, max_eq_right hma]
          simp
        · left
          rw [h3, max_eq_left ham]
      · right
        exact List.mem_cons_of_mem _ h3

theorem moveEndLoop_no_end (l : List DagNodeInfo) (i : Nat) (e : Option (Nat × DagNodeInfo))
    (mg : Int) (h : ∀ x ∈ l, x.Typ ≠ DagNodeType.End) :
    moveEndLoop l i e mg = (e, (l.map (fun x => x.Group)).foldl max mg) := by
  induction l generalizing i mg with
  | nil => simp [moveEndLoop]
  | cons a rest ih =>
    have ha := h a (by simp)
    have hr : ∀ x ∈ rest, x.Typ ≠ DagNodeType.End := fun x hx => h x (by simp [hx])
    by_cases hg : a.Group > mg
    · simp [moveEndLoop, ha, hg, ih _ _ hr, max_eq_right (le_of_lt hg)]
    · simp [moveEndLoop, ha, hg, ih _ _ hr, max_eq_left (not_lt.1 hg)]

theorem moveEndLoop_split (pre post : List DagNodeInfo) (x : DagNodeInfo) (i : Nat)
    (e : Option (Nat × DagNodeInfo)) (mg : Int) (hx : x.Typ = DagNodeType.End)
    (hpre : ∀ y ∈ pre, y.Typ ≠ DagNodeType.End) (hpost : ∀ y ∈ post, y.Typ ≠ DagNodeType.End) :
    moveEndLoop (pre ++ x :: post) i e mg
      = (some (i + pre.length, x), ((pre ++ post).map (fun y => y.Group)).foldl max mg) := by
  induction pre generalizing i mg with
  | nil => simp [moveEndLoop, hx, moveEndLoop_no_end post _ _ _ hpost]
  | cons a rest ih =>
    have ha := hpre a (by simp)
    have hr : ∀ y ∈ rest, y.Typ ≠ DagNodeType.End := fun y hy => hpre y (by simp [hy])
    have hi : i + 1 + rest.length = i + (rest.length + 1) := by omega
    by_cases hg : a.Group > mg
    · simp [moveEndLoop, ha, hg, ih _ _ hr, max_eq_right (le_of_lt hg), hi]
    · simp [moveEndLoop, ha, hg, ih _ _ hr, max_eq_left (not_lt.1 hg), hi]

theorem eraseIdx_split (pre post : List DagNodeInfo) (x : DagNodeInfo) :
    (pre ++ x :: post).eraseIdx pre.length = pre ++ post := by
  induction pre with
  | nil => simp
  | cons a rest ih => simp [ih]

theorem wrapInt_of_range (x : Int) (hlo : MinInt ≤ x) (hhi : x ≤ MaxInt) : wrapInt x = x := by
  unfold MinInt at hlo
  unfold MaxInt at hhi
  unfold wrapInt
  omega

/-- C9, as amended: on a list with exactly one `End` entry, whose other
entries have non-negative groups below `math.MaxInt`, `moveEndNodeAtTheEnd`
returns the other entries in their order followed by the `End` entry with
group `M + 1`, where `M` is the largest group of the other entries (0 when
there is none); that group is strictly greater than every other group.  A
list without `End` entry is returned as it is. -/
theorem moveEndNodeAtTheEnd_one_end (pre post : List DagNodeInfo) (e : DagNodeInfo)
    (he : e.Typ = DagNodeType.End)
    (hothers : ∀ x ∈ pre ++ post,
      x.Typ ≠ DagNodeType.End ∧ 0 ≤ x.Group ∧ x.Group < MaxInt) :
    (∃ M : Int,
      moveEndNodeAtTheEnd (pre ++ e :: post) = pre ++ post ++ [{ e with Group := M + 1 }] ∧
      (moveEndNodeAtTheEnd (pre ++ e :: post)).length = (pre ++ e :: post).length ∧
      (∀ x ∈ pre ++ post, x.Group ≤ M) ∧
      ((pre ++ post = [] ∧ M = 0) ∨ ∃ x ∈ pre ++ post, x.Group = M) ∧
      (∀ x ∈ pre ++ post, x.Group < M + 1)) ∧
    (∀ l : List DagNodeInfo, (∀ x ∈ l, x.Typ ≠ DagNodeType.End) → moveEndNodeAtTheEnd l = l) := by
  constructor
  · have hpre : ∀ y ∈ pre, y.Typ ≠ DagNodeType.End :=
      fun y hy => (hothers y (by simp [hy])).1
    have hpost : ∀ y ∈ post, y.Typ ≠ DagNodeType.End :=
      fun y hy => (hothers y (by simp [hy])).1
    obtain ⟨h1, h2, h3⟩ := foldl_max_spec ((pre ++ post).map (fun y => y.Group)) 0
    have hle : ∀ x ∈ pre ++ post,
        x.Group ≤ ((pre ++ post).map (fun y => y.Group)).foldl max 0 :=
      fun x hx => h2 x.Group (List.mem_map.2 ⟨x, hx, rfl⟩)
    have hlt : ((pre ++ post).map (fun y => y.Group)).foldl max 0 < MaxInt := by
      rcases h3 with h3 | h3
      · rw [h3]
        decide
      · obtain ⟨x, hx, hxg⟩ := List.mem_map.1 h3
        rw [← hxg]
        exact (hothers x hx).2.2
    have hwrap : wrapInt (((pre ++ post).map (fun y => y.Group)).foldl max 0 + 1)
        = ((pre ++ post).map (fun y => y.Group)).foldl max 0 + 1 := by
      apply wrapInt_of_range
      · unfold MinInt
        omega
      · omega
    have hres : moveEndNodeAtTheEnd (pre ++ e :: post)
        = pre ++ post
          ++ [{ e with Group := ((pre ++ post).map (fun y => y.Group)).foldl max 0 + 1 }] := by
      unfold moveEndNodeAtTheEnd
      rw [moveEndLoop_split pre post e 0 none 0 he hpre hpost]
      simp only [Nat.zero_add, eraseIdx_split, hwrap]
    refine ⟨((pre ++ post).map (fun y => y.Group)).foldl max 0, hres, ?_, hle, ?_, ?_⟩
    · rw [hres]
      simp only [List.length_append, List.length_cons, List.length_nil]
      omega
    · rcases h3 with h3 | h3
      · cases hl : pre ++ post with
        | nil => left; rw [hl] at h3; exact ⟨rfl, by simp⟩
        | cons a rest =>
          right
          rw [← hl]
          have ha : a ∈ pre ++ post := by rw [hl]; simp
          refine ⟨a, ha, ?_⟩
          have := hle a ha
          have h0 := (hothers a ha).2.1
          rw [h3] at this ⊢
          omega
      · right
        obtain ⟨x, hx, hxg⟩ := List.mem_map.1 h3
        exact ⟨x, hx, hxg⟩
    · intro x hx
      have := hle x hx
      omega
  · intro l hl
    unfold moveEndNodeAtTheEnd
    rw [moveEndLoop_no_end l 0 none 0 hl]

/-- Witness for C9: the `End` entry stands between two other entries. -/
theorem moveEndNodeAtTheEnd_one_end_witness :
    (∃ M : Int,
      moveEndNodeAtTheEnd ([infoA] ++ infoEnd :: [infoB])
        = [infoA] ++ [infoB] ++ [{ infoEnd with Group := M + 1 }] ∧
      (moveEndNodeAtTheEnd ([infoA] ++ infoEnd :: [infoB])).length
        = ([infoA] ++ infoEnd :: [infoB]).length ∧
      (∀ x ∈ [infoA] ++ [infoB], x.Group ≤ M) ∧
      (([infoA] ++ [infoB] = [] ∧ M = 0) ∨ ∃ x ∈ [infoA] ++ [infoB], x.Group = M) ∧
      (∀ x ∈ [infoA] ++ [infoB], x.Group < M + 1)) ∧
    (∀ l : List DagNodeInfo, (∀ x ∈ l, x.Typ ≠ DagNodeType.End) → moveEndNodeAtTheEnd l = l) :=
  moveEndNodeAtTheEnd_one_end [infoA] [infoB] infoEnd rfl (by decide)

/-- Counterexample to C9 as stated: when the other entry has the group
`math.MaxInt`, the `End` entry gets the group `math.MinInt`, which is not one
plus that group and not greater than it. -/
theorem moveEndNodeAtTheEnd_wraps :
    (∀ x ∈ infosMaxGroup, 0 ≤ x.Group) ∧
    infosMaxGroup.map (fun x => x.Typ) = [DagNodeType.Simple, DagNodeType.End] ∧
    moveEndNodeAtTheEnd infosMaxGroup
      = [⟨"A", DagNodeType.Simple, Pending, MaxInt, 0⟩,
          ⟨"e", DagNodeType.End, Pending, MinInt, 0⟩] ∧
    MinInt ≠ MaxInt + 1 ∧ ¬ MaxInt < MinInt := by
  decide

/-! ## `popMinGroupAndBranchNode` and `reorder` -/

theorem lexLe_of_lexLt {a b : DagNodeInfo} (h : lexLt a b) : lexLe a b := by
  rcases h with h | ⟨h1, h2⟩
  · exact Or.inl h
  · exact Or.inr ⟨h1, le_of_lt h2⟩

theorem minGroupStep_lt (g : Int) (l : List DagNodeInfo) (x : DagNodeInfo) (h : x.Group < g) :
    minGroupStep (g, l) x = (x.Group, [x, x]) := by
  simp [minGroupStep, h]

theorem minGroupStep_eq (g : Int) (l : List DagNodeInfo) (x : DagNodeInfo) (h : x.Group = g) :
    minGroupStep (g, l) x = (g, l ++ [x]) := by
  simp [minGroupStep, h]

theorem minGroupStep_gt (g : Int) (l : List DagNodeInfo) (x : DagNodeInfo) (h : g < x.Group) :
    minGroupStep (g, l) x = (g, l) := by
  have h1 : ¬ x.Group < g := by omega
  have h2 : ¬ x.Group = g := by omega
  simp [minGroupStep, h1, h2]

theorem minGroupStep_inv (pre : List DagNodeInfo) (st : Int × List DagNodeInfo)
    (x : DagNodeInfo) (h : MinGroupInv pre st) : MinGroupInv (pre ++ [x]) (minGroupStep st x) := by
  obtain ⟨g, l⟩ := st
  obtain ⟨h1, h2, h3⟩ := h
  dsimp only at h1 h2 h3
  rcases lt_trichotomy x.Group g with hlt | heq | hgt
  · have hnil : pre.filter (fun y => decide (y.Group = x.Group)) = [] := by
      rw [List.filter_eq_nil_iff]
      intro a ha
      have := h2 a ha
      simp only [decide_eq_true_eq]
      omega
    rw [minGroupStep_lt g l x hlt]
    refine ⟨le_trans (le_of_lt hlt) h1, ?_, ?_⟩
    · intro y hy
      dsimp only
      rcases List.mem_append.1 hy with hy | hy
      · exact le_trans (le_of_lt hlt) (h2 y hy)
      · simp only [List.mem_singleton] at hy
        rw [hy]
    · right
      refine ⟨x, [], ?_, rfl⟩
      dsimp only
      simp [List.filter_append, hnil, List.filter_cons]
  · rw [minGroupStep_eq g l x heq]
    refine ⟨h1, ?_, ?_⟩
    · intro y hy
      dsimp only
      rcases List.mem_append.1 hy with hy | hy
      · exact h2 y hy
      · simp only [List.mem_singleton] at hy
        rw [hy, heq]
    · have hf : (pre ++ [x]).filter (fun y => decide (y.Group = g))
          = pre.filter (fun y => decide (y.Group = g)) ++ [x] := by
        simp [List.filter_append, List.filter_cons, heq]
      dsimp only
      rw [hf]
      rcases h3 with h3 | ⟨a, t, hat, hl⟩
      · left
        rw [h3]
      · right
        exact ⟨a, t ++ [x], by rw [hat]; simp, by rw [hl]; simp⟩
  · have hne : ¬ x.Group = g := by omega
    rw [minGroupStep_gt g l x hgt]
    refine ⟨h1, ?_, ?_⟩
    · intro y hy
      dsimp only
      rcases List.mem_append.1 hy with hy | hy
      · exact h2 y hy
      · simp only [List.mem_singleton] at hy
        rw [hy]
        exact le_of_lt hgt
    · have hf : (pre ++ [x]).filter (fun y => decide (y.Group = g))
          = pre.filter (fun y => decide (y.Group = g)) := by
        simp [List.filter_append, List.filter_cons, hne]
      dsimp only
      rw [hf]
      exact h3

theorem minGroupLoop_foldl_inv (rest pre : List DagNodeInfo) (st : Int × List DagNodeInfo)
    (h : MinGroupInv pre st) : MinGroupInv (pre ++ rest) (rest.foldl minGroupStep st) := by
  induction rest generalizing pre st with
  | nil => simpa using h
  | cons x rest ih =>
    have := ih (pre ++ [x]) (minGroupStep st x) (minGroupStep_inv pre st x h)
    simpa using this

theorem minGroupLoop_inv (infos : List DagNodeInfo) :
    MinGroupInv infos (minGroupLoop infos) := by
  have h0 : MinGroupInv [] (MaxInt, []) := ⟨le_refl _, by simp, Or.inl (by simp)⟩
  have := minGroupLoop_foldl_inv infos [] (MaxInt, []) h0
  simpa [minGroupLoop] using this

theorem minGroupLoop_foldl_attained (rest pre : List DagNodeInfo) (st : Int × List DagNodeInfo)
    (h : st.1 = MaxInt ∨ ∃ x ∈ pre, x.Group = st.1) :
    (rest.foldl minGroupStep st).1 = MaxInt ∨
      ∃ x ∈ pre ++ rest, x.Group = (rest.foldl minGroupStep st).1 := by
  induction rest generalizing pre st with
  | nil => simpa using h
  | cons y rest ih =>
    obtain ⟨g, l⟩ := st
    have hstep : (minGroupStep (g, l) y).1 = MaxInt ∨
        ∃ x ∈ pre ++ [y], x.Group = (minGroupStep (g, l) y).1 := by
      rcases lt_trichotomy y.Group g with hlt | heq | hgt
      · right; rw [minGroupStep_lt g l y hlt]; exact ⟨y, by simp, rfl⟩
      · right; rw [minGroupStep_eq g l y heq]; exact ⟨y, by simp, heq⟩
      · rw [minGroupStep_gt g l y hgt]
        rcases h with h | ⟨x, hx, hxg⟩
        · exact Or.inl h
        · exact Or.inr ⟨x, by simp [hx], hxg⟩
    have := ih (pre ++ [y]) (minGroupStep (g, l) y) hstep
    simpa using this

theorem minGroupLoop_attained (infos : List DagNodeInfo) (x : DagNodeInfo) (hx : x ∈ infos)
    (hmax : ∀ y ∈ infos, y.Group ≤ MaxInt) :
    infos.filter (fun y => decide (y.Group = (minGroupLoop infos).1)) ≠ [] := by
  obtain ⟨_, h2, _⟩ := minGroupLoop_inv infos
  have hatt : (minGroupLoop infos).1 = MaxInt ∨ ∃ y ∈ infos, y.Group = (minGroupLoop infos).1 := by
    have := minGroupLoop_foldl_attained infos [] (MaxInt, []) (Or.inl rfl)
    simpa [minGroupLoop] using this
  have hex : ∃ y ∈ infos, y.Group = (minGroupLoop infos).1 := by
    rcases hatt with h | h
    · refine ⟨x, hx, ?_⟩
      have h3 := h2 x hx
      have h4 := hmax x hx
      omega
    · exact h
  obtain ⟨y, hy, hyg⟩ := hex
  intro hnil
  rw [List.filter_eq_nil_iff] at hnil
  exact hnil y hy (by simpa using hyg)

theorem minBranchStep_inv (l : List DagNodeInfo) (st : Int × Option DagNodeInfo)
    (x : DagNodeInfo) (hx : x.Branch < MaxInt) (h : MinBranchInv l st) :
    MinBranchInv (l ++ [x]) (minBranchStep st x) := by
  rcases h with ⟨hl, hst⟩ | ⟨pre, m, post, hl, hst, hpre, hpost⟩
  · right
    refine ⟨[], x, [], by simp [hl], ?_, by simp, by simp⟩
    rw [hst]
    simp [minBranchStep, hx]
  · right
    rw [hst]
    by_cases hlt : x.Branch < m.Branch
    · refine ⟨pre ++ m :: post, x, [], by simp [hl], by simp [minBranchStep, hlt], ?_, by simp⟩
      intro y hy
      rcases List.mem_append.1 hy with hy | hy
      · exact lt_trans hlt (hpre y hy)
      · rcases List.mem_cons.1 hy with rfl | hy
        · exact hlt
        · exact lt_of_lt_of_le hlt (hpost y hy)
    · refine ⟨pre, m, post ++ [x], by simp [hl], by simp [minBranchStep, hlt], hpre, ?_⟩
      intro y hy
      rcases List.mem_append.1 hy with hy | hy
      · exact hpost y hy
      · simp only [List.mem_singleton] at hy
        rw [hy]
        exact not_lt.1 hlt

theorem minBranchLoop_foldl_inv (rest l : List DagNodeInfo) (st : Int × Option DagNodeInfo)
    (hrest : ∀ x ∈ rest, x.Branch < MaxInt) (h : MinBranchInv l st) :
    MinBranchInv (l ++ rest) (rest.foldl minBranchStep st) := by
  induction rest generalizing l st with
  | nil => simpa using h
  | cons x rest ih =>
    have := ih (l ++ [x]) (minBranchStep st x) (fun y hy => hrest y (by simp [hy]))
      (minBranchStep_inv l st x (hrest x (by simp)) h)
    simpa using this

theorem minBranchLoop_inv (l : List DagNodeInfo) (hl : ∀ x ∈ l, x.Branch < MaxInt) :
    MinBranchInv l (minBranchLoop l) := by
  have := minBranchLoop_foldl_inv l [] (MaxInt, none) hl (Or.inl ⟨rfl, rfl⟩)
  simpa [minBranchLoop] using this

theorem minBranchStep_twice (st : Int × Option DagNodeInfo) (x : DagNodeInfo) :
    minBranchStep (minBranchStep st x) x = minBranchStep st x := by
  unfold minBranchStep
  by_cases h : x.Branch < st.1
  · simp [h]
  · simp [h]

theorem minBranchLoop_head_twice (h : DagNodeInfo) (t : List DagNodeInfo) :
    minBranchLoop (h :: h :: t) = minBranchLoop (h :: t) := by
  simp [minBranchLoop, minBranchStep_twice]

theorem findIndexById_split (pre post : List DagNodeInfo) (m : DagNodeInfo)
    (hpre : ∀ x ∈ pre, x.Id ≠ m.Id) :
    findIndexById m.Id (pre ++ m :: post) = some pre.length := by
  induction pre with
  | nil => simp [findIndexById]
  | cons a rest ih =>
    have ha := hpre a (by simp)
    have hr : ∀ x ∈ rest, x.Id ≠ m.Id := fun x hx => hpre x (by simp [hx])
    simp [findIndexById, ha, ih hr]

theorem nodup_ids_split (pre post : List DagNodeInfo) (m : DagNodeInfo)
    (h : ((pre ++ m :: post).map (fun x => x.Id)).Nodup) :
    (∀ x ∈ pre ++ post, x.Id ≠ m.Id) ∧ ((pre ++ post).map (fun x => x.Id)).Nodup := by
  rw [List.map_append, List.map_cons, List.nodup_middle, List.nodup_cons, ← List.map_append] at h
  refine ⟨?_, h.2⟩
  intro x hx hid
  exact h.1 (List.mem_map.2 ⟨x, hx, hid⟩)

/-- What `popMinGroupAndBranchNode` does on a non-empty slice with pairwise
distinct ids and values in range: it removes and returns the first entry that
is least for `(group, branch)`. -/
theorem popMinGroupAndBranchNode_spec (infos : List DagNodeInfo) (hne : infos ≠ [])
    (hnodup : (infos.map (fun x => x.Id)).Nodup)
    (hrange : ∀ x ∈ infos, x.Group ≤ MaxInt ∧ x.Branch < MaxInt) :
    ∃ pre m post, infos = pre ++ m :: post ∧
      popMinGroupAndBranchNode infos = Res.ok (m, pre ++ post) ∧
      (∀ x ∈ pre, lexLt m x) ∧ (∀ x ∈ post, lexLe m x) := by
  obtain ⟨a, hamem⟩ := List.exists_mem_of_ne_nil infos hne
  have hF := minGroupLoop_attained infos a hamem (fun y hy => (hrange y hy).1)
  obtain ⟨_, hlow, hL⟩ := minGroupLoop_inv infos
  have hloop : minBranchLoop (minGroupLoop infos).2
      = minBranchLoop (infos.filter (fun y => decide (y.Group = (minGroupLoop infos).1))) := by
    rcases hL with hL | ⟨h, t, hht, hL⟩
    · rw [hL]
    · rw [hL, hht, minBranchLoop_head_twice]
  have hFrange : ∀ x ∈ infos.filter (fun y => decide (y.Group = (minGroupLoop infos).1)),
      x.Branch < MaxInt := fun x hx => (hrange x (List.mem_filter.1 hx).1).2
  rcases minBranchLoop_inv _ hFrange with ⟨hnil, _⟩ | ⟨fpre, m, fpost, hsplit, hres, hfpre, hfpost⟩
  · exact absurd hnil hF
  · obtain ⟨l₁, l₂, hinfos, hl₁, hl₂⟩ := List.filter_eq_append_iff.1 hsplit
    obtain ⟨l₂a, l₂b, hl₂eq, hl₂a, hm, hl₂b⟩ := List.filter_eq_cons_iff.1 hl₂
    simp only [decide_eq_true_eq] at hm hl₂a
    have hinfos2 : infos = (l₁ ++ l₂a) ++ m :: l₂b := by
      rw [hinfos, hl₂eq]
      simp
    have hlt : ∀ x ∈ infos, x.Group ≠ (minGroupLoop infos).1 → lexLt m x := by
      intro x hx hxg
      left
      have := hlow x hx
      omega
    have hpre : ∀ x ∈ l₁ ++ l₂a, lexLt m x := by
      intro x hx
      have hxi : x ∈ infos := by
        rw [hinfos2]
        exact List.mem_append_left _ hx
      by_cases hxg : x.Group = (minGroupLoop infos).1
      · rcases List.mem_append.1 hx with hx1 | hx2
        · right
          refine ⟨by rw [hm, hxg], hfpre x ?_⟩
          rw [← hl₁]
          exact List.mem_filter.2 ⟨hx1, by simpa using hxg⟩
        · exact absurd hxg (hl₂a x hx2)
      · exact hlt x hxi hxg
    have hpost : ∀ x ∈ l₂b, lexLe m x := by
      intro x hx
      have hxi : x ∈ infos := by
        rw [hinfos2]
        exact List.mem_append_right _ (List.mem_cons_of_mem _ hx)
      by_cases hxg : x.Group = (minGroupLoop infos).1
      · right
        refine ⟨by rw [hm, hxg], hfpost x ?_⟩
        rw [← hl₂b]
        exact List.mem_filter.2 ⟨hx, by simpa using hxg⟩
      · exact lexLe_of_lexLt (hlt x hxi hxg)
    have hids : ∀ x ∈ l₁ ++ l₂a, x.Id ≠ m.Id := by
      rw [hinfos2] at hnodup
      intro x hx
      exact (nodup_ids_split _ _ m hnodup).1 x (List.mem_append_left _ hx)
    refine ⟨l₁ ++ l₂a, m, l₂b, hinfos2, ?_, hpre, hpost⟩
    have hidx : findIndexById m.Id infos = some (l₁ ++ l₂a).length := by
      rw [hinfos2]
      exact findIndexById_split _ _ m hids
    have herase : infos.eraseIdx (l₁ ++ l₂a).length = (l₁ ++ l₂a) ++ l₂b := by
      rw [hinfos2]
      exact eraseIdx_split _ _ m
    have hsome : (minBranchLoop (minGroupLoop infos).2).2 = some m := by
      rw [hloop, hres]
    cases hi : infos with
    | nil => exact absurd hi hne
    | cons b rest =>
      rw [hi] at hsome hidx herase
      simp only [popMinGroupAndBranchNode, hsome, hidx, Option.getD_some, herase]

theorem reorderLoop_succ (fuel : Nat) (infos acc : List DagNodeInfo) (hne : infos ≠ []) :
    reorderLoop (fuel + 1) infos acc
      = (popMinGroupAndBranchNode infos).bind (fun r => reorderLoop fuel r.2 (acc ++ [r.1])) := by
  cases infos with
  | nil => exact absurd rfl hne
  | cons a rest => simp [reorderLoop]

theorem reorderLoop_spec (fuel : Nat) (infos acc : List DagNodeInfo)
    (hfuel : infos.length ≤ fuel) (hnodup : (infos.map (fun x => x.Id)).Nodup)
    (hrange : ∀ x ∈ infos, x.Group ≤ MaxInt ∧ x.Branch < MaxInt) :
    ∃ out, reorderLoop fuel infos acc = Res.ok (acc ++ out) ∧ List.Perm out infos ∧
      out.Pairwise lexLe ∧
      ∀ g b : Int, out.filter (fun x => decide (x.Group = g ∧ x.Branch = b))
        = infos.filter (fun x => decide (x.Group = g ∧ x.Branch = b)) := by
  induction fuel generalizing infos acc with
  | zero =>
    have : infos = [] := List.eq_nil_of_length_eq_zero (by omega)
    subst this
    exact ⟨[], by simp [reorderLoop], List.Perm.refl _, List.Pairwise.nil, by simp⟩
  | succ fuel ih =>
    cases hi : infos with
    | nil => exact ⟨[], by simp [reorderLoop], List.Perm.refl _, List.Pairwise.nil, by simp⟩
    | cons a rest =>
      obtain ⟨pre, m, post, hsplit, hpop, hpre, hpost⟩ :=
        popMinGroupAndBranchNode_spec infos (by simp [hi]) hnodup hrange
      have hlen : (pre ++ post).length ≤ fuel := by
        have : infos.length = (pre ++ post).length + 1 := by
          rw [hsplit]
          simp only [List.length_append, List.length_cons]
          omega
        omega
      have hnd : ((pre ++ post).map (fun x => x.Id)).Nodup := by
        rw [hsplit] at hnodup
        exact (nodup_ids_split pre post m hnodup).2
      have hrg : ∀ x ∈ pre ++ post, x.Group ≤ MaxInt ∧ x.Branch < MaxInt := by
        intro x hx
        apply hrange
        rw [hsplit]
        rcases List.mem_append.1 hx with hx | hx
        · exact List.mem_append_left _ hx
        · exact List.mem_append_right _ (List.mem_cons_of_mem _ hx)
      obtain ⟨out, hout, hperm, hsorted, hstable⟩ := ih (pre ++ post) (acc ++ [m]) hlen hnd hrg
      have hle : ∀ x ∈ pre ++ post, lexLe m x := by
        intro x hx
        rcases List.mem_append.1 hx with hx | hx
        · exact lexLe_of_lexLt (hpre x hx)
        · exact hpost x hx
      refine ⟨m :: out, ?_, ?_, ?_, ?_⟩
      · rw [← hi, reorderLoop_succ fuel infos acc (by simp [hi]), hpop]
        simp only [Res.bind, hout]
        simp
      · rw [← hi, hsplit]
        exact (List.Perm.cons m hperm).trans List.perm_middle.symm
      · exact List.pairwise_cons.2 ⟨fun x hx => hle x (hperm.mem_iff.1 hx), hsorted⟩
      · intro g b
        rw [← hi, hsplit]
        simp only [List.filter_cons, List.filter_append, hstable g b]
        by_cases hm : m.Group = g ∧ m.Branch = b
        · have hnil : pre.filter (fun x => decide (x.Group = g ∧ x.Branch = b)) = [] := by
            rw [List.filter_eq_nil_iff]
            intro x hx
            simp only [decide_eq_true_eq]
            intro hxb
            rcases hpre x hx with h | ⟨h1, h2⟩
            · omega
            · omega
          rw [hnil]
          simp [hm]
        · simp [hm]

/-- C10: on a list with pairwise distinct ids, groups within the machine
integers and branches below `math.MaxInt`, `reorder` returns once its loop is
given as many rounds as the list has entries; the result is a permutation of
the input, in ascending lexicographic order of `(group, branch)`, and entries
with equal group and equal branch keep their relative order. -/
theorem reorder_sorted_stable (fuel : Nat) (infos : List DagNodeInfo)
    (hfuel : infos.length ≤ fuel) (hnodup : (infos.map (fun x => x.Id)).Nodup)
    (hrange : ∀ x ∈ infos, x.Group ≤ MaxInt ∧ x.Branch < MaxInt) :
    ∃ out, reorder fuel infos = Res.ok out ∧ List.Perm out infos ∧
      out.Pairwise lexLe ∧
      ∀ g b : Int, out.filter (fun x => decide (x.Group = g ∧ x.Branch = b))
        = infos.filter (fun x => decide (x.Group = g ∧ x.Branch = b)) := by
  obtain ⟨out, h1, h2, h3, h4⟩ := reorderLoop_spec fuel infos [] hfuel hnodup hrange
  exact ⟨out, by simpa [reorder] using h1, h2, h3, h4⟩

/-- Witness for C10: three entries in descending then ascending group. -/
theorem reorder_sorted_stable_witness :
    ∃ out, reorder 3 [infoB, infoEnd, infoA] = Res.ok out ∧
      List.Perm out [infoB, infoEnd, infoA] ∧ out.Pairwise lexLe ∧
      ∀ g b : Int, out.filter (fun x => decide (x.Group = g ∧ x.Branch = b))
        = [infoB, infoEnd, infoA].filter (fun x => decide (x.Group = g ∧ x.Branch = b)) :=
  reorder_sorted_stable 3 [infoB, infoEnd, infoA] (by decide) (by decide) (by decide)

/-! ## `extractNodeInfo` on a linear DAG -/

theorem isNodeInfoPresent_range (id : DagNodeId) (n : Nat) (heap : Heap) (hn : n ≤ heap.length) :
    isNodeInfoPresent id (List.range n) heap = true ↔ ∃ x ∈ heap.take n, x.Id = id := by
  induction n with
  | zero => simp [isNodeInfoPresent]
  | succ n ih =>
    have hlt : n < heap.length := by omega
    have ih' := ih (by omega)
    unfold isNodeInfoPresent at ih' ⊢
    rw [List.range_succ, List.any_append, Bool.or_eq_true, ih', List.take_succ]
    simp only [List.any_cons, List.any_nil, Bool.or_false, List.mem_append]
    rw [List.getElem?_eq_getElem hlt]
    simp only [decide_eq_true_eq, Option.mem_def, Option.toList_some, List.mem_singleton]
    constructor
    · rintro (⟨x, hx, hid⟩ | h)
      · exact ⟨x, Or.inl hx, hid⟩
      · exact ⟨heap[n], Or.inr rfl, h⟩
    · rintro ⟨x, hx | hx, hid⟩
      · exact Or.inl ⟨x, hx, hid⟩
      · right
        rw [← hx]
        exact hid

theorem heap_split (heap : Heap) (n : Nat) (hn : n < heap.length) :
    heap = heap.take n ++ heap[n] :: heap.drop (n + 1) := by
  rw [← List.drop_eq_getElem_cons hn, List.take_append_drop]

theorem mergeStep_present (heap : Heap) (n add : Nat) (hn : n ≤ heap.length) (hadd : add < n) :
    mergeStep heap (List.range n) add = List.range n := by
  have hlt : add < heap.length := by omega
  have hpres : isNodeInfoPresent heap[add].Id (List.range n) heap = true := by
    rw [isNodeInfoPresent_range _ n heap hn]
    refine ⟨heap[add], ?_, rfl⟩
    rw [List.mem_take_iff_getElem]
    exact ⟨add, by simp only [lt_min_iff]; exact ⟨hadd, hlt⟩, rfl⟩
  simp [mergeStep, List.getElem?_eq_getElem hlt, hpres]

theorem mergeStep_fresh (heap : Heap) (n : Nat) (hn : n < heap.length)
    (hnodup : (heap.map (fun x => x.Id)).Nodup) :
    mergeStep heap (List.range n) n = List.range (n + 1) := by
  have hpres : isNodeInfoPresent heap[n].Id (List.range n) heap = false := by
    rw [Bool.eq_false_iff]
    intro h
    rw [isNodeInfoPresent_range _ n heap (by omega)] at h
    obtain ⟨x, hx, hid⟩ := h
    have hs := heap_split heap n hn
    rw [hs] at hnodup
    exact (nodup_ids_split _ _ _ hnodup).1 x (List.mem_append_left _ hx) hid
  simp [mergeStep, List.getElem?_eq_getElem hn, hpres, List.range_succ]

theorem mergeToAdd_present (heap : Heap) (n : Nat) (toAdd : List Nat) (hn : n ≤ heap.length)
    (h : ∀ add ∈ toAdd, add < n) :
    toAdd.foldl (mergeStep heap) (List.range n) = List.range n := by
  induction toAdd with
  | nil => rfl
  | cons a rest ih =>
    rw [List.foldl_cons, mergeStep_present heap n a hn (h a (by simp))]
    exact ih (fun x hx => h x (by simp [hx]))

theorem mergeToAdd_fresh (heap : Heap) (k n : Nat) (hn : n + k ≤ heap.length)
    (hnodup : (heap.map (fun x => x.Id)).Nodup) :
    (List.range' n k).foldl (mergeStep heap) (List.range n) = List.range (n + k) := by
  induction k generalizing n with
  | zero => rfl
  | succ k ih =>
    rw [List.range'_succ, List.foldl_cons, mergeStep_fresh heap n (by omega) hnodup,
      ih (n + 1) (by omega)]
    congr 1
    omega

theorem mergeToAdd_range (heap : Heap) (n : Nat) (hn : n ≤ heap.length)
    (hnodup : (heap.map (fun x => x.Id)).Nodup) :
    mergeToAdd (List.range heap.length) (List.range n) heap = List.range heap.length := by
  obtain ⟨k, hk⟩ : ∃ k, heap.length = n + k := ⟨heap.length - n, by omega⟩
  have hsplit : List.range heap.length = List.range n ++ List.range' n k := by
    have h := List.range'_append_1 0 n k
    rw [Nat.zero_add] at h
    rw [hk, List.range_eq_range', List.range_eq_range', Nat.add_comm n k]
    exact h.symm
  unfold mergeToAdd
  rw [hsplit, List.foldl_append,
    mergeToAdd_present heap n (List.range n) hn (fun a ha => List.mem_range.1 ha),
    mergeToAdd_fresh heap k n (by omega) hnodup, ← hsplit, hk]

theorem filterMap_range_heap (heap : Heap) :
    (List.range heap.length).filterMap (fun ptr => heap[ptr]?) = heap := by
  induction heap using List.reverseRecOn with
  | nil => rfl
  | append_singleton l a ih =>
    rw [List.length_append, List.length_singleton, List.range_succ, List.filterMap_append]
    have h1 : (List.range l.length).filterMap (fun ptr => (l ++ [a])[ptr]?)
        = (List.range l.length).filterMap (fun ptr => l[ptr]?) := by
      apply List.filterMap_congr
      intro x hx
      rw [List.getElem?_append_left (List.mem_range.1 hx)]
    rw [h1, ih]
    simp

theorem isNodeInfoPresent_fresh (id : DagNodeId) (heap : Heap) (h : ∀ x ∈ heap, x.Id ≠ id) :
    isNodeInfoPresent id (List.range heap.length) heap = false := by
  rw [Bool.eq_false_iff]
  intro hp
  rw [isNodeInfoPresent_range id heap.length heap (le_refl _), List.take_length] at hp
  obtain ⟨x, hx, hid⟩ := hp
  exact h x hx hid

theorem extractNodeInfo_end (fuel : Nat) (dag : Dag) (node : DagNode) (g : Int) (heap : Heap)
    (htyp : node.Typ = DagNodeType.End) (hfresh : ∀ x ∈ heap, x.Id ≠ node.Id) :
    extractNodeInfo (fuel + 1) dag (some node) g (List.range heap.length) heap
      = Res.ok (List.range (heap.length + 1), heap ++ [newNodeInfo node g]) := by
  simp [extractNodeInfo, isNodeInfoPresent_fresh node.Id heap hfresh, htyp, List.range_succ]

theorem extractNodeInfo_simple (fuel : Nat) (dag : Dag) (node : DagNode) (g : Int) (heap : Heap)
    (next : DagNodeId) (htyp : node.Typ = DagNodeType.Simple) (hnext : node.Next = [next])
    (hfresh : ∀ x ∈ heap, x.Id ≠ node.Id) :
    extractNodeInfo (fuel + 1) dag (some node) g (List.range heap.length) heap
      = (extractNodeInfo fuel dag (dag.Find next) (g + 1) (List.range (heap.length + 1))
          (heap ++ [newNodeInfo node g])).bind
        (fun r => Res.ok (mergeToAdd r.1 (List.range (heap.length + 1)) r.2, r.2)) := by
  simp [extractNodeInfo, isNodeInfoPresent_fresh node.Id heap hfresh, htyp, hnext,
    List.range_succ]

theorem extractNodeInfo_start (fuel : Nat) (dag : Dag) (node : DagNode) (g : Int) (heap : Heap)
    (next : DagNodeId) (htyp : node.Typ = DagNodeType.Start) (hnext : node.Next = [next])
    (hfresh : ∀ x ∈ heap, x.Id ≠ node.Id) :
    extractNodeInfo (fuel + 1) dag (some node) g (List.range heap.length) heap
      = (extractNodeInfo fuel dag (dag.Find next) (g + 1) (List.range (heap.length + 1))
          (heap ++ [newNodeInfo node g])).bind
        (fun r => Res.ok (mergeToAdd r.1 (List.range (heap.length + 1)) r.2, r.2)) := by
  simp [extractNodeInfo, isNodeInfoPresent_fresh node.Id heap hfresh, htyp, hnext,
    List.range_succ]

theorem linearInfos_ids (g : Int) (mid : List (DagNodeId × Int)) :
    (linearInfos g mid).map (fun x => x.Id) = mid.map (fun x => x.1) := by
  induction mid generalizing g with
  | nil => rfl
  | cons a rest ih => simp [linearInfos, ih]

theorem linearInfos_length (g : Int) (mid : List (DagNodeId × Int)) :
    (linearInfos g mid).length = mid.length := by
  induction mid generalizing g with
  | nil => rfl
  | cons a rest ih => simp [linearInfos, ih]

/-- The walk of `extractNodeInfo` down a chain of fresh `Simple` nodes that
ends in the end node. -/
theorem extractNodeInfo_chain (dag : Dag) (e : DagNodeId) (eb : Int)
    (mid : List (DagNodeId × Int)) (g : Int) (heap : Heap) (fuel : Nat)
    (hfuel : mid.length + 1 ≤ fuel) (hres : ChainResolves dag mid e eb)
    (hnodup : (heap.map (fun x => x.Id) ++ (mid.map (fun x => x.1) ++ [e])).Nodup) :
    extractNodeInfo fuel dag (dag.Find (headId mid e)) g (List.range heap.length) heap
      = Res.ok (List.range (heap.length + mid.length + 1),
          heap ++ (linearInfos g mid
            ++ [⟨e, DagNodeType.End, Pending, g + mid.length, eb⟩])) := by
  induction mid generalizing g heap fuel with
  | nil =>
    obtain ⟨f, rfl⟩ : ∃ f, fuel = f + 1 := ⟨fuel - 1, by simp at hfuel; omega⟩
    have hfind : dag.Find e = some ⟨e, DagNodeType.End, eb, []⟩ := hres
    have hfresh : ∀ x ∈ heap, x.Id ≠ e := by
      intro x hx hid
      have := (List.nodup_append.1 hnodup).2.2
      exact this (List.mem_map.2 ⟨x, hx, hid⟩) (by simp)
    have hh : headId [] e = e := rfl
    rw [hh, hfind, extractNodeInfo_end f dag _ g heap rfl hfresh]
    simp [newNodeInfo, linearInfos]
  | cons ab rest ih =>
    obtain ⟨a, b⟩ := ab
    obtain ⟨f, rfl⟩ : ∃ f, fuel = f + 1 := ⟨fuel - 1, by simp at hfuel; omega⟩
    have hfind : dag.Find a = some ⟨a, DagNodeType.Simple, b, [headId rest e]⟩ := hres.1
    have hfresh : ∀ x ∈ heap, x.Id ≠ a := by
      intro x hx hid
      have := (List.nodup_append.1 hnodup).2.2
      exact this (List.mem_map.2 ⟨x, hx, hid⟩) (by simp)
    have hnodup2 : ((heap ++ [newNodeInfo ⟨a, DagNodeType.Simple, b, [headId rest e]⟩ g]).map
        (fun x => x.Id) ++ (rest.map (fun x => x.1) ++ [e])).Nodup := by
      simpa [newNodeInfo] using hnodup
    have hlen : (heap ++ [newNodeInfo ⟨a, DagNodeType.Simple, b, [headId rest e]⟩ g]).length
        = heap.length + 1 := by simp
    have hrec := ih (g + 1) (heap ++ [newNodeInfo ⟨a, DagNodeType.Simple, b, [headId rest e]⟩ g])
      f (by simp at hfuel; omega) hres.2 hnodup2
    rw [hlen] at hrec
    have hh : headId ((a, b) :: rest) e = a := rfl
    rw [hh, hfind, extractNodeInfo_simple f dag _ g heap (headId rest e) rfl rfl hfresh, hrec]
    have hnd3 : ((heap ++ [newNodeInfo ⟨a, DagNodeType.Simple, b, [headId rest e]⟩ g]
        ++ (linearInfos (g + 1) rest
          ++ [(⟨e, DagNodeType.End, Pending, g + 1 + rest.length, eb⟩ : DagNodeInfo)])).map
        (fun x => x.Id)).Nodup := by
      simpa [newNodeInfo, linearInfos_ids] using hnodup
    have hlen3 : (heap ++ [newNodeInfo ⟨a, DagNodeType.Simple, b, [headId rest e]⟩ g]
        ++ (linearInfos (g + 1) rest
          ++ [(⟨e, DagNodeType.End, Pending, g + 1 + rest.length, eb⟩ : DagNodeInfo)])).length
        = heap.length + 1 + rest.length + 1 := by
      simp [linearInfos_length]
      omega
    have hmerge := mergeToAdd_range _ (heap.length + 1) (by rw [hlen3]; omega) hnd3
    rw [hlen3] at hmerge
    simp only [Res.bind, hmerge]
    have hg : g + 1 + (rest.length : Int) = g + ((rest.length + 1 : Nat) : Int) := by
      push_cast
      omega
    simp only [List.length_cons, linearInfos, newNodeInfo, hg, List.append_assoc,
      List.singleton_append]
    have hn : heap.length + 1 + rest.length + 1 = heap.length + (rest.length + 1) + 1 := by omega
    rw [hn, List.cons_append]

theorem find?_skip (pre l : List DagNode) (id : DagNodeId) (h : ∀ n ∈ pre, n.Id ≠ id) :
    (pre ++ l).find? (fun n => decide (n.Id = id)) = l.find? (fun n => decide (n.Id = id)) := by
  induction pre with
  | nil => rfl
  | cons a rest ih =>
    have ha := h a (by simp)
    simp [List.find?_cons, ha, ih (fun n hn => h n (by simp [hn]))]

theorem chainResolves_of_nodes (dag : Dag) (e : DagNodeId) (eb : Int)
    (rest : List (DagNodeId × Int)) (pre : List DagNode)
    (hnodes : dag.Nodes = pre ++ (linearNodes rest e ++ [⟨e, DagNodeType.End, eb, []⟩]))
    (hdisj : ∀ n ∈ pre, n.Id ∉ rest.map (fun x => x.1) ++ [e])
    (hnodup : (rest.map (fun x => x.1) ++ [e]).Nodup) :
    ChainResolves dag rest e eb := by
  induction rest generalizing pre with
  | nil =>
    show dag.Find e = _
    unfold Dag.Find
    rw [hnodes, find?_skip pre _ e (fun n hn hid => hdisj n hn (by simp [hid]))]
    simp [linearNodes]
  | cons ab rest ih =>
    obtain ⟨a, b⟩ := ab
    constructor
    · unfold Dag.Find
      rw [hnodes, find?_skip pre _ a (fun n hn hid => hdisj n hn (by simp [hid]))]
      simp [linearNodes]
    · have hnd : a ∉ rest.map (fun x => x.1) ++ [e] ∧ (rest.map (fun x => x.1) ++ [e]).Nodup := by
        simpa using hnodup
      refine ih (pre ++ [⟨a, DagNodeType.Simple, b, [headId rest e]⟩]) ?_ ?_ hnd.2
      · rw [hnodes]
        simp [linearNodes]
      · intro n hn
        rcases List.mem_append.1 hn with hn | hn
        · intro hmem
          apply hdisj n hn
          simp only [List.map_cons, List.cons_append, List.mem_cons]
          exact Or.inr hmem
        · simp only [List.mem_singleton] at hn
          rw [hn]
          exact hnd.1

theorem extractNodeInfo_linearDag (fuel : Nat) (s : DagNodeId) (sb : Int)
    (mid : List (DagNodeId × Int)) (e : DagNodeId) (eb : Int)
    (hfuel : mid.length + 2 ≤ fuel)
    (hnodup : (s :: (mid.map (fun x => x.1) ++ [e])).Nodup) :
    extractNodeInfo fuel (linearDag s sb mid e eb) (some (linearDag s sb mid e eb).Start) 0 [] []
      = Res.ok (List.range (mid.length + 2),
          ⟨s, DagNodeType.Start, Pending, 0, sb⟩
            :: (linearInfos 1 mid ++ [⟨e, DagNodeType.End, Pending, 1 + mid.length, eb⟩])) := by
  obtain ⟨f, rfl⟩ : ∃ f, fuel = f + 1 := ⟨fuel - 1, by omega⟩
  have hnd := List.nodup_cons.1 hnodup
  have hres : ChainResolves (linearDag s sb mid e eb) mid e eb :=
    chainResolves_of_nodes _ e eb mid [⟨s, DagNodeType.Start, sb, [headId mid e]⟩] rfl
      (by
        intro n hn
        simp only [List.mem_singleton] at hn
        rw [hn]
        exact hnd.1)
      hnd.2
  have hstart := extractNodeInfo_start f (linearDag s sb mid e eb)
    (linearDag s sb mid e eb).Start 0 [] (headId mid e) rfl rfl (by simp)
  have hchain := extractNodeInfo_chain (linearDag s sb mid e eb) e eb mid 1
    [newNodeInfo (linearDag s sb mid e eb).Start 0] f (by omega) hres
    (by simpa [newNodeInfo, linearDag] using hnodup)
  simp only [List.length_nil, List.range_zero, List.nil_append, Nat.zero_add, Int.zero_add]
    at hstart
  simp only [List.length_singleton] at hchain
  rw [hstart, hchain]
  have hnd3 : (([newNodeInfo (linearDag s sb mid e eb).Start 0]
      ++ (linearInfos 1 mid
        ++ [(⟨e, DagNodeType.End, Pending, 1 + mid.length, eb⟩ : DagNodeInfo)])).map
      (fun x => x.Id)).Nodup := by
    simpa [newNodeInfo, linearDag, linearInfos_ids] using hnodup
  have hlen3 : ([newNodeInfo (linearDag s sb mid e eb).Start 0]
      ++ (linearInfos 1 mid
        ++ [(⟨e, DagNodeType.End, Pending, 1 + mid.length, eb⟩ : DagNodeInfo)])).length
      = 1 + mid.length + 1 := by
    simp [linearInfos_length]
    omega
  have hmerge := mergeToAdd_range _ 1 (by rw [hlen3]; omega) hnd3
  rw [hlen3] at hmerge
  simp only [Res.bind, hmerge]
  have hn : 1 + mid.length + 1 = mid.length + 2 := by omega
  rw [hn]
  rfl

theorem reorderLoop_strict (fuel : Nat) (infos acc : List DagNodeInfo)
    (hfuel : infos.length ≤ fuel) (hnodup : (infos.map (fun x => x.Id)).Nodup)
    (hrange : ∀ x ∈ infos, x.Group ≤ MaxInt ∧ x.Branch < MaxInt)
    (hs : infos.Pairwise (fun a b => a.Group < b.Group)) :
    reorderLoop fuel infos acc = Res.ok (acc ++ infos) := by
  induction fuel generalizing infos acc with
  | zero =>
    have : infos = [] := List.eq_nil_of_length_eq_zero (by omega)
    subst this
    simp [reorderLoop]
  | succ fuel ih =>
    cases infos with
    | nil => simp [reorderLoop]
    | cons a rest =>
      obtain ⟨pre, m, post, hsplit, hpop, hpre, _⟩ :=
        popMinGroupAndBranchNode_spec (a :: rest) (by simp) hnodup hrange
      cases pre with
      | nil =>
        simp only [List.nil_append, List.cons.injEq] at hsplit
        obtain ⟨rfl, rfl⟩ := hsplit
        rw [reorderLoop_succ fuel _ acc (by simp), hpop]
        simp only [Res.bind, List.nil_append]
        rw [ih rest (acc ++ [a]) (by simpa using hfuel) (List.nodup_cons.1 hnodup).2
          (fun x hx => hrange x (by simp [hx])) (List.pairwise_cons.1 hs).2]
        simp
      | cons p pre' =>
        exfalso
        simp only [List.cons_append, List.cons.injEq] at hsplit
        obtain ⟨rfl, hrest⟩ := hsplit
        have hlt : a.Group < m.Group :=
          (List.pairwise_cons.1 hs).1 m (by rw [hrest]; simp)
        rcases hpre a (by simp) with h | ⟨h, _⟩
        · omega
        · omega

theorem foldl_max_linearInfos (mid : List (DagNodeId × Int)) (g m : Int) (h : m + 1 = g) :
    ((linearInfos g mid).map (fun x => x.Group)).foldl max m = m + mid.length := by
  induction mid generalizing g m with
  | nil => simp [linearInfos]
  | cons ab rest ih =>
    obtain ⟨a, b⟩ := ab
    have hmax : max m g = g := max_eq_right (by omega)
    simp only [linearInfos, List.map_cons, List.foldl_cons, hmax, ih (g + 1) g rfl,
      List.length_cons]
    push_cast
    omega

theorem linearInfos_mem (g : Int) (mid : List (DagNodeId × Int)) (x : DagNodeInfo)
    (hx : x ∈ linearInfos g mid) :
    x.Typ = DagNodeType.Simple ∧ x.Status = Pending ∧ g ≤ x.Group ∧ x.Group < g + mid.length ∧
      ∃ ab ∈ mid, x.Branch = ab.2 := by
  induction mid generalizing g with
  | nil => simp [linearInfos] at hx
  | cons ab rest ih =>
    obtain ⟨a, b⟩ := ab
    simp only [linearInfos, List.mem_cons] at hx
    rcases hx with rfl | hx
    · refine ⟨rfl, rfl, le_refl _, ?_, (a, b), by simp, rfl⟩
      simp only [List.length_cons]
      push_cast
      omega
    · obtain ⟨h1, h2, h3, h4, ab, hab, h5⟩ := ih (g + 1) hx
      refine ⟨h1, h2, by omega, ?_, ab, by simp [hab], h5⟩
      simp only [List.length_cons]
      push_cast
      omega

theorem linearInfos_pairwise (g : Int) (mid : List (DagNodeId × Int)) :
    (linearInfos g mid).Pairwise (fun a b => a.Group < b.Group) := by
  induction mid generalizing g with
  | nil => simp [linearInfos]
  | cons ab rest ih =>
    obtain ⟨a, b⟩ := ab
    simp only [linearInfos]
    refine List.pairwise_cons.2 ⟨?_, ih (g + 1)⟩
    intro y hy
    have := (linearInfos_mem (g + 1) rest y hy).2.2.1
    show g < y.Group
    omega

theorem linearInfos_groups (g : Int) (mid : List (DagNodeId × Int)) :
    (linearInfos g mid).map (fun x => x.Group)
      = (List.range mid.length).map (fun (i : Nat) => g + (i : Int)) := by
  induction mid generalizing g with
  | nil => rfl
  | cons ab rest ih =>
    obtain ⟨a, b⟩ := ab
    simp only [linearInfos, List.map_cons, List.length_cons, List.range_succ_eq_map, ih (g + 1),
      List.map_map]
    simp only [Nat.cast_zero, add_zero, List.cons.injEq, true_and]
    apply List.map_congr_left
    intro i _
    simp only [Function.comp, Nat.succ_eq_add_one]
    push_cast
    omega

theorem moveEndNodeAtTheEnd_linear (s : DagNodeId) (sb : Int) (mid : List (DagNodeId × Int))
    (e : DagNodeId) (eb : Int) (g : Int) (hlen : (mid.length : Int) + 1 ≤ MaxInt) :
    moveEndNodeAtTheEnd
        (⟨s, DagNodeType.Start, Pending, 0, sb⟩
          :: (linearInfos 1 mid ++ [⟨e, DagNodeType.End, Pending, g, eb⟩]))
      = ⟨s, DagNodeType.Start, Pending, 0, sb⟩
          :: (linearInfos 1 mid ++ [⟨e, DagNodeType.End, Pending, mid.length + 1, eb⟩]) := by
  have hpre : ∀ y ∈ (⟨s, DagNodeType.Start, Pending, 0, sb⟩ : DagNodeInfo) :: linearInfos 1 mid,
      y.Typ ≠ DagNodeType.End := by
    intro y hy
    rcases List.mem_cons.1 hy with rfl | hy
    · simp
    · rw [(linearInfos_mem 1 mid y hy).1]
      simp
  have hloop := moveEndLoop_split
    ((⟨s, DagNodeType.Start, Pending, 0, sb⟩ : DagNodeInfo) :: linearInfos 1 mid) []
    ⟨e, DagNodeType.End, Pending, g, eb⟩ 0 none 0 rfl hpre (by simp)
  have hmax : (((⟨s, DagNodeType.Start, Pending, 0, sb⟩ : DagNodeInfo) :: linearInfos 1 mid
      ++ []).map (fun (y : DagNodeInfo) => y.Group)).foldl max (0 : Int)
        = (mid.length : Int) := by
    simp only [List.append_nil, List.map_cons, List.foldl_cons, max_self]
    rw [foldl_max_linearInfos mid 1 0 (by norm_num)]
    simp
  rw [hmax] at hloop
  have herase := eraseIdx_split
    ((⟨s, DagNodeType.Start, Pending, 0, sb⟩ : DagNodeInfo) :: linearInfos 1 mid) []
    ⟨e, DagNodeType.End, Pending, g, eb⟩
  simp only [List.cons_append, Nat.zero_add] at hloop herase
  have hwrap : wrapInt ((mid.length : Int) + 1) = (mid.length : Int) + 1 :=
    wrapInt_of_range _ (by unfold MinInt; omega) hlen
  unfold moveEndNodeAtTheEnd
  rw [hloop]
  simp only [herase, hwrap]
  simp

/-- Where every branch index is below `math.MaxInt`: for the linear DAG
`Start -> n1 -> ... -> nk -> End` with pairwise distinct ids,
`InitProgressRecursive` returns (given `k + 2` rounds) the ledger whose nodes
are `Start`, `n1`, ..., `nk`, `End` in that order, with groups
`0, 1, ..., k + 1`, every status Pending, and `NextGroup` 0. -/
theorem InitProgressRecursive_linear (fuel : Nat) (reqId : ReqId) (s : DagNodeId) (sb : Int)
    (mid : List (DagNodeId × Int)) (e : DagNodeId) (eb : Int)
    (hfuel : mid.length + 2 ≤ fuel)
    (hnodup : (s :: (mid.map (fun x => x.1) ++ [e])).Nodup)
    (hsb : sb < MaxInt) (heb : eb < MaxInt) (hmid : ∀ x ∈ mid, x.2 < MaxInt)
    (hlen : (mid.length : Int) + 1 ≤ MaxInt) :
    InitProgressRecursive fuel reqId (linearDag s sb mid e eb)
      = Res.ok
        { ReqId := reqId,
          DagNodes := ⟨s, DagNodeType.Start, Pending, 0, sb⟩
            :: (linearInfos 1 mid ++ [⟨e, DagNodeType.End, Pending, mid.length + 1, eb⟩]),
          NextGroup := 0 } ∧
    ((⟨s, DagNodeType.Start, Pending, 0, sb⟩ : DagNodeInfo)
        :: (linearInfos 1 mid ++ [⟨e, DagNodeType.End, Pending, mid.length + 1, eb⟩])).map
      (fun x => x.Id) = s :: (mid.map (fun x => x.1) ++ [e]) ∧
    ((⟨s, DagNodeType.Start, Pending, 0, sb⟩ : DagNodeInfo)
        :: (linearInfos 1 mid ++ [⟨e, DagNodeType.End, Pending, mid.length + 1, eb⟩])).map
      (fun x => x.Group) = (List.range (mid.length + 2)).map (fun (i : Nat) => (i : Int)) ∧
    (∀ x ∈ (⟨s, DagNodeType.Start, Pending, 0, sb⟩ : DagNodeInfo)
        :: (linearInfos 1 mid ++ [⟨e, DagNodeType.End, Pending, mid.length + 1, eb⟩]),
      x.Status = Pending) := by
  refine ⟨?_, ?_, ?_, ?_⟩
  · have hl : ((⟨s, DagNodeType.Start, Pending, 0, sb⟩ : DagNodeInfo)
        :: (linearInfos 1 mid
          ++ [⟨e, DagNodeType.End, Pending, 1 + mid.length, eb⟩])).length = mid.length + 2 := by
      simp [linearInfos_length]
    have hmem : ∀ x ∈ (⟨s, DagNodeType.Start, Pending, 0, sb⟩ : DagNodeInfo)
        :: (linearInfos 1 mid ++ [⟨e, DagNodeType.End, Pending, mid.length + 1, eb⟩]),
        x.Group ≤ MaxInt ∧ x.Branch < MaxInt := by
      intro x hx
      rcases List.mem_cons.1 hx with rfl | hx
      · exact ⟨by show (0 : Int) ≤ MaxInt; omega, hsb⟩
      · rcases List.mem_append.1 hx with hx | hx
        · obtain ⟨_, _, _, h4, ab, hab, h5⟩ := linearInfos_mem 1 mid x hx
          exact ⟨by omega, by rw [h5]; exact hmid ab hab⟩
        · simp only [List.mem_singleton] at hx
          rw [hx]
          exact ⟨by show (mid.length : Int) + 1 ≤ MaxInt; exact hlen, heb⟩
    have hsorted : ((⟨s, DagNodeType.Start, Pending, 0, sb⟩ : DagNodeInfo)
        :: (linearInfos 1 mid
          ++ [⟨e, DagNodeType.End, Pending, mid.length + 1, eb⟩])).Pairwise
        (fun a b => a.Group < b.Group) := by
      refine List.pairwise_cons.2 ⟨?_, List.pairwise_append.2 ⟨linearInfos_pairwise 1 mid, by simp, ?_⟩⟩
      · intro y hy
        rcases List.mem_append.1 hy with hy | hy
        · have := (linearInfos_mem 1 mid y hy).2.2.1
          show (0 : Int) < y.Group
          omega
        · simp only [List.mem_singleton] at hy
          rw [hy]
          show (0 : Int) < (mid.length : Int) + 1
          omega
      · intro a ha b hb
        simp only [List.mem_singleton] at hb
        rw [hb]
        have := (linearInfos_mem 1 mid a ha).2.2.2.1
        show a.Group < (mid.length : Int) + 1
        omega
    have hids : (((⟨s, DagNodeType.Start, Pending, 0, sb⟩ : DagNodeInfo)
        :: (linearInfos 1 mid
          ++ [⟨e, DagNodeType.End, Pending, mid.length + 1, eb⟩])).map (fun x => x.Id)).Nodup := by
      simpa [linearInfos_ids] using hnodup
    unfold InitProgressRecursive
    rw [extractNodeInfo_linearDag fuel s sb mid e eb hfuel hnodup]
    simp only [Res.bind]
    rw [← hl, filterMap_range_heap, moveEndNodeAtTheEnd_linear s sb mid e eb _ hlen]
    unfold reorder
    rw [reorderLoop_strict fuel _ [] (by simp [linearInfos_length]; omega) hids hmem hsorted]
    simp
  · simp [linearInfos_ids]
  · simp only [List.map_cons, List.map_append, linearInfos_groups, List.map_nil]
    rw [List.range_succ, List.range_succ_eq_map]
    simp only [List.map_cons, List.map_append, List.map_map, Nat.cast_zero, List.map_nil,
      List.cons_append, List.cons.injEq, true_and]
    congr 1
    · apply List.map_congr_left
      intro i _
      simp only [Function.comp, Nat.succ_eq_add_one]
      push_cast
      omega
  · intro x hx
    rcases List.mem_cons.1 hx with rfl | hx
    · rfl
    · rcases List.mem_append.1 hx with hx | hx
      · exact (linearInfos_mem 1 mid x hx).2.1
      · simp only [List.mem_singleton] at hx
        rw [hx]

/-- The ledger of the DAG `Start -> A -> B -> End`, whose groups are
`0, 1, 2, 3`. -/
theorem InitProgressRecursive_linear_witness :
    InitProgressRecursive 4 "r" dagLinear
      = Res.ok
        { ReqId := "r",
          DagNodes := [⟨"start", DagNodeType.Start, Pending, 0, 0⟩,
            ⟨"A", DagNodeType.Simple, Pending, 1, 0⟩, ⟨"B", DagNodeType.Simple, Pending, 2, 0⟩,
            ⟨"end", DagNodeType.End, Pending, 3, 0⟩],
          NextGroup := 0 } :=
  (InitProgressRecursive_linear 4 "r" "start" 0 [("A", 0), ("B", 0)] "end" 0 (by decide)
    (by decide) (by decide) (by decide) (by decide) (by decide)).1

/-- C7, the code at the failing input: on the linear DAG `Start -> A -> End`
whose node `A` has the branch index `math.MaxInt`, `popMinGroupAndBranchNode`
finds no node of least branch once the start node is removed and panics, so
that `InitProgressRecursive` returns no ledger, whatever the number of rounds;
with the branch index `math.MaxInt - 1` the ledger has the groups 0, 1, 2. -/
theorem InitProgressRecursive_linear_MaxInt_branch :
    dagLinearMaxBranch.Nodes
      = [⟨"start", DagNodeType.Start, 0, ["A"]⟩, ⟨"A", DagNodeType.Simple, MaxInt, ["end"]⟩,
          ⟨"end", DagNodeType.End, 0, []⟩] ∧
    popMinGroupAndBranchNode
        [⟨"A", DagNodeType.Simple, Pending, 1, MaxInt⟩, ⟨"end", DagNodeType.End, Pending, 2, 0⟩]
      = Res.panic ∧
    (∀ k : Nat, InitProgressRecursive (k + 3) "r" dagLinearMaxBranch = Res.panic) ∧
    InitProgressRecursive 3 "r" (linearDag "start" 0 [("A", MaxInt - 1)] "end" 0)
      = Res.ok
        { ReqId := "r",
          DagNodes := [⟨"start", DagNodeType.Start, Pending, 0, 0⟩,
            ⟨"A", DagNodeType.Simple, Pending, 1, MaxInt - 1⟩,
            ⟨"end", DagNodeType.End, Pending, 2, 0⟩],
          NextGroup := 0 } :=
  ⟨by decide, by decide, fun _ => rfl, by decide⟩

/-- C8, as amended: on the ledger of the DAG `Start -> A -> B -> End`, calling
`NextNodes` and then `CompleteNode` on the id returned, again and again, gives
the batches `start`, `A`, `B`, `end` in that order, each without error, after
which the ledger is completed. -/
theorem NextNodes_linear_batches :
    ∃ p₀ : Progress, InitProgressRecursive 4 "r" dagLinear = Res.ok p₀ ∧
      (NextNodes p₀).1 = (["start"], none) ∧
      (NextNodes (CompleteNode (NextNodes p₀).2 "start").1).1 = (["A"], none) ∧
      (NextNodes (CompleteNode (NextNodes (CompleteNode (NextNodes p₀).2 "start").1).2 "A").1).1
        = (["B"], none) ∧
      (NextNodes (CompleteNode (NextNodes (CompleteNode (NextNodes
        (CompleteNode (NextNodes p₀).2 "start").1).2 "A").1).2 "B").1).1 = (["end"], none) ∧
      IsCompleted (CompleteNode (NextNodes (CompleteNode (NextNodes (CompleteNode (NextNodes
        (CompleteNode (NextNodes p₀).2 "start").1).2 "A").1).2 "B").1).2 "end").1 = true :=
  ⟨_, rfl, by decide, by decide, by decide, by decide, by decide⟩

/-- Counterexample to C8 as stated: the first call of `NextNodes` on the
ledger of `Start -> A -> B -> End` returns the start node, not `A`. -/
theorem NextNodes_linear_first_batch :
    ∃ p₀ : Progress, InitProgressRecursive 4 "r" dagLinear = Res.ok p₀ ∧
      (NextNodes p₀).1 = (["start"], none) ∧ (NextNodes p₀).1.1 ≠ ["A"] :=
  ⟨_, rfl, by decide, by decide⟩

/-- C3, the code at the failing input: in the ledger of `dagParallel` the
node `B` and the `FanIn` node that follows it have the same group 3. -/
theorem InitProgressRecursive_fanIn_same_group :
    dagParallel.Find "B" = some ⟨"B", DagNodeType.Simple, 0, ["fanin"]⟩ ∧
    InitProgressRecursive 7 "r" dagParallel
      = Res.ok
        { ReqId := "r",
          DagNodes := [⟨"start", DagNodeType.Start, Pending, 0, 0⟩,
            ⟨"fanout", DagNodeType.FanOut, Pending, 1, 0⟩,
            ⟨"A", DagNodeType.Simple, Pending, 2, 0⟩,
            ⟨"C", DagNodeType.Simple, Pending, 2, 1⟩,
            ⟨"B", DagNodeType.Simple, Pending, 3, 0⟩,
            ⟨"fanin", DagNodeType.FanIn, Pending, 3, 0⟩,
            ⟨"end", DagNodeType.End, Pending, 4, 0⟩],
          NextGroup := 0 } := by
  decide

/-! ## `NextNodes` without Pending node, `CompleteNode` twice, `IsCompleted` -/

theorem minPendingGroupLoop_no_pending (l : List DagNodeInfo)
    (h : ∀ n ∈ l, n.Status ≠ Pending) :
    minPendingGroupLoop l = none ∨ minPendingGroupLoop l = some (-1) := by
  induction l with
  | nil => right; rfl
  | cons a rest ih =>
    have ha := h a (by simp)
    have hr := ih (fun n hn => h n (by simp [hn]))
    by_cases hf : a.Status = Failed
    · left
      simp [minPendingGroupLoop, hf]
    · simpa [minPendingGroupLoop, ha, hf] using hr

/-- C18, as amended: on a ledger without Pending node on which `NextNodes`
returns without error, it returns the empty list and leaves -1 in `NextGroup`,
the rest of the ledger being as before. -/
theorem NextNodes_no_pending (p : Progress)
    (hp : ∀ n ∈ p.DagNodes, n.Status ≠ Pending) (h : (NextNodes p).1.2 = none) :
    (NextNodes p).1.1 = [] ∧ (NextNodes p).2 = { p with NextGroup := -1 } := by
  rcases minPendingGroupLoop_no_pending p.DagNodes hp with hl | hl
  · rw [NextNodes_of_loop_none p hl] at h
    simp at h
  · rw [NextNodes_of_loop p (-1) hl]
    refine ⟨?_, rfl⟩
    rw [List.map_eq_nil_iff, List.filter_eq_nil_iff]
    intro a ha
    simp only [decide_eq_true_eq, not_and]
    intro _
    exact hp a ha

/-- Witness for C18: the ledger `ledgerDone`. -/
theorem NextNodes_no_pending_witness :
    (NextNodes ledgerDone).1.1 = [] ∧
      (NextNodes ledgerDone).2 = { ledgerDone with NextGroup := -1 } :=
  NextNodes_no_pending ledgerDone (by decide) (by decide)

/-- Counterexample to C18 as stated: on `ledgerDone`, which has no Pending
node and `NextGroup` 3, `NextNodes` returns without error and leaves -1 in
`NextGroup`. -/
theorem NextNodes_no_pending_changes_NextGroup :
    (∀ n ∈ ledgerDone.DagNodes, n.Status ≠ Pending) ∧
    (NextNodes ledgerDone).1 = ([], none) ∧
    (NextNodes ledgerDone).2.NextGroup = -1 ∧
    (NextNodes ledgerDone).2.NextGroup ≠ ledgerDone.NextGroup := by
  decide

theorem setStatusLoop_twice (id : DagNodeId) (s : DagNodeStatus) (l r : List DagNodeInfo)
    (h : setStatusLoop id s l = some r) : setStatusLoop id s r = some r := by
  induction l generalizing r with
  | nil => simp [setStatusLoop] at h
  | cons a rest ih =>
    by_cases ha : a.Id = id
    · simp only [setStatusLoop, ha, if_true, Option.some.injEq] at h
      subst h
      simp [setStatusLoop]
    · simp only [setStatusLoop, ha, if_false, Option.map_eq_some'] at h
      obtain ⟨r', hr', rfl⟩ := h
      simp [setStatusLoop, ha, ih r' hr']

/-- C19: a second `CompleteNode` with the same id leaves the ledger as the
first call left it and returns what the first call returned. -/
theorem CompleteNode_twice (p : Progress) (id : DagNodeId) :
    (CompleteNode (CompleteNode p id).1 id).1 = (CompleteNode p id).1 ∧
    (CompleteNode (CompleteNode p id).1 id).2 = (CompleteNode p id).2 := by
  cases h : setStatusLoop id Executed p.DagNodes with
  | none =>
    have h1 : CompleteNode p id
        = (p, some ("no node to complete with id " ++ id ++ " exists in the dag for request "
            ++ p.ReqId)) := by
      unfold CompleteNode
      rw [h]
    rw [h1]
    exact ⟨by rw [h1], by rw [h1]⟩
  | some r =>
    have h1 : CompleteNode p id = ({ p with DagNodes := r }, none) := by
      unfold CompleteNode
      rw [h]
    have h2 : CompleteNode { p with DagNodes := r } id = ({ p with DagNodes := r }, none) := by
      unfold CompleteNode
      simp only [setStatusLoop_twice id Executed p.DagNodes r h]
    rw [h1]
    exact ⟨by rw [h2], by rw [h2]⟩

/-- C20: `IsCompleted` is true exactly when no node of the ledger is Pending;
so it is true of the empty ledger and of a ledger whose nodes are Executed,
Waiting, Skipped or Failed. -/
theorem IsCompleted_iff (p : Progress) :
    (IsCompleted p = true ↔ ∀ n ∈ p.DagNodes, n.Status ≠ Pending) ∧
    IsCompleted { p with DagNodes := [] } = true ∧
    ((∀ n ∈ p.DagNodes, n.Status = Executed ∨ n.Status = Waiting ∨ n.Status = Skipped
        ∨ n.Status = Failed) → IsCompleted p = true) := by
  have hiff : IsCompleted p = true ↔ ∀ n ∈ p.DagNodes, n.Status ≠ Pending := by
    unfold IsCompleted
    induction p.DagNodes with
    | nil => simp
    | cons a rest ih =>
      rw [List.all_cons, Bool.and_eq_true, ih]
      simp
  refine ⟨hiff, rfl, ?_⟩
  intro h
  rw [hiff]
  intro n hn hp
  rcases h n hn with h | h | h | h <;> rw [hp] at h <;> cases h

/-! ## `BuildConditionFromRule` -/

theorem compileDataTest_ne_outOfFuel (t : asl.TestExpression) :
    compileDataTest t ≠ Res.outOfFuel := by
  unfold compileDataTest
  split <;> simp

theorem compileDataTest_notImplemented (t : asl.TestExpression)
    (h : t.ComparisonOperator.Kind ∈ notImplementedKinds) : compileDataTest t = Res.panic := by
  obtain ⟨v, ⟨kind, x⟩⟩ := t
  simp only [notImplementedKinds, List.mem_cons, List.mem_singleton, List.not_mem_nil,
    or_false] at h
  rcases h with rfl | rfl | rfl | rfl | rfl | rfl | rfl | rfl | rfl <;> rfl

theorem buildConditionLoop_panic (pre post : List asl.ChoiceRule) (t : asl.TestExpression)
    (conds : List Condition) (ht : compileDataTest t = Res.panic)
    (hpre : ∀ r ∈ pre, r ≠ asl.ChoiceRule.other) :
    buildConditionLoop (pre ++ asl.ChoiceRule.DataTestExpression t :: post) conds = Res.panic := by
  induction pre generalizing conds with
  | nil => simp [buildConditionLoop, ht, Res.bind]
  | cons r rest ih =>
    have hr : ∀ x ∈ rest, x ≠ asl.ChoiceRule.other := fun x hx => hpre x (by simp [hx])
    cases r with
    | BooleanExpression => simpa [buildConditionLoop] using ih conds hr
    | DataTestExpression u =>
      simp only [List.cons_append, buildConditionLoop]
      cases hu : compileDataTest u with
      | ok c => simpa [Res.bind] using ih (conds ++ [c]) hr
      | panic => rfl
      | outOfFuel => exact absurd hu (compileDataTest_ne_outOfFuel u)
    | other => exact absurd rfl (hpre _ (by simp))

/-- C11, as amended: when a data-test rule whose operator is one of
`notImplementedKinds` is preceded only by rules that are choice rules,
`BuildConditionFromRule` panics and returns no condition list; on a rule with
operator `IsNumeric` or `IsString` it returns without error, the zero value of
`Condition` standing for the rule. -/
theorem BuildConditionFromRule_not_implemented (pre post : List asl.ChoiceRule)
    (t : asl.TestExpression) (hkind : t.ComparisonOperator.Kind ∈ notImplementedKinds)
    (hpre : ∀ r ∈ pre, r ≠ asl.ChoiceRule.other) :
    BuildConditionFromRule (pre ++ asl.ChoiceRule.DataTestExpression t :: post) = Res.panic ∧
    (∀ (v : String) (x : asl.Literal),
      BuildConditionFromRule [asl.ChoiceRule.DataTestExpression ⟨v, ⟨"IsNumeric", x⟩⟩]
        = Res.ok ([Condition.Zero, Condition.Const true], none) ∧
      BuildConditionFromRule [asl.ChoiceRule.DataTestExpression ⟨v, ⟨"IsString", x⟩⟩]
        = Res.ok ([Condition.Zero, Condition.Const true], none)) :=
  ⟨buildConditionLoop_panic pre post t [] (compileDataTest_notImplemented t hkind) hpre,
    fun _ _ => ⟨rfl, rfl⟩⟩

/-- Witness for C11: a `NumericEquals` rule and a boolean expression before an
`IsTimestamp` rule. -/
theorem BuildConditionFromRule_not_implemented_witness :
    BuildConditionFromRule
        ([asl.ChoiceRule.DataTestExpression ⟨"v", ⟨"NumericEquals", asl.Literal.number 1⟩⟩,
            asl.ChoiceRule.BooleanExpression]
          ++ asl.ChoiceRule.DataTestExpression ⟨"w", ⟨"IsTimestamp", asl.Literal.bool true⟩⟩
            :: [asl.ChoiceRule.BooleanExpression]) = Res.panic ∧
    (∀ (v : String) (x : asl.Literal),
      BuildConditionFromRule [asl.ChoiceRule.DataTestExpression ⟨v, ⟨"IsNumeric", x⟩⟩]
        = Res.ok ([Condition.Zero, Condition.Const true], none) ∧
      BuildConditionFromRule [asl.ChoiceRule.DataTestExpression ⟨v, ⟨"IsString", x⟩⟩]
        = Res.ok ([Condition.Zero, Condition.Const true], none)) :=
  BuildConditionFromRule_not_implemented
    [asl.ChoiceRule.DataTestExpression ⟨"v", ⟨"NumericEquals", asl.Literal.number 1⟩⟩,
      asl.ChoiceRule.BooleanExpression]
    [asl.ChoiceRule.BooleanExpression] ⟨"w", ⟨"IsTimestamp", asl.Literal.bool true⟩⟩
    (by decide) (by decide)

/-- Counterexample to C11 as stated: on a rule with the reserved operator
`IsNumeric`, `BuildConditionFromRule` returns without error, with the zero
value of `Condition` standing for the rule. -/
theorem BuildConditionFromRule_IsNumeric_succeeds :
    BuildConditionFromRule
        [asl.ChoiceRule.DataTestExpression ⟨"v", ⟨"IsNumeric", asl.Literal.bool true⟩⟩]
      = Res.ok ([Condition.Zero, Condition.Const true], none) := by
  decide

theorem buildConditionLoop_ok (rules : List asl.ChoiceRule) (acc conds : List Condition)
    (h : buildConditionLoop rules acc = Res.ok (conds, none)) :
    ∃ cs, conds = acc ++ cs ++ [NewConstCondition true] ∧
      List.Forall₂
        (fun r c => ∃ t, r = asl.ChoiceRule.DataTestExpression t ∧ compileDataTest t = Res.ok c)
        (rules.filter (fun r => !isBooleanExpression r)) cs := by
  induction rules generalizing acc with
  | nil =>
    simp only [buildConditionLoop, Res.ok.injEq, Prod.mk.injEq, and_true] at h
    exact ⟨[], by simp [h], by simp⟩
  | cons r rest ih =>
    cases r with
    | BooleanExpression =>
      simp only [buildConditionLoop] at h
      obtain ⟨cs, hcs, hall⟩ := ih acc h
      exact ⟨cs, hcs, by simpa [isBooleanExpression] using hall⟩
    | DataTestExpression u =>
      simp only [buildConditionLoop] at h
      cases hu : compileDataTest u with
      | ok c =>
        rw [hu] at h
        simp only [Res.bind] at h
        obtain ⟨cs, hcs, hall⟩ := ih (acc ++ [c]) h
        refine ⟨c :: cs, by simp [hcs], ?_⟩
        simp only [isBooleanExpression, Bool.not_false, List.filter_cons_of_pos]
        exact List.Forall₂.cons ⟨u, rfl, hu⟩ hall
      | panic =>
        rw [hu] at h
        simp [Res.bind] at h
      | outOfFuel =>
        rw [hu] at h
        simp [Res.bind] at h
    | other => simp [buildConditionLoop] at h

/-- C12, as amended: when `BuildConditionFromRule` returns without error, its
result is one condition for each rule that is not a boolean expression, in
the order of the rules, each being the condition compiled from that data-test
rule, followed by the constant true; so the result has `d + 1` conditions for
`d` data-test rules, and `n + 1` conditions when none of the `n` rules is a
boolean expression. -/
theorem BuildConditionFromRule_conditions (rules : List asl.ChoiceRule)
    (conds : List Condition) (h : BuildConditionFromRule rules = Res.ok (conds, none)) :
    (∃ cs, conds = cs ++ [Condition.Const true] ∧
      List.Forall₂
        (fun r c => ∃ t, r = asl.ChoiceRule.DataTestExpression t ∧ compileDataTest t = Res.ok c)
        (rules.filter (fun r => !isBooleanExpression r)) cs) ∧
    conds.length = (rules.filter (fun r => !isBooleanExpression r)).length + 1 ∧
    ((∀ r ∈ rules, isBooleanExpression r = false) → conds.length = rules.length + 1) := by
  obtain ⟨cs, hcs, hall⟩ := buildConditionLoop_ok rules [] conds h
  have hlen : conds.length = (rules.filter (fun r => !isBooleanExpression r)).length + 1 := by
    rw [hcs, hall.length_eq]
    simp
  refine ⟨⟨cs, by simpa [NewConstCondition] using hcs, hall⟩, hlen, ?_⟩
  intro hno
  rw [hlen]
  congr 1
  rw [List.filter_eq_self.2]
  intro r hr
  simp [hno r hr]

/-- Witness for C12: a boolean expression between two data-test rules. -/
theorem BuildConditionFromRule_conditions_witness :
    (∃ cs, [Condition.Eq (ParamOrValue.Param "v") (ParamOrValue.Value (asl.Literal.number 1)),
        Condition.Lt (ParamOrValue.Param "w") (ParamOrValue.Value (asl.Literal.number 2)),
        Condition.Const true] = cs ++ [Condition.Const true] ∧
      List.Forall₂
        (fun r c => ∃ t, r = asl.ChoiceRule.DataTestExpression t ∧ compileDataTest t = Res.ok c)
        (rulesMixed.filter (fun r => !isBooleanExpression r)) cs) ∧
    [Condition.Eq (ParamOrValue.Param "v") (ParamOrValue.Value (asl.Literal.number 1)),
        Condition.Lt (ParamOrValue.Param "w") (ParamOrValue.Value (asl.Literal.number 2)),
        Condition.Const true].length
      = (rulesMixed.filter (fun r => !isBooleanExpression r)).length + 1 ∧
    ((∀ r ∈ rulesMixed, isBooleanExpression r = false) →
      [Condition.Eq (ParamOrValue.Param "v") (ParamOrValue.Value (asl.Literal.number 1)),
        Condition.Lt (ParamOrValue.Param "w") (ParamOrValue.Value (asl.Literal.number 2)),
        Condition.Const true].length = rulesMixed.length + 1) :=
  BuildConditionFromRule_conditions rulesMixed _ (by decide)

/-- Counterexample to C12 as stated: on the one rule `BooleanExpression` the
call succeeds with one condition, not two. -/
theorem BuildConditionFromRule_boolean_expression :
    BuildConditionFromRule [asl.ChoiceRule.BooleanExpression]
      = Res.ok ([Condition.Const true], none) ∧
    ([Condition.Const true] : List Condition).length
      ≠ [asl.ChoiceRule.BooleanExpression].length + 1 := by
  decide

/-- C13, the code at the failing input: a `BooleanEquals` rule is compiled to
equality with the literal `true` whatever its operand is, also when the
operand is `false`. -/
theorem BuildConditionFromRule_BooleanEquals (v : String) (b : Bool) :
    BuildConditionFromRule
        [asl.ChoiceRule.DataTestExpression ⟨v, ⟨"BooleanEquals", asl.Literal.bool b⟩⟩]
      = Res.ok ([Condition.Eq (ParamOrValue.Param v) (ParamOrValue.Value (asl.Literal.bool true)),
          Condition.Const true], none) ∧
    Condition.Eq (ParamOrValue.Param v) (ParamOrValue.Value (asl.Literal.bool true))
      ≠ Condition.Eq (ParamOrValue.Param v) (ParamOrValue.Value (asl.Literal.bool false)) := by
  refine ⟨rfl, ?_⟩
  simp

/-- C14: the conditions `BuildConditionFromRule` compiles a data-test rule with
variable `v` and operand `x` to, operator by operator. -/
theorem BuildConditionFromRule_operators (v : String) (x : asl.Literal) :
    BuildConditionFromRule [asl.ChoiceRule.DataTestExpression ⟨v, ⟨"StringEquals", x⟩⟩]
      = Res.ok ([Condition.Eq (ParamOrValue.Param v) (ParamOrValue.Value x),
          Condition.Const true], none) ∧
    BuildConditionFromRule [asl.ChoiceRule.DataTestExpression ⟨v, ⟨"NumericEquals", x⟩⟩]
      = Res.ok ([Condition.Eq (ParamOrValue.Param v) (ParamOrValue.Value x),
          Condition.Const true], none) ∧
    BuildConditionFromRule [asl.ChoiceRule.DataTestExpression ⟨v, ⟨"NumericLessThan", x⟩⟩]
      = Res.ok ([Condition.Lt (ParamOrValue.Param v) (ParamOrValue.Value x),
          Condition.Const true], none) ∧
    BuildConditionFromRule [asl.ChoiceRule.DataTestExpression ⟨v, ⟨"NumericGreaterThan", x⟩⟩]
      = Res.ok ([Condition.Gt (ParamOrValue.Param v) (ParamOrValue.Value x),
          Condition.Const true], none) ∧
    BuildConditionFromRule
        [asl.ChoiceRule.DataTestExpression ⟨v, ⟨"NumericLessThanEquals", x⟩⟩]
      = Res.ok ([Condition.Or (Condition.Lt (ParamOrValue.Param v) (ParamOrValue.Value x))
            (Condition.Eq (ParamOrValue.Param v) (ParamOrValue.Value x)),
          Condition.Const true], none) ∧
    BuildConditionFromRule
        [asl.ChoiceRule.DataTestExpression ⟨v, ⟨"NumericGreaterThanEquals", x⟩⟩]
      = Res.ok ([Condition.Or (Condition.Gt (ParamOrValue.Param v) (ParamOrValue.Value x))
            (Condition.Eq (ParamOrValue.Param v) (ParamOrValue.Value x)),
          Condition.Const true], none) ∧
    BuildConditionFromRule [asl.ChoiceRule.DataTestExpression ⟨v, ⟨"IsNull", x⟩⟩]
      = Res.ok ([Condition.Eq (ParamOrValue.Param v) (ParamOrValue.Value asl.Literal.null),
          Condition.Const true], none) ∧
    BuildConditionFromRule [asl.ChoiceRule.DataTestExpression ⟨v, ⟨"IsPresent", x⟩⟩]
      = Res.ok ([Condition.Not
            (Condition.Eq (ParamOrValue.Param v) (ParamOrValue.Value asl.Literal.null)),
          Condition.Const true], none) ∧
    BuildConditionFromRule [asl.ChoiceRule.DataTestExpression ⟨v, ⟨"IsBoolean", x⟩⟩]
      = Res.ok ([Condition.Or
            (Condition.Eq (ParamOrValue.Param v) (ParamOrValue.Value (asl.Literal.bool true)))
            (Condition.Eq (ParamOrValue.Param v) (ParamOrValue.Value (asl.Literal.bool false))),
          Condition.Const true], none) :=
  ⟨rfl, rfl, rfl, rfl, rfl, rfl, rfl, rfl, rfl⟩

/-! ## `extractNodeInfo` on a well-formed DAG -/

theorem find?_of_mem (l : List DagNode) (n : DagNode) (hn : n ∈ l)
    (hnodup : (l.map (fun m => m.Id)).Nodup) :
    l.find? (fun m => decide (m.Id = n.Id)) = some n := by
  induction l with
  | nil => simp at hn
  | cons a rest ih =>
    rw [List.map_cons] at hnodup
    have hnd := List.nodup_cons.1 hnodup
    by_cases ha : a.Id = n.Id
    · rcases List.mem_cons.1 hn with rfl | hmem
      · simp [List.find?_cons]
      · exfalso
        apply hnd.1
        rw [ha]
        exact List.mem_map.2 ⟨n, hmem, rfl⟩
    · rcases List.mem_cons.1 hn with rfl | hmem
      · exact absurd rfl ha
      · simp only [List.find?_cons, ha, decide_False]
        exact ih hmem hnd.2

theorem Find_of_mem (dag : Dag) (n : DagNode) (hn : n ∈ dag.Nodes)
    (hnodup : (dag.Nodes.map (fun m => m.Id)).Nodup) : dag.Find n.Id = some n :=
  find?_of_mem dag.Nodes n hn hnodup

theorem Reach_snoc (dag : Dag) (a b s : DagNodeId) (n : DagNode) (h : Reach dag a b)
    (hfind : dag.Find b = some n) (hs : s ∈ n.Next) : Reach dag a s := by
  induction h with
  | refl a => exact Reach.step a s s n hfind hs (Reach.refl s)
  | step a t b m hf ht _ ih => exact Reach.step a t s m hf ht (ih hfind)

theorem Reach_trans (dag : Dag) (a b c : DagNodeId) (h : Reach dag a b) (h2 : Reach dag b c) :
    Reach dag a c := by
  induction h with
  | refl a => exact h2
  | step a t b m hf ht _ ih => exact Reach.step a t c m hf ht (ih h2)

theorem Reach_cases (dag : Dag) (a b : DagNodeId) (n : DagNode) (hfind : dag.Find a = some n) :
    Reach dag a b ↔ b = a ∨ ∃ s ∈ n.Next, Reach dag s b := by
  constructor
  · intro h
    cases h with
    | refl => exact Or.inl rfl
    | step _ s _ m hf hs hr =>
      rw [hfind] at hf
      cases hf
      exact Or.inr ⟨s, hs, hr⟩
  · rintro (rfl | ⟨s, hs, hr⟩)
    · exact Reach.refl _
    · exact Reach.step a s b n hfind hs hr

theorem forall₂_set {R : DagNodeInfo → DagNodeInfo → Prop} (hrefl : ∀ a, R a a)
    (l : List DagNodeInfo) (i : Nat) (x y : DagNodeInfo) (hx : l[i]? = some x) (hxy : R x y) :
    List.Forall₂ R l (l.set i y) := by
  induction l generalizing i with
  | nil => simp at hx
  | cons a rest ih =>
    cases i with
    | zero =>
      simp only [List.getElem?_cons_zero, Option.some.injEq] at hx
      subst hx
      exact List.Forall₂.cons hxy (List.forall₂_same.2 (fun a _ => hrefl a))
    | succ i =>
      simp only [List.getElem?_cons_succ] at hx
      exact List.Forall₂.cons (hrefl a) (ih i hx)

theorem setGroupLoop_forall₂ (id : DagNodeId) (g : Int) (ptrs : List Nat) (heap : Heap) :
    List.Forall₂ (fun a b => b = a ∨ b = { a with Group := g }) heap
      (setGroupLoop id g ptrs heap) := by
  induction ptrs with
  | nil => exact List.forall₂_same.2 (fun a _ => Or.inl rfl)
  | cons ptr rest ih =>
    unfold setGroupLoop
    cases hp : heap[ptr]? with
    | none => simpa using ih
    | some x =>
      by_cases hx : x.Id = id
      · simp only [hx, if_true]
        exact forall₂_set (fun a => Or.inl rfl) heap ptr x _ hp (Or.inr (by simp [hx]))
      · simp only [hx, if_false]
        exact ih

theorem HeapInv_of_forall₂ (dag : Dag) (root : DagNodeId) (R g : Int) (heap heap' : Heap)
    (hg : g ≤ R) (h : List.Forall₂ (fun a b => b = a ∨ b = { a with Group := g }) heap heap')
    (hinv : HeapInv dag root R heap) :
    HeapInv dag root R heap' ∧ heap'.length = heap.length ∧
      heap'.map (fun e => e.Id) = heap.map (fun e => e.Id) := by
  induction h with
  | nil => exact ⟨hinv, rfl, rfl⟩
  | @cons a b l l' hab _ ih =>
    obtain ⟨hnd, hkey, hgrp⟩ := hinv
    rw [List.map_cons] at hnd
    have hnd' := List.nodup_cons.1 hnd
    have hinvl : HeapInv dag root R l :=
      ⟨hnd'.2, fun e he => hkey e (by simp [he]), fun e he => hgrp e (by simp [he])⟩
    obtain ⟨⟨ind, ikey, igrp⟩, ilen, iids⟩ := ih hinvl
    have hid : b.Id = a.Id := by rcases hab with rfl | rfl <;> rfl
    have hk : infoKey b = infoKey a := by rcases hab with rfl | rfl <;> rfl
    have hbg : b.Group ≤ R := by
      rcases hab with rfl | rfl
      · exact hgrp _ (by simp)
      · exact hg
    refine ⟨⟨?_, ?_, ?_⟩, by simp [ilen], by simp [hid, iids]⟩
    · simp only [List.map_cons, List.nodup_cons, hid, iids]
      exact ⟨hnd'.1, hnd'.2⟩
    · intro e he
      rcases List.mem_cons.1 he with rfl | he
      · rw [hk]
        exact hkey a (by simp)
      · exact ikey e he
    · intro e he
      rcases List.mem_cons.1 he with rfl | he
      · exact hbg
      · exact igrp e he

theorem isNodeInfoPresent_present (id : DagNodeId) (heap : Heap) (h : ∃ x ∈ heap, x.Id = id) :
    isNodeInfoPresent id (List.range heap.length) heap = true := by
  rw [isNodeInfoPresent_range id heap.length heap (le_refl _), List.take_length]
  exact h

theorem Grows_trans (dag : Dag) (root : DagNodeId) (R : Int) (h0 h1 h2 : Heap)
    (S1 S2 : DagNodeId → Prop) (a : Grows dag root R h0 h1 S1) (b : Grows dag root R h1 h2 S2) :
    Grows dag root R h0 h2 (fun id => S1 id ∨ S2 id) := by
  refine ⟨b.1, le_trans a.2.1 b.2.1, ?_⟩
  intro id
  rw [b.2.2 id, a.2.2 id, or_assoc]

theorem firstStep_grows (dag : Dag) (root : DagNodeId) (R : Int) (node : DagNode) (g : Int)
    (heap : Heap) (hn : node ∈ dag.Nodes) (hreach : Reach dag root node.Id) (hg : g ≤ R)
    (hinv : HeapInv dag root R heap) :
    ∃ heap1, firstStep node g (List.range heap.length) heap = (List.range heap1.length, heap1) ∧
      Grows dag root R heap heap1 (fun id => id = node.Id) := by
  by_cases hpres : ∃ x ∈ heap, x.Id = node.Id
  · have hp := isNodeInfoPresent_present node.Id heap hpres
    have hmem : node.Id ∈ heap.map (fun e => e.Id) := by
      obtain ⟨x, hx, hid⟩ := hpres
      exact List.mem_map.2 ⟨x, hx, hid⟩
    by_cases hfan : node.Typ = DagNodeType.FanIn
    · obtain ⟨hinv1, hlen1, hids1⟩ := HeapInv_of_forall₂ dag root R g heap _ hg
        (setGroupLoop_forall₂ node.Id g (List.range heap.length) heap) hinv
      refine ⟨setGroupLoop node.Id g (List.range heap.length) heap, ?_, hinv1, by omega, ?_⟩
      · simp [firstStep, hp, hfan, hlen1]
      · intro id
        rw [hids1]
        constructor
        · exact fun h => Or.inl h
        · rintro (h | h)
          · exact h
          · rw [h]; exact hmem
    · refine ⟨heap, by simp [firstStep, hp, hfan], hinv, le_refl _, ?_⟩
      intro id
      constructor
      · exact fun h => Or.inl h
      · rintro (h | h)
        · exact h
        · rw [h]; exact hmem
  · have hfresh : ∀ x ∈ heap, x.Id ≠ node.Id := fun x hx hid => hpres ⟨x, hx, hid⟩
    have hp := isNodeInfoPresent_fresh node.Id heap hfresh
    obtain ⟨hnd, hkey, hgrp⟩ := hinv
    refine ⟨heap ++ [newNodeInfo node g], ?_, ⟨?_, ?_, ?_⟩, by simp, ?_⟩
    · simp [firstStep, hp, List.range_succ]
    · rw [List.map_append, List.nodup_append]
      refine ⟨hnd, by simp, ?_⟩
      intro a ha hb
      simp only [List.map_cons, List.map_nil, List.mem_singleton] at hb
      obtain ⟨x, hx, hid⟩ := List.mem_map.1 ha
      exact hfresh x hx (by rw [hid, hb]; rfl)
    · intro e he
      rcases List.mem_append.1 he with he | he
      · exact hkey e he
      · simp only [List.mem_singleton] at he
        rw [he]
        exact ⟨node, hn, rfl, hreach⟩
    · intro e he
      rcases List.mem_append.1 he with he | he
      · exact hgrp e he
      · simp only [List.mem_singleton] at he
        rw [he]
        exact hg
    · intro id
      simp [newNodeInfo]

theorem extractNodeInfo_succ_end (fuel : Nat) (dag : Dag) (node : DagNode) (g : Int)
    (infos : List Nat) (heap : Heap) (htyp : node.Typ = DagNodeType.End) :
    extractNodeInfo (fuel + 1) dag (some node) g infos heap
      = Res.ok (firstStep node g infos heap) := by
  simp only [extractNodeInfo, firstStep, htyp]

theorem extractNodeInfo_succ_single (fuel : Nat) (dag : Dag) (node : DagNode) (g : Int)
    (infos : List Nat) (heap : Heap) (next : DagNodeId)
    (htyp : node.Typ = DagNodeType.Start ∨ node.Typ = DagNodeType.Simple
      ∨ node.Typ = DagNodeType.FanIn) (hnext : node.Next = [next]) :
    extractNodeInfo (fuel + 1) dag (some node) g infos heap
      = (extractNodeInfo fuel dag (dag.Find next) (g + 1) (firstStep node g infos heap).1
          (firstStep node g infos heap).2).bind
        (fun r => Res.ok (mergeToAdd r.1 (firstStep node g infos heap).1 r.2, r.2)) := by
  rcases htyp with h | h | h <;> simp only [extractNodeInfo, firstStep, h, hnext]

theorem extractNodeInfo_succ_multi (fuel : Nat) (dag : Dag) (node : DagNode) (g : Int)
    (infos : List Nat) (heap : Heap)
    (htyp : node.Typ = DagNodeType.Choice ∨ node.Typ = DagNodeType.FanOut) :
    extractNodeInfo (fuel + 1) dag (some node) g infos heap
      = node.Next.foldl
          (fun acc branchId =>
            acc.bind (fun cur =>
              (extractNodeInfo fuel dag (dag.Find branchId) (g + 1) cur.1 cur.2).bind
                (fun r => Res.ok (mergeToAdd r.1 cur.1 r.2, r.2))))
          (Res.ok (firstStep node g infos heap)) := by
  rcases htyp with h | h <;> simp only [extractNodeInfo, firstStep, h]

theorem child_call (dag : Dag) (rank : DagNodeId → Nat) (hwf : WellFormed dag rank)
    (root : DagNodeId) (R : Int) (fuel : Nat) (hchild : ExtractOK dag rank root R fuel)
    (s : DagNodeId) (g : Int) (cur : Heap)
    (hs : ∃ m ∈ dag.Nodes, m.Id = s) (hreach : Reach dag root s) (hrank : rank s < fuel)
    (hg : g + rank s ≤ R) (hinv : HeapInv dag root R cur) :
    ∃ heap', (extractNodeInfo fuel dag (dag.Find s) g (List.range cur.length) cur).bind
        (fun r => Res.ok (mergeToAdd r.1 (List.range cur.length) r.2, r.2))
        = Res.ok (List.range heap'.length, heap') ∧
      Grows dag root R cur heap' (Reach dag s) := by
  obtain ⟨m, hm, rfl⟩ := hs
  obtain ⟨heap', hex, hgrow⟩ := hchild m g cur hm hreach hrank hg hinv
  refine ⟨heap', ?_, hgrow⟩
  rw [Find_of_mem dag m hm hwf.ids_nodup, hex]
  simp only [Res.bind]
  rw [mergeToAdd_range heap' cur.length hgrow.2.1 hgrow.1.1]

theorem fold_children (dag : Dag) (rank : DagNodeId → Nat) (hwf : WellFormed dag rank)
    (root : DagNodeId) (R : Int) (fuel : Nat) (hchild : ExtractOK dag rank root R fuel)
    (g : Int) (ids : List DagNodeId) (cur : Heap)
    (hall : ∀ s ∈ ids, (∃ m ∈ dag.Nodes, m.Id = s) ∧ Reach dag root s ∧ rank s < fuel
      ∧ g + rank s ≤ R)
    (hinv : HeapInv dag root R cur) :
    ∃ heap', ids.foldl
        (fun acc branchId =>
          acc.bind (fun cur =>
            (extractNodeInfo fuel dag (dag.Find branchId) g cur.1 cur.2).bind
              (fun r => Res.ok (mergeToAdd r.1 cur.1 r.2, r.2))))
        (Res.ok (List.range cur.length, cur))
        = Res.ok (List.range heap'.length, heap') ∧
      Grows dag root R cur heap' (fun id => ∃ s ∈ ids, Reach dag s id) := by
  induction ids generalizing cur with
  | nil =>
    refine ⟨cur, rfl, hinv, le_refl _, ?_⟩
    intro id
    simp
  | cons s rest ih =>
    obtain ⟨h1, h2, h3, h4⟩ := hall s (by simp)
    obtain ⟨heap1, hex1, hgrow1⟩ := child_call dag rank hwf root R fuel hchild s g cur h1 h2 h3 h4 hinv
    obtain ⟨heap2, hex2, hgrow2⟩ := ih heap1 (fun t ht => hall t (by simp [ht])) hgrow1.1
    refine ⟨heap2, ?_, ?_⟩
    · rw [List.foldl_cons]
      simp only [Res.bind] at hex1 ⊢
      rw [hex1]
      exact hex2
    · have := Grows_trans dag root R cur heap1 heap2 _ _ hgrow1 hgrow2
      refine ⟨this.1, this.2.1, ?_⟩
      intro id
      rw [this.2.2 id]
      simp only [List.mem_cons, exists_eq_or_imp]

theorem extract_single (dag : Dag) (rank : DagNodeId → Nat) (hwf : WellFormed dag rank)
    (root : DagNodeId) (R : Int) (fuel : Nat) (ih : ExtractOK dag rank root R fuel)
    (node : DagNode) (g : Int) (heap : Heap) (hn : node ∈ dag.Nodes)
    (hreach : Reach dag root node.Id) (hrank : rank node.Id < fuel + 1)
    (hg : g + rank node.Id ≤ R) (hinv : HeapInv dag root R heap)
    (htyp : node.Typ = DagNodeType.Start ∨ node.Typ = DagNodeType.Simple
      ∨ node.Typ = DagNodeType.FanIn) (hlen : node.Next.length = 1) :
    ∃ heap', extractNodeInfo (fuel + 1) dag (some node) g (List.range heap.length) heap
        = Res.ok (List.range heap'.length, heap') ∧
      Grows dag root R heap heap' (Reach dag node.Id) := by
  obtain ⟨x, hx⟩ := List.length_eq_one.1 hlen
  have hfind := Find_of_mem dag node hn hwf.ids_nodup
  have hxmem : x ∈ node.Next := by rw [hx]; simp
  obtain ⟨heap1, hfs, hgrow1⟩ := firstStep_grows dag root R node g heap hn hreach (by omega) hinv
  have hr := hwf.acyclic node hn x hxmem
  obtain ⟨heap2, hex, hgrow2⟩ := child_call dag rank hwf root R fuel ih x (g + 1) heap1
    (hwf.resolves node hn x hxmem) (Reach_snoc dag root node.Id x node hreach hfind hxmem)
    (by omega) (by omega) hgrow1.1
  refine ⟨heap2, ?_, ?_⟩
  · rw [extractNodeInfo_succ_single fuel dag node g _ heap x htyp hx, hfs]
    exact hex
  · have := Grows_trans dag root R heap heap1 heap2 _ _ hgrow1 hgrow2
    refine ⟨this.1, this.2.1, ?_⟩
    intro id
    rw [this.2.2 id, Reach_cases dag node.Id id node hfind, hx]
    simp

theorem extract_multi (dag : Dag) (rank : DagNodeId → Nat) (hwf : WellFormed dag rank)
    (root : DagNodeId) (R : Int) (fuel : Nat) (ih : ExtractOK dag rank root R fuel)
    (node : DagNode) (g : Int) (heap : Heap) (hn : node ∈ dag.Nodes)
    (hreach : Reach dag root node.Id) (hrank : rank node.Id < fuel + 1)
    (hg : g + rank node.Id ≤ R) (hinv : HeapInv dag root R heap)
    (htyp : node.Typ = DagNodeType.Choice ∨ node.Typ = DagNodeType.FanOut) :
    ∃ heap', extractNodeInfo (fuel + 1) dag (some node) g (List.range heap.length) heap
        = Res.ok (List.range heap'.length, heap') ∧
      Grows dag root R heap heap' (Reach dag node.Id) := by
  have hfind := Find_of_mem dag node hn hwf.ids_nodup
  obtain ⟨heap1, hfs, hgrow1⟩ := firstStep_grows dag root R node g heap hn hreach (by omega) hinv
  obtain ⟨heap2, hex, hgrow2⟩ := fold_children dag rank hwf root R fuel ih (g + 1) node.Next
    heap1
    (fun s hs => ⟨hwf.resolves node hn s hs, Reach_snoc dag root node.Id s node hreach hfind hs,
      by have := hwf.acyclic node hn s hs; omega,
      by have := hwf.acyclic node hn s hs; omega⟩)
    hgrow1.1
  refine ⟨heap2, ?_, ?_⟩
  · rw [extractNodeInfo_succ_multi fuel dag node g _ heap htyp, hfs]
    exact hex
  · have := Grows_trans dag root R heap heap1 heap2 _ _ hgrow1 hgrow2
    refine ⟨this.1, this.2.1, ?_⟩
    intro id
    rw [this.2.2 id, Reach_cases dag node.Id id node hfind]

/-- The walk of `extractNodeInfo` over a well-formed DAG. -/
theorem extract_ok (dag : Dag) (rank : DagNodeId → Nat) (hwf : WellFormed dag rank)
    (root : DagNodeId) (R : Int) (fuel : Nat) : ExtractOK dag rank root R fuel := by
  induction fuel with
  | zero =>
    intro node g heap _ _ hrank
    omega
  | succ fuel ih =>
    intro node g heap hn hreach hrank hg hinv
    have hfind := Find_of_mem dag node hn hwf.ids_nodup
    have hshape := hwf.shaped node hn
    cases htyp : node.Typ with
    | End =>
      obtain ⟨heap1, hfs, hgrow1⟩ :=
        firstStep_grows dag root R node g heap hn hreach (by omega) hinv
      have hnil : node.Next = [] := by
        simpa [wellShaped, htyp] using hshape
      refine ⟨heap1, ?_, hgrow1.1, hgrow1.2.1, ?_⟩
      · rw [extractNodeInfo_succ_end fuel dag node g _ heap htyp, hfs]
      · intro id
        rw [hgrow1.2.2 id, Reach_cases dag node.Id id node hfind, hnil]
        simp
    | Start =>
      exact extract_single dag rank hwf root R fuel ih node g heap hn hreach hrank hg hinv
        (Or.inl htyp) (by simpa [wellShaped, htyp] using hshape)
    | Simple =>
      exact extract_single dag rank hwf root R fuel ih node g heap hn hreach hrank hg hinv
        (Or.inr (Or.inl htyp)) (by simpa [wellShaped, htyp] using hshape)
    | FanIn =>
      exact extract_single dag rank hwf root R fuel ih node g heap hn hreach hrank hg hinv
        (Or.inr (Or.inr htyp)) (by simpa [wellShaped, htyp] using hshape)
    | Choice =>
      exact extract_multi dag rank hwf root R fuel ih node g heap hn hreach hrank hg hinv
        (Or.inl htyp)
    | FanOut =>
      exact extract_multi dag rank hwf root R fuel ih node g heap hn hreach hrank hg hinv
        (Or.inr htyp)

theorem moveEndLoop_general (l : List DagNodeInfo) (i : Nat) (e : Option (Nat × DagNodeInfo))
    (mg : Int) :
    ((moveEndLoop l i e mg).1 = e ∨
      ∃ j x, (moveEndLoop l i e mg).1 = some (i + j, x) ∧ l[j]? = some x) ∧
    ((moveEndLoop l i e mg).2 = mg ∨ ∃ x ∈ l, x.Group = (moveEndLoop l i e mg).2) := by
  induction l generalizing i e mg with
  | nil => simp [moveEndLoop]
  | cons a rest ih =>
    by_cases ha : a.Typ = DagNodeType.End
    · obtain ⟨h1, h2⟩ := ih (i + 1) (some (i, a)) mg
      simp only [moveEndLoop, ha, if_true]
      constructor
      · right
        rcases h1 with h1 | ⟨j, x, h1, hx⟩
        · exact ⟨0, a, by simpa using h1, by simp⟩
        · exact ⟨j + 1, x, by rw [h1]; congr 2; omega, by simpa using hx⟩
      · rcases h2 with h2 | ⟨x, hx, h2⟩
        · exact Or.inl h2
        · exact Or.inr ⟨x, by simp [hx], h2⟩
    · by_cases hg : a.Group > mg
      · obtain ⟨h1, h2⟩ := ih (i + 1) e a.Group
        simp only [moveEndLoop, ha, if_false, hg, if_true]
        constructor
        · rcases h1 with h1 | ⟨j, x, h1, hx⟩
          · exact Or.inl h1
          · exact Or.inr ⟨j + 1, x, by rw [h1]; congr 2; omega, by simpa using hx⟩
        · right
          rcases h2 with h2 | ⟨x, hx, h2⟩
          · exact ⟨a, by simp, h2.symm⟩
          · exact ⟨x, by simp [hx], h2⟩
      · obtain ⟨h1, h2⟩ := ih (i + 1) e mg
        simp only [moveEndLoop, ha, if_false, hg]
        constructor
        · rcases h1 with h1 | ⟨j, x, h1, hx⟩
          · exact Or.inl h1
          · exact Or.inr ⟨j + 1, x, by rw [h1]; congr 2; omega, by simpa using hx⟩
        · rcases h2 with h2 | ⟨x, hx, h2⟩
          · exact Or.inl h2
          · exact Or.inr ⟨x, by simp [hx], h2⟩

theorem moveEndLoop_ge (l : List DagNodeInfo) (i : Nat) (e : Option (Nat × DagNodeInfo))
    (mg : Int) : mg ≤ (moveEndLoop l i e mg).2 := by
  induction l generalizing i e mg with
  | nil => simp [moveEndLoop]
  | cons a rest ih =>
    by_cases ha : a.Typ = DagNodeType.End
    · simp only [moveEndLoop, ha, if_true]
      exact ih _ _ _
    · by_cases hg : a.Group > mg
      · simp only [moveEndLoop, ha, if_false, hg, if_true]
        exact le_trans (le_of_lt hg) (ih _ _ _)
      · simp only [moveEndLoop, ha, if_false, hg]
        exact ih _ _ _

theorem moveEndNodeAtTheEnd_general (l : List DagNodeInfo) :
    moveEndNodeAtTheEnd l = l ∨
    ∃ pre e post M, l = pre ++ e :: post ∧
      moveEndNodeAtTheEnd l = pre ++ post ++ [{ e with Group := wrapInt (M + 1) }] ∧
      (M = 0 ∨ ∃ x ∈ l, x.Group = M) ∧ 0 ≤ M := by
  obtain ⟨h1, h2⟩ := moveEndLoop_general l 0 none 0
  have h3 := moveEndLoop_ge l 0 none 0
  unfold moveEndNodeAtTheEnd
  cases hr : moveEndLoop l 0 none 0 with
  | mk r M =>
    rw [hr] at h1 h2 h3
    simp only at h1 h2 h3
    cases r with
    | none => left; rfl
    | some ie =>
      right
      rcases h1 with h1 | ⟨j, x, h1, hx⟩
      · cases h1
      · simp only [Option.some.injEq, Nat.zero_add] at h1
        subst h1
        have hj : j < l.length := by
          by_contra hge
          rw [List.getElem?_eq_none (by omega)] at hx
          cases hx
        have hxe : l[j] = x := by
          rw [List.getElem?_eq_getElem hj] at hx
          exact Option.some.inj hx
        have hsplit := heap_split l j hj
        rw [hxe] at hsplit
        refine ⟨l.take j, x, l.drop (j + 1), M, hsplit, ?_, h2, h3⟩
        have hlen : (l.take j).length = j := by
          rw [List.length_take]
          omega
        have herase : l.eraseIdx j = l.take j ++ l.drop (j + 1) := by
          conv_lhs => rw [hsplit]
          have := eraseIdx_split (l.take j) (l.drop (j + 1)) x
          rw [hlen] at this
          exact this
        simp only [herase]

theorem moveEndNodeAtTheEnd_keys (l : List DagNodeInfo) (R : Int) (hR : 0 ≤ R)
    (hRmax : R + 1 ≤ MaxInt) (hgrp : ∀ e ∈ l, e.Group ≤ R) :
    ((moveEndNodeAtTheEnd l).map infoKey).Perm (l.map infoKey) ∧
    (∀ e ∈ moveEndNodeAtTheEnd l, e.Group ≤ R + 1) := by
  rcases moveEndNodeAtTheEnd_general l with h | ⟨pre, e, post, M, hl, hm, hM, hM0⟩
  · rw [h]
    exact ⟨List.Perm.refl _, fun e he => by have := hgrp e he; omega⟩
  · have hMR : M ≤ R := by
      rcases hM with h | ⟨x, hx, h⟩
      · omega
      · rw [← h]
        exact hgrp x hx
    have hwrap : wrapInt (M + 1) = M + 1 :=
      wrapInt_of_range _ (by unfold MinInt; omega) (by omega)
    rw [hm, hwrap]
    constructor
    · have hk : infoKey { e with Group := M + 1 } = infoKey e := rfl
      rw [hl]
      simp only [List.map_append, List.map_cons, List.map_nil, hk]
      rw [List.append_assoc]
      exact List.Perm.append_left _ (List.perm_append_comm)
    · intro x hx
      rcases List.mem_append.1 hx with hx | hx
      · have : x ∈ l := by
          rw [hl]
          rcases List.mem_append.1 hx with hx | hx
          · exact List.mem_append_left _ hx
          · exact List.mem_append_right _ (List.mem_cons_of_mem _ hx)
        have := hgrp x this
        omega
      · simp only [List.mem_singleton] at hx
        rw [hx]
        show M + 1 ≤ R + 1
        omega

theorem infoKey_ids (l : List DagNodeInfo) :
    (l.map infoKey).map (fun k => k.1) = l.map (fun e => e.Id) := by
  simp [List.map_map, Function.comp, infoKey]

/-- Where every branch index is below `math.MaxInt`: for a finite acyclic
DAG with unique node ids in which every successor id resolves,
`InitProgressRecursive` returns a ledger (given enough rounds) whose ids are
pairwise distinct and are exactly the ids of the nodes reachable from the
start node, each entry having the type and the branch of the node with its
id. -/
theorem InitProgressRecursive_entries (fuel : Nat) (reqId : ReqId) (dag : Dag)
    (rank : DagNodeId → Nat) (hwf : WellFormed dag rank)
    (hbranch : ∀ n ∈ dag.Nodes, n.BranchId < MaxInt)
    (hfuel : rank dag.Start.Id < fuel ∧ dag.Nodes.length ≤ fuel)
    (hdepth : (rank dag.Start.Id : Int) + 1 ≤ MaxInt) :
    ∃ p, InitProgressRecursive fuel reqId dag = Res.ok p ∧
      (p.DagNodes.map (fun e => e.Id)).Nodup ∧
      (∀ id, id ∈ p.DagNodes.map (fun e => e.Id) ↔ Reach dag dag.Start.Id id) ∧
      (∀ e ∈ p.DagNodes, ∃ n ∈ dag.Nodes,
        n.Id = e.Id ∧ e.Typ = n.Typ ∧ e.Branch = n.BranchId) := by
  have hinv0 : HeapInv dag dag.Start.Id (rank dag.Start.Id : Int) [] :=
    ⟨by simp, by simp, by simp⟩
  obtain ⟨heap, hex, ⟨hnd, hkey, hgrp⟩, _, hids⟩ :=
    extract_ok dag rank hwf dag.Start.Id (rank dag.Start.Id : Int) fuel dag.Start 0 []
      hwf.start_mem (Reach.refl _) hfuel.1 (by omega) hinv0
  simp only [List.length_nil, List.range_zero, List.map_nil, List.not_mem_nil, false_or]
    at hex hids
  obtain ⟨hperm, hgrp2⟩ :=
    moveEndNodeAtTheEnd_keys heap (rank dag.Start.Id : Int) (by omega) hdepth hgrp
  have hidperm : ((moveEndNodeAtTheEnd heap).map (fun e => e.Id)).Perm
      (heap.map (fun e => e.Id)) := by
    have := hperm.map (fun k => k.1)
    rwa [infoKey_ids, infoKey_ids] at this
  have hkey2 : ∀ e ∈ moveEndNodeAtTheEnd heap, ∃ n ∈ dag.Nodes, infoKey e = nodeKey n := by
    intro e he
    have h1 : infoKey e ∈ (moveEndNodeAtTheEnd heap).map infoKey := List.mem_map.2 ⟨e, he, rfl⟩
    obtain ⟨e', he', hk⟩ := List.mem_map.1 (hperm.mem_iff.1 h1)
    obtain ⟨n, hn, hnk, _⟩ := hkey e' he'
    exact ⟨n, hn, by rw [← hk, hnk]⟩
  have hlen : (moveEndNodeAtTheEnd heap).length ≤ fuel := by
    have h1 : (moveEndNodeAtTheEnd heap).length = (heap.map (fun e => e.Id)).length := by
      rw [← hidperm.length_eq, List.length_map]
    have hsub : heap.map (fun e => e.Id) ⊆ dag.Nodes.map (fun n => n.Id) := by
      intro id hid
      obtain ⟨e, he, rfl⟩ := List.mem_map.1 hid
      obtain ⟨n, hn, hnk, _⟩ := hkey e he
      exact List.mem_map.2 ⟨n, hn, (congrArg (fun k => k.1) hnk).symm⟩
    have h2 := (hnd.subperm hsub).length_le
    simp only [List.length_map] at h1 h2
    have := hfuel.2
    omega
  have hrange : ∀ x ∈ moveEndNodeAtTheEnd heap, x.Group ≤ MaxInt ∧ x.Branch < MaxInt := by
    intro x hx
    refine ⟨le_trans (hgrp2 x hx) hdepth, ?_⟩
    obtain ⟨n, hn, hnk⟩ := hkey2 x hx
    have hb : x.Branch = n.BranchId := congrArg (fun k => k.2.2) hnk
    rw [hb]
    exact hbranch n hn
  obtain ⟨out, hout, hperm2, _, _⟩ := reorderLoop_spec fuel (moveEndNodeAtTheEnd heap) [] hlen
    (hidperm.nodup_iff.2 hnd) hrange
  have hidperm2 : (out.map (fun e => e.Id)).Perm (heap.map (fun e => e.Id)) :=
    (hperm2.map (fun e => e.Id)).trans hidperm
  refine ⟨{ ReqId := reqId, DagNodes := out, NextGroup := 0 }, ?_, ?_, ?_, ?_⟩
  · unfold InitProgressRecursive
    rw [hex]
    simp only [Res.bind, filterMap_range_heap, reorder, hout, List.nil_append]
  · exact hidperm2.nodup_iff.2 hnd
  · intro id
    rw [hidperm2.mem_iff, hids id]
  · intro e he
    obtain ⟨n, hn, hnk⟩ := hkey2 e (hperm2.mem_iff.1 he)
    exact ⟨n, hn, (congrArg (fun k => k.1) hnk).symm, congrArg (fun k => k.2.1) hnk,
      congrArg (fun k => k.2.2) hnk⟩

/-- The ledger of the DAG `dagParallel`, whose seven nodes are all
reachable. -/
theorem InitProgressRecursive_entries_witness :
    ∃ p, InitProgressRecursive 7 "r" dagParallel = Res.ok p ∧
      (p.DagNodes.map (fun e => e.Id)).Nodup ∧
      (∀ id, id ∈ p.DagNodes.map (fun e => e.Id) ↔ Reach dagParallel dagParallel.Start.Id id) ∧
      (∀ e ∈ p.DagNodes, ∃ n ∈ dagParallel.Nodes,
        n.Id = e.Id ∧ e.Typ = n.Typ ∧ e.Branch = n.BranchId) :=
  InitProgressRecursive_entries 7 "r" dagParallel rankParallel
    ⟨by decide, by decide, by decide, by decide, by decide⟩ (by decide) (by decide) (by decide)

/-- C22, the code at the failing input: `dagParallelMaxBranch` is a finite
acyclic DAG with unique node ids in which every successor id resolves, and
`InitProgressRecursive` returns no ledger for it, whatever the number of
rounds: once `start`, `fanout` and `A` are removed, `popMinGroupAndBranchNode`
finds no node of least branch among the nodes of group 2 and panics. -/
theorem InitProgressRecursive_MaxInt_branch :
    WellFormed dagParallelMaxBranch rankParallel ∧
    popMinGroupAndBranchNode
        [⟨"B", DagNodeType.Simple, Pending, 3, 0⟩, ⟨"fanin", DagNodeType.FanIn, Pending, 3, 0⟩,
          ⟨"C", DagNodeType.Simple, Pending, 2, MaxInt⟩,
          ⟨"end", DagNodeType.End, Pending, 4, 0⟩]
      = Res.panic ∧
    (∀ k : Nat, InitProgressRecursive (k + 7) "r" dagParallelMaxBranch = Res.panic) :=
  ⟨⟨by decide, by decide, by decide, by decide, by decide⟩, by decide, fun _ => rfl⟩

/-! ## `extractNodeInfo` on a parallel region -/

/-- C21, the code at the failing input: in the list `extractNodeInfo` builds
for `dagParallel` the `FanIn` node has group 3, while its predecessors `B` and
`C` have groups 3 and 2, whose maximum plus one is 4. -/
theorem extractNodeInfo_fanIn_last_visit :
    dagParallel.Find "B" = some ⟨"B", DagNodeType.Simple, 0, ["fanin"]⟩ ∧
    dagParallel.Find "C" = some ⟨"C", DagNodeType.Simple, 1, ["fanin"]⟩ ∧
    ∃ infos heap,
      extractNodeInfo 7 dagParallel (some dagParallel.Start) 0 [] [] = Res.ok (infos, heap) ∧
      (infos.filterMap (fun ptr => heap[ptr]?)).map (fun e => (e.Id, e.Group))
        = [("start", 0), ("fanout", 1), ("A", 2), ("B", 3), ("fanin", 3), ("end", 5), ("C", 2)] :=
  ⟨by decide, by decide, _, _, rfl, by decide⟩

/-! ## What `NextNodes` leaves unchanged -/

/-- C23: `NextNodes` changes nothing of the ledger but `NextGroup`, and not
even that when it returns an error. -/
theorem NextNodes_frame (p : Progress) :
    (NextNodes p).2.ReqId = p.ReqId ∧ (NextNodes p).2.DagNodes = p.DagNodes ∧
    ((NextNodes p).1.2 ≠ none → (NextNodes p).2 = p) := by
  cases h : minPendingGroupLoop p.DagNodes with
  | none =>
    rw [NextNodes_of_loop_none p h]
    exact ⟨rfl, rfl, fun _ => rfl⟩
  | some g =>
    rw [NextNodes_of_loop p g h]
    exact ⟨rfl, rfl, fun hne => absurd rfl hne⟩

/-! ## `Progress.Equals` -/

theorem DagNodeInfo_Equals_iff (a b : DagNodeInfo) : a.Equals b = true ↔ a = b := by
  obtain ⟨i, t, s, g, br⟩ := a
  obtain ⟨i2, t2, s2, g2, br2⟩ := b
  simp [DagNodeInfo.Equals, and_assoc]

theorem equalsLoop_append (l extra : List DagNodeInfo) :
    equalsLoop l (l ++ extra) = Res.ok none := by
  induction l with
  | nil => simp [equalsLoop]
  | cons a rest ih =>
    simp [equalsLoop, (DagNodeInfo_Equals_iff a a).2 rfl, ih]

theorem equalsLoop_short (l2 extra : List DagNodeInfo) (h : extra ≠ []) :
    equalsLoop (l2 ++ extra) l2 = Res.panic := by
  induction l2 with
  | nil =>
    cases extra with
    | nil => exact absurd rfl h
    | cons a rest => simp [equalsLoop]
  | cons a rest ih =>
    simp [equalsLoop, (DagNodeInfo_Equals_iff a a).2 rfl, ih]

theorem equalsLoop_cases (l l2 : List DagNodeInfo) :
    (equalsLoop l l2 = Res.ok none ∧ ∃ extra, l2 = l ++ extra) ∨
    (equalsLoop l l2 = Res.panic ∧ ∃ extra, extra ≠ [] ∧ l = l2 ++ extra) ∨
    (equalsLoop l l2 = Res.ok (some false) ∧ (¬ ∃ extra, l2 = l ++ extra) ∧
      ¬ ∃ extra, l = l2 ++ extra) := by
  induction l generalizing l2 with
  | nil => left; exact ⟨by simp [equalsLoop], l2, rfl⟩
  | cons a rest ih =>
    cases l2 with
    | nil => right; left; exact ⟨by simp [equalsLoop], a :: rest, by simp, rfl⟩
    | cons b rest2 =>
      by_cases hab : a = b
      · subst hab
        have hE := (DagNodeInfo_Equals_iff a a).2 rfl
        rcases ih rest2 with ⟨h1, e, he⟩ | ⟨h1, e, hne, he⟩ | ⟨h1, hn1, hn2⟩
        · left; exact ⟨by simp [equalsLoop, hE, h1], e, by simp [he]⟩
        · right; left; exact ⟨by simp [equalsLoop, hE, h1], e, hne, by simp [he]⟩
        · right; right
          refine ⟨by simp [equalsLoop, hE, h1], ?_, ?_⟩
          · rintro ⟨e, he⟩
            exact hn1 ⟨e, by simpa using he⟩
          · rintro ⟨e, he⟩
            exact hn2 ⟨e, by simpa using he⟩
      · right; right
        have hE : a.Equals b = false := by
          rw [Bool.eq_false_iff]
          intro h
          exact hab ((DagNodeInfo_Equals_iff a b).1 h)
        refine ⟨by simp [equalsLoop, hE], ?_, ?_⟩
        · rintro ⟨e, he⟩
          simp only [List.cons_append, List.cons.injEq] at he
          exact hab he.1.symm
        · rintro ⟨e, he⟩
          simp only [List.cons_append, List.cons.injEq] at he
          exact hab he.1

/-- C25: when `p2` has at least as many nodes as `p`, `p.Equals(p2)` returns,
and returns true exactly when `ReqId` and `NextGroup` agree and the nodes of
`p` are the first nodes of `p2`; a ledger is reported equal to every extension
of itself, while the extension compared with the ledger runs out of range.
When `p2` has fewer nodes than `p`, the call returns false on a difference
within the nodes of `p2` and panics otherwise. -/
theorem Equals_extension (p p2 : Progress) :
    (p.DagNodes.length ≤ p2.DagNodes.length →
      (p.Equals p2 = Res.ok true ∨ p.Equals p2 = Res.ok false) ∧
      (p.Equals p2 = Res.ok true ↔
        p.ReqId = p2.ReqId ∧ p.NextGroup = p2.NextGroup ∧
          ∃ extra, p2.DagNodes = p.DagNodes ++ extra)) ∧
    (∀ extra, p.Equals { p with DagNodes := p.DagNodes ++ extra } = Res.ok true) ∧
    (∀ extra, extra ≠ [] →
      Progress.Equals { p with DagNodes := p.DagNodes ++ extra } p = Res.panic) ∧
    (p2.DagNodes.length < p.DagNodes.length →
      (p.Equals p2 = Res.panic ∨ p.Equals p2 = Res.ok false) ∧
      (p.Equals p2 = Res.panic ↔ ∃ extra, p.DagNodes = p2.DagNodes ++ extra)) := by
  refine ⟨?_, ?_, ?_, ?_⟩
  · intro hlen
    rcases equalsLoop_cases p.DagNodes p2.DagNodes with
      ⟨h1, e, he⟩ | ⟨h1, e, hne, he⟩ | ⟨h1, hn1, hn2⟩
    · have hval : p.Equals p2
          = Res.ok (decide (p.ReqId = p2.ReqId) && decide (p.NextGroup = p2.NextGroup)) := by
        unfold Progress.Equals
        rw [h1]
        rfl
      rw [hval]
      by_cases hr : p.ReqId = p2.ReqId <;> by_cases hg : p.NextGroup = p2.NextGroup <;>
        simp [hr, hg, he]
    · exfalso
      have hl := congrArg List.length he
      simp only [List.length_append] at hl
      have : 0 < e.length := List.length_pos.2 hne
      omega
    · have hval : p.Equals p2 = Res.ok false := by
        unfold Progress.Equals
        rw [h1]
        rfl
      rw [hval]
      refine ⟨Or.inr rfl, ?_⟩
      constructor
      · intro h
        simp at h
      · rintro ⟨_, _, hex⟩
        exact absurd hex hn1
  · intro extra
    unfold Progress.Equals
    simp only [equalsLoop_append, Res.bind]
    simp
  · intro extra hne
    unfold Progress.Equals
    simp only [equalsLoop_short p.DagNodes extra hne, Res.bind]
  · intro hlen
    rcases equalsLoop_cases p.DagNodes p2.DagNodes with
      ⟨h1, e, he⟩ | ⟨h1, e, hne, he⟩ | ⟨h1, hn1, hn2⟩
    · exfalso
      have hl := congrArg List.length he
      simp only [List.length_append] at hl
      omega
    · have hval : p.Equals p2 = Res.panic := by
        unfold Progress.Equals
        rw [h1]
        rfl
      rw [hval]
      exact ⟨Or.inl rfl, fun _ => ⟨e, he⟩, fun _ => rfl⟩
    · have hval : p.Equals p2 = Res.ok false := by
        unfold Progress.Equals
        rw [h1]
        rfl
      rw [hval]
      refine ⟨Or.inr rfl, ?_⟩
      constructor
      · intro h
        simp at h
      · intro hex
        exact absurd hex hn2

/-- Witness for C25: `ledgerSkipped` and its extension by two nodes. -/
theorem Equals_extension_witness :
    ledgerSkipped.Equals { ledgerSkipped with DagNodes := ledgerSkipped.DagNodes ++ [infoA, infoB] }
      = Res.ok true ∧
    Progress.Equals { ledgerSkipped with DagNodes := ledgerSkipped.DagNodes ++ [infoA, infoB] }
      ledgerSkipped = Res.panic :=
  ⟨(Equals_extension ledgerSkipped ledgerSkipped).2.1 [infoA, infoB],
    (Equals_extension ledgerSkipped ledgerSkipped).2.2.1 [infoA, infoB] (by decide)⟩

/-! ## `SkipAll` -/

theorem SkipStep_refl (ids : List DagNodeId) (l : List DagNodeInfo) :
    List.Forall₂ (SkipStep ids) l l :=
  List.forall₂_same.2 (fun _ _ => ⟨Or.inl rfl, fun _ => rfl⟩)

theorem SkipStep_id {ids : List DagNodeId} {a b : DagNodeInfo} (h : SkipStep ids a b) :
    b.Id = a.Id := by
  rcases h.1 with rfl | rfl <;> rfl

theorem SkipStep_ids {ids : List DagNodeId} {l r : List DagNodeInfo}
    (h : List.Forall₂ (SkipStep ids) l r) : r.map (fun e => e.Id) = l.map (fun e => e.Id) := by
  induction h with
  | nil => rfl
  | cons hab _ ih => simp [SkipStep_id hab, ih]

theorem SkipStep_trans (id : DagNodeId) (ids : List DagNodeId) {l r t : List DagNodeInfo}
    (h1 : List.Forall₂ (SkipStep [id]) l r) (h2 : List.Forall₂ (SkipStep ids) r t) :
    List.Forall₂ (SkipStep (id :: ids)) l t := by
  induction h1 generalizing t with
  | nil => cases h2; exact List.Forall₂.nil
  | cons hab _ ih =>
    cases h2 with
    | cons hbc hrest =>
      refine List.Forall₂.cons ⟨?_, ?_⟩ (ih hrest)
      · rcases hab.1 with rfl | rfl
        · exact hbc.1
        · rcases hbc.1 with rfl | rfl
          · exact Or.inr rfl
          · exact Or.inr rfl
      · intro hnot
        have h1 := hab.2 (fun h => hnot (by simp only [List.mem_singleton] at h; simp [h]))
        subst h1
        exact hbc.2 (fun h => hnot (List.mem_cons_of_mem _ h))

theorem SkipStep_find_skipped (ids : List DagNodeId) (id : DagNodeId) {l r : List DagNodeInfo}
    (h : List.Forall₂ (SkipStep ids) l r)
    (hl : (l.find? (fun m => decide (m.Id = id))).map (fun m => m.Status) = some Skipped) :
    (r.find? (fun m => decide (m.Id = id))).map (fun m => m.Status) = some Skipped := by
  induction h with
  | nil => simp at hl
  | @cons a b l' r' hab _ ih =>
    have hid := SkipStep_id hab
    by_cases ha : a.Id = id
    · have hb : b.Id = id := by rw [hid, ha]
      simp only [List.find?_cons, ha, hb, decide_True, Option.map_some'] at hl ⊢
      rcases hab.1 with rfl | rfl
      · exact hl
      · rfl
    · have hb : ¬ b.Id = id := by rw [hid]; exact ha
      simp only [List.find?_cons, ha, hb, decide_False] at hl ⊢
      exact ih hl

theorem setStatusLoop_find (id : DagNodeId) (s : DagNodeStatus) (l r : List DagNodeInfo)
    (h : setStatusLoop id s l = some r) :
    (r.find? (fun m => decide (m.Id = id))).map (fun m => m.Status) = some s := by
  induction l generalizing r with
  | nil => simp [setStatusLoop] at h
  | cons a rest ih =>
    by_cases ha : a.Id = id
    · simp only [setStatusLoop, ha, if_true, Option.some.injEq] at h
      subst h
      simp [List.find?_cons]
    · simp only [setStatusLoop, ha, if_false, Option.map_eq_some'] at h
      obtain ⟨r', hr', rfl⟩ := h
      simp [List.find?_cons, ha, ih r' hr']

theorem SkipNode_cases (p : Progress) (id : DagNodeId) :
    ((∀ m ∈ p.DagNodes, m.Id ≠ id) ∧
      SkipNode p id = (p, some ("no node to skip with id " ++ id
        ++ " exists in the dag for request " ++ p.ReqId))) ∨
    ((∃ m ∈ p.DagNodes, m.Id = id) ∧
      ∃ r, SkipNode p id = ({ p with DagNodes := r }, none) ∧
        List.Forall₂ (SkipStep [id]) p.DagNodes r ∧
        (r.find? (fun m => decide (m.Id = id))).map (fun m => m.Status) = some Skipped) := by
  cases h : setStatusLoop id Skipped p.DagNodes with
  | none =>
    left
    refine ⟨(setStatusLoop_eq_none id Skipped p.DagNodes).1 h, ?_⟩
    unfold SkipNode
    rw [h]
  | some r =>
    right
    refine ⟨?_, r, ?_, ?_, setStatusLoop_find id Skipped p.DagNodes r h⟩
    · by_contra hno
      have hall : ∀ m ∈ p.DagNodes, m.Id ≠ id := fun m hm hid => hno ⟨m, hm, hid⟩
      rw [(setStatusLoop_eq_none id Skipped p.DagNodes).2 hall] at h
      cases h
    · unfold SkipNode
      rw [h]
    · refine List.Forall₂.imp ?_ (setStatusLoop_forall₂ id Skipped p.DagNodes r h)
      intro a b hab
      rcases hab with rfl | ⟨ha, rfl⟩
      · exact ⟨Or.inl rfl, fun _ => rfl⟩
      · exact ⟨Or.inr rfl, fun hn => absurd (by simp [ha]) hn⟩

theorem mem_ids_iff (l : List DagNodeInfo) (id : DagNodeId) :
    id ∈ l.map (fun e => e.Id) ↔ ∃ m ∈ l, m.Id = id := by
  simp [List.mem_map]

theorem SkipAll_spec (nodes : List DagNode) (p : Progress) :
    ((SkipAll p nodes).1.ReqId = p.ReqId ∧ (SkipAll p nodes).1.NextGroup = p.NextGroup ∧
      List.Forall₂ (SkipStep (nodes.map (fun n => n.Id))) p.DagNodes
        (SkipAll p nodes).1.DagNodes) ∧
    ((SkipAll p nodes).2 ≠ none ↔ ∃ n ∈ nodes, n.Id ∉ p.DagNodes.map (fun e => e.Id)) ∧
    ((SkipAll p nodes).2 = none → ∀ n ∈ nodes,
      ((SkipAll p nodes).1.DagNodes.find? (fun m => decide (m.Id = n.Id))).map
        (fun m => m.Status) = some Skipped) := by
  induction nodes generalizing p with
  | nil =>
    refine ⟨⟨rfl, rfl, SkipStep_refl _ _⟩, ?_, ?_⟩
    · simp [SkipAll]
    · intro _ n hn
      simp at hn
  | cons x rest ih =>
    rcases SkipNode_cases p x.Id with ⟨hno, hskip⟩ | ⟨hyes, r, hskip, hstep, hfind⟩
    · have hval : SkipAll p (x :: rest) = (p, some ("no node to skip with id " ++ x.Id
          ++ " exists in the dag for request " ++ p.ReqId)) := by
        simp only [SkipAll, hskip]
      rw [hval]
      refine ⟨⟨rfl, rfl, SkipStep_refl _ _⟩, ?_, ?_⟩
      · refine ⟨fun _ => ⟨x, by simp, ?_⟩, fun _ => by simp⟩
        rw [mem_ids_iff]
        rintro ⟨m, hm, hid⟩
        exact hno m hm hid
      · intro h
        simp at h
    · have hval : SkipAll p (x :: rest) = SkipAll { p with DagNodes := r } rest := by
        simp only [SkipAll, hskip]
      obtain ⟨⟨h1, h2, h3⟩, h4, h5⟩ := ih { p with DagNodes := r }
      have hids : r.map (fun e => e.Id) = p.DagNodes.map (fun e => e.Id) := SkipStep_ids hstep
      rw [hval]
      refine ⟨⟨h1, h2, ?_⟩, ?_, ?_⟩
      · exact SkipStep_trans x.Id _ hstep h3
      · rw [h4]
        simp only [hids, List.mem_cons, exists_eq_or_imp]
        constructor
        · exact fun h => Or.inr h
        · rintro (h | h)
          · exact absurd ((mem_ids_iff _ _).2 hyes) h
          · exact h
      · intro hnone n hn
        rcases List.mem_cons.1 hn with rfl | hn
        · exact SkipStep_find_skipped _ _ h3 hfind
        · exact h5 hnone n hn

theorem SkipAll_stops (pre post : List DagNode) (x : DagNode) (p : Progress)
    (hpre : ∀ n ∈ pre, n.Id ∈ p.DagNodes.map (fun e => e.Id))
    (hx : x.Id ∉ p.DagNodes.map (fun e => e.Id)) :
    SkipAll p (pre ++ x :: post) = ((SkipAll p pre).1, (SkipNode p x.Id).2) ∧
    (SkipAll p pre).2 = none ∧ (SkipNode p x.Id).2 ≠ none := by
  induction pre generalizing p with
  | nil =>
    rcases SkipNode_cases p x.Id with ⟨_, hskip⟩ | ⟨hyes, _⟩
    · simp [SkipAll, hskip]
    · exact absurd ((mem_ids_iff _ _).2 hyes) hx
  | cons y rest ih =>
    rcases SkipNode_cases p y.Id with ⟨hno, _⟩ | ⟨_, r, hskip, hstep, _⟩
    · exfalso
      obtain ⟨m, hm, hid⟩ := (mem_ids_iff _ _).1 (hpre y (by simp))
      exact hno m hm hid
    · have hids : r.map (fun e => e.Id) = p.DagNodes.map (fun e => e.Id) := SkipStep_ids hstep
      have hrec := ih { p with DagNodes := r }
        (fun n hn => by simpa only [hids] using hpre n (by simp [hn]))
        (by simpa only [hids] using hx)
      have hx1 : ∀ m ∈ p.DagNodes, m.Id ≠ x.Id :=
        fun m hm hid => hx ((mem_ids_iff _ _).2 ⟨m, hm, hid⟩)
      have hx2 : ∀ m ∈ r, m.Id ≠ x.Id := by
        intro m hm hid
        apply hx
        rw [← hids]
        exact (mem_ids_iff _ _).2 ⟨m, hm, hid⟩
      have herr : (SkipNode { p with DagNodes := r } x.Id).2 = (SkipNode p x.Id).2 := by
        unfold SkipNode
        rw [(setStatusLoop_eq_none x.Id Skipped p.DagNodes).2 hx1]
        simp only [(setStatusLoop_eq_none x.Id Skipped r).2 hx2]
      have h1 : SkipAll p (y :: rest ++ x :: post)
          = SkipAll { p with DagNodes := r } (rest ++ x :: post) := by
        rw [List.cons_append]
        simp only [SkipAll, hskip]
      have h2 : SkipAll p (y :: rest) = SkipAll { p with DagNodes := r } rest := by
        simp only [SkipAll, hskip]
      rw [h1, h2, hrec.1, herr]
      exact ⟨rfl, hrec.2.1, by rw [← herr]; exact hrec.2.2⟩

/-- C24: `SkipAll` is `SkipNode` on the listed ids in order, up to the first
id that no ledger node has.  It returns an error exactly when some listed id
is absent.  Each entry of the ledger is left as it was or made Skipped, and
left as it was when its id is not listed; `ReqId` and `NextGroup` stay.  On
success the first entry with each listed id is Skipped.  When the first absent
id comes after the nodes `pre`, the ledger is the one `SkipAll` leaves for
`pre`, which succeeds, and what is listed after the absent id has no effect. -/
theorem SkipAll_behaviour (p : Progress) (nodes : List DagNode) :
    (SkipAll p [] = (p, none) ∧
      ∀ n rest, SkipAll p (n :: rest)
        = if (SkipNode p n.Id).2 = none then SkipAll (SkipNode p n.Id).1 rest
          else SkipNode p n.Id) ∧
    ((SkipAll p nodes).2 ≠ none ↔ ∃ n ∈ nodes, ∀ m ∈ p.DagNodes, m.Id ≠ n.Id) ∧
    ((SkipAll p nodes).1.ReqId = p.ReqId ∧ (SkipAll p nodes).1.NextGroup = p.NextGroup ∧
      List.Forall₂ (SkipStep (nodes.map (fun n => n.Id))) p.DagNodes
        (SkipAll p nodes).1.DagNodes) ∧
    ((SkipAll p nodes).2 = none → ∀ n ∈ nodes,
      ((SkipAll p nodes).1.DagNodes.find? (fun m => decide (m.Id = n.Id))).map
        (fun m => m.Status) = some Skipped) ∧
    (∀ pre x post, nodes = pre ++ x :: post →
      (∀ n ∈ pre, ∃ m ∈ p.DagNodes, m.Id = n.Id) → (∀ m ∈ p.DagNodes, m.Id ≠ x.Id) →
      SkipAll p nodes = ((SkipAll p pre).1, (SkipNode p x.Id).2) ∧
      (SkipAll p pre).2 = none ∧ (SkipNode p x.Id).2 ≠ none ∧
      ∀ n ∈ pre, ((SkipAll p nodes).1.DagNodes.find? (fun m => decide (m.Id = n.Id))).map
        (fun m => m.Status) = some Skipped) := by
  obtain ⟨h1, h2, h3⟩ := SkipAll_spec nodes p
  refine ⟨⟨rfl, ?_⟩, ?_, h1, h3, ?_⟩
  · intro n rest
    rcases SkipNode_cases p n.Id with ⟨_, hskip⟩ | ⟨_, r, hskip, _, _⟩
    · simp [SkipAll, hskip]
    · simp [SkipAll, hskip]
  · rw [h2]
    constructor
    · rintro ⟨n, hn, habs⟩
      exact ⟨n, hn, fun m hm hid => habs ((mem_ids_iff _ _).2 ⟨m, hm, hid⟩)⟩
    · rintro ⟨n, hn, habs⟩
      refine ⟨n, hn, fun hmem => ?_⟩
      obtain ⟨m, hm, hid⟩ := (mem_ids_iff _ _).1 hmem
      exact habs m hm hid
  · intro pre x post hnodes hpre hx
    rw [hnodes]
    obtain ⟨hs1, hs2, hs3⟩ := SkipAll_stops pre post x p
      (fun n hn => (mem_ids_iff _ _).2 (hpre n hn))
      (fun hmem => by
        obtain ⟨m, hm, hid⟩ := (mem_ids_iff _ _).1 hmem
        exact hx m hm hid)
    refine ⟨hs1, hs2, hs3, ?_⟩
    rw [hs1]
    exact (SkipAll_spec pre p).2.2 hs2

/-- Witness for C24: skipping `A`, `C`, `B` in `ledgerRunning`, which has no
node `C`, stops with an error after `A` has been skipped. -/
theorem SkipAll_behaviour_witness :
    SkipAll ledgerRunning nodesToSkip
      = ((SkipAll ledgerRunning [⟨"A", DagNodeType.Simple, 0, ["B"]⟩]).1,
          (SkipNode ledgerRunning "C").2) ∧
    (SkipAll ledgerRunning [⟨"A", DagNodeType.Simple, 0, ["B"]⟩]).2 = none ∧
    (SkipNode ledgerRunning "C").2 ≠ none ∧
    ∀ n ∈ [(⟨"A", DagNodeType.Simple, 0, ["B"]⟩ : DagNode)],
      ((SkipAll ledgerRunning nodesToSkip).1.DagNodes.find?
        (fun m => decide (m.Id = n.Id))).map (fun m => m.Status) = some Skipped :=
  (SkipAll_behaviour ledgerRunning nodesToSkip).2.2.2.2
    [⟨"A", DagNodeType.Simple, 0, ["B"]⟩] ⟨"C", DagNodeType.Simple, 1, ["fanin"]⟩
    [⟨"B", DagNodeType.Simple, 0, ["fanin"]⟩] rfl (by decide) (by decide)

end fc

namespace asl

/-! ## `NewPath` -/

theorem HasPrefix_dollar (s : String) :
    HasPrefix s "$" = true ↔ ∃ rest, s.data = '$' :: rest := by
  unfold HasPrefix
  have hd : ("$" : String).data = ['$'] := rfl
  rw [hd]
  cases hs : s.data with
  | nil => simp [List.isPrefixOf]
  | cons c rest =>
    simp only [List.isPrefixOf, Bool.and_true, beq_iff_eq, List.cons.injEq, exists_and_left,
      exists_eq', and_true]
    exact eq_comm

/-- C15, the code at the failing input: `NewPath` accepts a string that
starts with `$` and holds a comma, a colon or a question mark, and returns it
as a path. -/
theorem NewPath_accepts_comma :
    ',' ∈ pathWithComma.data ∧ NewPath pathWithComma = (some pathWithComma, none) ∧
    NewPath "$a:b" = (some "$a:b", none) ∧ NewPath "$a?b" = (some "$a?b", none) := by
  decide

/-- C16: when `NewPath` returns without error, the string starts with the
character `$` and the path returned is the string itself; a string that does
not start with `$` is rejected with an error and no path. -/
theorem NewPath_dollar (s : String) :
    ((NewPath s).2 = none → (∃ rest, s.data = '$' :: rest) ∧ (NewPath s).1 = some s) ∧
    (∀ p, (NewPath s).1 = some p → (∃ rest, s.data = '$' :: rest) ∧ p = s) ∧
    ((¬ ∃ rest, s.data = '$' :: rest) →
      (NewPath s).1 = none ∧
      (NewPath s).2 = some "A JSONPath should start with a $ character") := by
  by_cases hp : HasPrefix s "$" = true
  · have hd := (HasPrefix_dollar s).1 hp
    by_cases hc : (Contains s "@" || Contains s "@") = true
    · have h : NewPath s = (none, some ("A reference path should not contain any of the "
          ++ "following characters: " ++ "'@' ',' ':' '?' ")) := by
        unfold NewPath
        simp only [hp, hc]
        rfl
      rw [h]
      refine ⟨by simp, by simp, fun hn => absurd hd hn⟩
    · have h : NewPath s = (some s, none) := by
        unfold NewPath
        simp only [hp, hc]
        rfl
      rw [h]
      refine ⟨fun _ => ⟨hd, rfl⟩, ?_, fun hn => absurd hd hn⟩
      intro p hps
      simp only [Option.some.injEq] at hps
      exact ⟨hd, hps.symm⟩
  · have hd : ¬ ∃ rest, s.data = '$' :: rest := fun h => hp ((HasPrefix_dollar s).2 h)
    have h : NewPath s = (none, some "A JSONPath should start with a $ character") := by
      unfold NewPath
      simp only [hp]
      rfl
    rw [h]
    refine ⟨by simp, by simp, fun _ => ⟨rfl, rfl⟩⟩

/-- Witness for C16: a well-formed path is returned as it is. -/
theorem NewPath_dollar_witness :
    (∃ rest, pathPlain.data = '$' :: rest) ∧ (NewPath pathPlain).1 = some pathPlain :=
  (NewPath_dollar pathPlain).1 (by decide)

end asl

namespace executor

/-! ## `InvokeHandler` -/

/-- C17, the code under the conditions of the claim: when the request
decodes, has no command, `CUSTOM_CMD` is not set and every `os.Setenv` and
`os.WriteFile` succeeds, `InvokeHandler` ends in a run-time panic, with no
response and no handler process. -/
theorem InvokeHandler_no_command (sys : Sys) (req : InvocationRequest)
    (hdec : sys.Decode = Except.ok req) (hcmd : req.Command = [])
    (hcustom : sys.LookupEnv "CUSTOM_CMD" = none)
    (hset : ∀ k v, sys.Setenv k v = none) (hwrite : ∀ n d, sys.WriteFile n d = none) :
    InvokeHandler sys = { outcome := Outcome.panic, spawned := none } := by
  unfold InvokeHandler
  rw [hdec]
  cases hp : req.Params with
  | none => simp [hset, errorsJoin, chooseCommand, hcmd, hcustom, hp]
  | some b => simp [hset, hwrite, errorsJoin, chooseCommand, hcmd, hcustom, hp]

/-- Witness for C17: the system `sysNoCommand`. -/
theorem InvokeHandler_no_command_witness :
    InvokeHandler sysNoCommand = { outcome := Outcome.panic, spawned := none } :=
  InvokeHandler_no_command sysNoCommand
    { Command := [], Params := none, Handler := "h", HandlerDir := "/app" } rfl rfl rfl
    (fun _ _ => rfl) (fun _ _ => rfl)

end executor
